import Mathlib

/-!
# Hopcroft–Karp bipartite matching and DAG minimum path cover

A shallow embedding of `hopcroft_karp.h`, `hopcroft_karp.cc` and
`hopcroft_karp_dag_min_path_cover.cc`.

* `vector<T>` is a `List T`; an index is a C++ `int`, embedded as `Int`.
  `rd` reads and `wr` writes a cell.  An access outside the vector is undefined
  behaviour in C++; here a read outside gives the default value and a write
  outside changes nothing.
* `int` values are `Int`; the two sentinels are `NIL = -1` and
  `INF = numeric_limits<int>::max() = 2^31 - 1`.  The only arithmetic of the
  source is `dist[u] + 1`, kept as the exact sum.
* The sizes `n1`, `n2` given to the constructor are natural numbers (a negative
  size makes `vector::resize` throw).
* `queue<int>` is a list: front at the head, `push` appends at the end.
* Loops that C++ runs until a condition fails (`while (!q.empty())`, the
  recursion of `dfs`, `while (bfs())`, the walk of the path reconstruction) take
  a fuel argument and return `none` when it runs out; the entry points pass the
  bound that the theorems below prove sufficient.
-/

namespace HK

/-- The constant `NIL` of `hopcroft_karp.h`. -/
def NIL : Int := -1

/-- The constant `INF` of `hopcroft_karp.h`, the largest 32-bit `int`. -/
def INF : Int := 2147483647

/-- Read cell `i` of a vector. -/
def rd {α : Type} [Inhabited α] (xs : List α) (i : Int) : α :=
  if 0 ≤ i then xs.getD i.toNat default else default

/-- Write cell `i` of a vector. -/
def wr {α : Type} (xs : List α) (i : Int) (a : α) : List α :=
  if 0 ≤ i then xs.set i.toNat a else xs

/-- The values `0, 1, ..., n-1` of a loop `for (int u = 0; u < n; ++u)`. -/
def upto (n : Nat) : List Int := (List.range n).map Int.ofNat

/-- The private data of `class HopcroftKarp`. -/
structure HopcroftKarp where
  n1 : Nat
  n2 : Nat
  adj : List (List Int)
  matchU : List Int
  matchV : List Int
  dist : List Int
deriving DecidableEq

/-- The constructor `HopcroftKarp::HopcroftKarp(n1, n2)`: `resize` fills `adj` with
empty vectors and `dist` with zeros, `assign` fills the match vectors with `NIL`. -/
def HopcroftKarp.mk0 (n1 n2 : Nat) : HopcroftKarp :=
  { n1 := n1, n2 := n2,
    adj := List.replicate n1 [],
    matchU := List.replicate n1 NIL,
    matchV := List.replicate n2 NIL,
    dist := List.replicate n1 0 }

/-- The method `HopcroftKarp::add_edge(u, v)`. -/
def add_edge (s : HopcroftKarp) (u v : Int) : HopcroftKarp :=
  if 0 ≤ u ∧ u < (s.n1 : Int) ∧ 0 ≤ v ∧ v < (s.n2 : Int) then
    { s with adj := wr s.adj u (rd s.adj u ++ [v]) }
  else s

/-- A sequence of `add_edge` calls, one for each pair of the list, in order. -/
def add_edges (s : HopcroftKarp) (es : List (Int × Int)) : HopcroftKarp :=
  es.foldl (fun t e => add_edge t e.1 e.2) s

/-- First loop of `bfs`: every unmatched `u` gets distance `0` and is queued. -/
def bfsInit (matchU : List Int) : List Int → List Int × List Int → List Int × List Int
  | [], dq => dq
  | u :: us, (dist, q) =>
    if rd matchU u = NIL then bfsInit matchU us (wr dist u 0, q ++ [u])
    else bfsInit matchU us (dist, q)

/-- The loop `for (int v : adj[u])` of `bfs`, on the triple
`(dist, q, found_augmenting_path)`. -/
def bfsScan (matchV : List Int) (u : Int) :
    List Int → List Int × List Int × Bool → List Int × List Int × Bool
  | [], st => st
  | v :: vs, (dist, q, found) =>
    let next_u := rd matchV v
    if next_u = NIL then bfsScan matchV u vs (dist, q, true)
    else if rd dist next_u = INF then
      bfsScan matchV u vs (wr dist next_u (rd dist u + 1), q ++ [next_u], found)
    else bfsScan matchV u vs (dist, q, found)

/-- The loop `while (!q.empty())` of `bfs`; the fuel counts the pops. -/
def bfsLoop (adj : List (List Int)) (matchV : List Int) :
    Nat → List Int × List Int × Bool → Option (List Int × Bool)
  | _, (dist, [], found) => some (dist, found)
  | 0, (_, _ :: _, _) => none
  | fuel + 1, (dist, u :: q, found) =>
    bfsLoop adj matchV fuel (bfsScan matchV u (rd adj u) (dist, q, found))

/-- The method `HopcroftKarp::bfs()`: the returned flag and the state it leaves.
Each vertex is queued at most once, so `n1` pops are allowed. -/
def bfs (s : HopcroftKarp) : Option (Bool × HopcroftKarp) :=
  let dist0 := List.replicate s.dist.length INF
  let dq := bfsInit s.matchU (upto s.n1) (dist0, [])
  match bfsLoop s.adj s.matchV s.n1 (dq.1, dq.2, false) with
  | none => none
  | some (dist, found) => some (found, { s with dist := dist })

/-- The loop `for (int v : adj[u])` of `dfs(u)`, with the recursive call given as
`call`. -/
def dfsScan (call : HopcroftKarp → Int → Option (Bool × HopcroftKarp)) (u : Int) :
    List Int → HopcroftKarp → Option (Bool × HopcroftKarp)
  | [], s => some (false, { s with dist := wr s.dist u INF })
  | v :: vs, s =>
    let next_u := rd s.matchV v
    if next_u = NIL then
      some (true, { s with matchV := wr s.matchV v u, matchU := wr s.matchU u v })
    else if rd s.dist next_u = rd s.dist u + 1 then
      match call s next_u with
      | none => none
      | some (true, t) =>
        some (true, { t with matchV := wr t.matchV v u, matchU := wr t.matchU u v })
      | some (false, t) => dfsScan call u vs t
    else dfsScan call u vs s

/-- The method `HopcroftKarp::dfs(u)`; the fuel bounds the depth of the recursion. -/
def dfs : Nat → HopcroftKarp → Int → Option (Bool × HopcroftKarp)
  | 0, _, _ => none
  | fuel + 1, s, u => dfsScan (dfs fuel) u (rd s.adj u) s

/-- The loop `for (int u = 0; u < n1; ++u)` inside `while (bfs())`, on the state
and the counter `matching_size`. -/
def augment : List Int → HopcroftKarp → Nat → Option (HopcroftKarp × Nat)
  | [], s, k => some (s, k)
  | u :: us, s, k =>
    if rd s.matchU u = NIL then
      match dfs s.n1 s u with
      | none => none
      | some (true, t) => augment us t (k + 1)
      | some (false, t) => augment us t k
    else augment us s k

/-- The loop `while (bfs())` of `max_matching`; the fuel counts the calls of `bfs`. -/
def rounds : Nat → HopcroftKarp → Nat → Option (HopcroftKarp × Nat)
  | 0, _, _ => none
  | fuel + 1, s, k =>
    match bfs s with
    | none => none
    | some (false, t) => some (t, k)
    | some (true, t) =>
      match augment (upto t.n1) t k with
      | none => none
      | some (t2, k2) => rounds fuel t2 k2

/-- The last loop of `max_matching`: the pairs `(u, matchU[u])` with
`matchU[u] != NIL`, for `u` increasing. -/
def collect (s : HopcroftKarp) : List (Int × Int) :=
  (upto s.n1).filterMap (fun u => if rd s.matchU u ≠ NIL then some (u, rd s.matchU u) else none)

/-- The method `HopcroftKarp::max_matching()`: the returned vector and the state
left behind.  `matching_size` is only used for `reserve`. -/
def max_matching (s : HopcroftKarp) : Option (List (Int × Int) × HopcroftKarp) :=
  match rounds (min s.n1 s.n2 + 1) s 0 with
  | none => none
  | some (t, _) => some (collect t, t)

/-- The matcher built by the constructor followed by one `add_edge` call per pair. -/
def load (n1 n2 : Nat) (es : List (Int × Int)) : HopcroftKarp :=
  add_edges (HopcroftKarp.mk0 n1 n2) es

/-- The loop over `matching` of `dag_minimum_path_cover`, on the pair
`(next_node, is_potential_start)`. -/
def link : List (Int × Int) → List Int × List Bool → List Int × List Bool
  | [], st => st
  | (u, v) :: ms, (next_node, start) => link ms (wr next_node u v, wr start v false)

/-- The loop `while (current_vertex != NIL)` of the path reconstruction, on the pair
`(current_path, visited)`; the fuel counts the vertices appended. -/
def walk (next_node : List Int) :
    Nat → Int → List Int × List Bool → Option (List Int × List Bool)
  | 0, cur, (path, visited) =>
    if cur = NIL then some (path, visited)
    else if rd visited cur = true then some (path, visited)
    else none
  | fuel + 1, cur, (path, visited) =>
    if cur = NIL then some (path, visited)
    else if rd visited cur = true then some (path, visited)
    else walk next_node fuel (rd next_node cur) (path ++ [cur], wr visited cur true)

/-- The loop `for (int i = 0; i < num_vertices; ++i)` of the path reconstruction, on
the pair `(paths, visited)`. A walk appends at most `n` vertices. -/
def reconstruct (n : Nat) (next_node : List Int) (start : List Bool) :
    List Int → List (List Int) × List Bool → Option (List (List Int) × List Bool)
  | [], st => some st
  | i :: rest, (paths, visited) =>
    if rd start i = true ∧ rd visited i = false then
      match walk next_node n i ([], visited) with
      | none => none
      | some (path, visited2) =>
        reconstruct n next_node start rest
          (if path ≠ [] then paths ++ [path] else paths, visited2)
    else reconstruct n next_node start rest (paths, visited)

/-- The function `dag_minimum_path_cover(num_vertices, edges)`. -/
def dag_minimum_path_cover (n : Nat) (edges : List (Int × Int)) : Option (List (List Int)) :=
  match max_matching (load n n edges) with
  | none => none
  | some (matching, _) =>
    let ns := link matching (List.replicate n NIL, List.replicate n true)
    match reconstruct n ns.1 ns.2 (upto n) ([], List.replicate n false) with
    | none => none
    | some (paths, _) => some paths

/-! ## Vocabulary of the statements -/

/-- The directed graph of the edge list has no cycle: no vertex reaches itself along
one or more edges. -/
def Acyclic (edges : List (Int × Int)) : Prop :=
  ∀ x, ¬ Relation.TransGen (fun a b => (a, b) ∈ edges) x x

/-- Vertex `u` of `U` is the end of an alternating path that starts at a vertex of `U`
unmatched in `r`: the path leaves a vertex by an accepted edge of `es` (in range for
`n1`, `n2`) and comes back by a pair of the matching `r`. -/
inductive AltReach (n1 n2 : Nat) (es r : List (Int × Int)) : Int → Prop
  | start (u : Int) : 0 ≤ u → u < (n1 : Int) → u ∉ r.map Prod.fst → AltReach n1 n2 es r u
  | step (u v w : Int) : AltReach n1 n2 es r u →
      (u, v) ∈ es → (0 ≤ u ∧ u < (n1 : Int)) → (0 ≤ v ∧ v < (n2 : Int)) →
      (w, v) ∈ r → AltReach n1 n2 es r w

/-- An augmenting path exists relative to the matching `r`: an alternating path from an
unmatched vertex of `U` reaches, by one more accepted edge, an unmatched vertex of `V`. -/
def Augmenting (n1 n2 : Nat) (es r : List (Int × Int)) : Prop :=
  ∃ u v, AltReach n1 n2 es r u ∧ (u, v) ∈ es ∧ (0 ≤ u ∧ u < (n1 : Int)) ∧
    (0 ≤ v ∧ v < (n2 : Int)) ∧ v ∉ r.map Prod.snd

/-- The edges between consecutive vertices of a family of paths. -/
def stepsOf (Q : List (List Int)) : List (Int × Int) :=
  Q.flatMap (fun p => p.zip p.tail)

/-! ## Invariants and postconditions -/

/-- The vectors have the lengths the constructor gave them and every adjacency
entry is a vertex of `V`. -/
structure Shape (s : HopcroftKarp) : Prop where
  adj_len : s.adj.length = s.n1
  mU_len : s.matchU.length = s.n1
  mV_len : s.matchV.length = s.n2
  dist_len : s.dist.length = s.n1
  adj_rng : ∀ u v, v ∈ rd s.adj u → 0 ≤ v ∧ v < (s.n2 : Int)

/-- The vectors `matchU` and `matchV` are inverse to each other and every matched
pair is an edge. -/
structure Matching (s : HopcroftKarp) : Prop where
  uv : ∀ u, 0 ≤ u → u < (s.n1 : Int) → rd s.matchU u ≠ NIL →
    rd s.matchU u ∈ rd s.adj u ∧ rd s.matchV (rd s.matchU u) = u
  vu : ∀ v, 0 ≤ v → v < (s.n2 : Int) → rd s.matchV v ≠ NIL →
    (0 ≤ rd s.matchV v ∧ rd s.matchV v < (s.n1 : Int)) ∧ rd s.matchU (rd s.matchV v) = v

/-- Every distance label of a vertex of `U` is `INF` or a layer number below `n1`,
and `n1` is below `INF`. -/
def DistOK (s : HopcroftKarp) : Prop :=
  (s.n1 : Int) < INF ∧
  ∀ x, 0 ≤ x → x < (s.n1 : Int) → rd s.dist x = INF ∨ (0 ≤ rd s.dist x ∧ rd s.dist x < (s.n1 : Int))

/-- What a successful `dfs(u)` started in `s` leaves in `t`: `u` has a new partner,
the two match vectors are inverse to each other except at the old partner of `u`,
which still points at `u`, and exactly one more vertex of `V` is matched. -/
structure AugPost (s : HopcroftKarp) (u : Int) (t : HopcroftKarp) : Prop where
  new_ne : rd t.matchU u ≠ NIL
  new_adj : rd t.matchU u ∈ rd s.adj u
  new_back : rd t.matchV (rd t.matchU u) = u
  new_fresh : rd s.matchV (rd t.matchU u) ≠ u
  uv : ∀ x, 0 ≤ x → x < (s.n1 : Int) → x ≠ u → rd t.matchU x ≠ NIL →
    rd t.matchU x ∈ rd s.adj x ∧ rd t.matchV (rd t.matchU x) = x
  vu : ∀ y, 0 ≤ y → y < (s.n2 : Int) → y ≠ rd s.matchU u → rd t.matchV y ≠ NIL →
    (0 ≤ rd t.matchV y ∧ rd t.matchV y < (s.n1 : Int)) ∧ rd t.matchU (rd t.matchV y) = y
  keepU : ∀ x, rd s.matchU x ≠ NIL → rd t.matchU x ≠ NIL
  keepV : ∀ y, rd s.matchV y ≠ NIL → rd t.matchV y ≠ NIL
  cntV : t.matchV.count NIL + 1 = s.matchV.count NIL
  cntU : t.matchU.count NIL + (if rd s.matchU u = NIL then 1 else 0) = s.matchU.count NIL

/-- What a call `dfs(u)` started in `s` and returning `b` leaves in `t`. -/
structure DfsPost (s : HopcroftKarp) (u : Int) (b : Bool) (t : HopcroftKarp) : Prop where
  n1 : t.n1 = s.n1
  n2 : t.n2 = s.n2
  adj : t.adj = s.adj
  mU_len : t.matchU.length = s.matchU.length
  mV_len : t.matchV.length = s.matchV.length
  dist_len : t.dist.length = s.dist.length
  dist_mono : ∀ x, rd t.dist x = rd s.dist x ∨ rd t.dist x = INF
  frameU : ∀ x, x ≠ u → rd s.dist x ≤ rd s.dist u →
    rd t.dist x = rd s.dist x ∧ rd t.matchU x = rd s.matchU x
  frameV : ∀ y, rd s.matchV y ≠ NIL → rd s.dist (rd s.matchV y) ≤ rd s.dist u →
    rd t.matchV y = rd s.matchV y
  fail : b = false → t.matchU = s.matchU ∧ t.matchV = s.matchV ∧ rd t.dist u = INF
  succ : b = true → AugPost s u t

/-- The state `si` inside the loop of `dfs(u)` started in `s`: earlier nested calls
failed, so only distance labels above the layer of `u` were set to `INF`. -/
structure ScanInv (s : HopcroftKarp) (u : Int) (si : HopcroftKarp) : Prop where
  n1 : si.n1 = s.n1
  n2 : si.n2 = s.n2
  adj : si.adj = s.adj
  mU : si.matchU = s.matchU
  mV : si.matchV = s.matchV
  dist_len : si.dist.length = s.dist.length
  dist_mono : ∀ x, rd si.dist x = rd s.dist x ∨ rd si.dist x = INF
  low : ∀ x, rd s.dist x ≤ rd s.dist u → rd si.dist x = rd s.dist x

/-- From `u` a layered alternating path leads to a free vertex of `V`: `u` has a free
neighbour, or a neighbour whose partner lies one layer deeper and is itself such a
vertex. -/
inductive Good (s : HopcroftKarp) : Int → Prop
  | free (u v : Int) : v ∈ rd s.adj u → rd s.matchV v = NIL → Good s u
  | step (u v : Int) : v ∈ rd s.adj u → rd s.matchV v ≠ NIL →
      rd s.dist (rd s.matchV v) = rd s.dist u + 1 → Good s (rd s.matchV v) → Good s u

/-- The state `t` differs from `s` only in distance labels of vertices that are not
`Good` in `s`. -/
structure SameGood (s t : HopcroftKarp) : Prop where
  adj : t.adj = s.adj
  mU : t.matchU = s.matchU
  mV : t.matchV = s.matchV
  dist : ∀ x, rd t.dist x = rd s.dist x ∨ ¬ Good s x

/-- What the loop over `u` of one round, started in `s` with counter `k`, leaves in
`t` with counter `k2`. -/
structure AugmentPost (s : HopcroftKarp) (k : Nat) (t : HopcroftKarp) (k2 : Nat) : Prop where
  shape : Shape t
  matching : Matching t
  distOK : DistOK t
  n1 : t.n1 = s.n1
  n2 : t.n2 = s.n2
  adj : t.adj = s.adj
  mono : k ≤ k2
  cntU : t.matchU.count NIL + (k2 - k) = s.matchU.count NIL
  cntV : t.matchV.count NIL + (k2 - k) = s.matchV.count NIL
  keepU : ∀ x, rd s.matchU x ≠ NIL → rd t.matchU x ≠ NIL
  keepV : ∀ y, rd s.matchV y ≠ NIL → rd t.matchV y ≠ NIL

/-- Vertex `u` has been expanded by the layering: every free neighbour has set the
flag and every matched neighbour's partner has a distance label. -/
def Expanded (s : HopcroftKarp) (dist : List Int) (found : Bool) (u : Int) : Prop :=
  ∀ v ∈ rd s.adj u, (rd s.matchV v = NIL → found = true) ∧
    (rd s.matchV v ≠ NIL → rd dist (rd s.matchV v) ≠ INF)

/-- Invariant of the loop `while (!q.empty())` of `bfs` run on the state `s`. -/
structure BfsInv (s : HopcroftKarp) (dist q : List Int) (found : Bool) : Prop where
  len : dist.length = s.n1
  q_rng : ∀ x ∈ q, (0 ≤ x ∧ x < (s.n1 : Int)) ∧ rd dist x ≠ INF
  bound : ∀ x, 0 ≤ x → x < (s.n1 : Int) → rd dist x ≠ INF →
    0 ≤ rd dist x ∧ rd dist x + (dist.count INF : Int) < (s.n1 : Int)
  free0 : ∀ x, 0 ≤ x → x < (s.n1 : Int) → rd s.matchU x = NIL → rd dist x = 0
  closed : ∀ u, 0 ≤ u → u < (s.n1 : Int) → rd dist u ≠ INF → u ∈ q ∨ Expanded s dist found u
  parent : ∀ x, 0 ≤ x → x < (s.n1 : Int) → rd dist x ≠ INF →
    (rd dist x = 0 ∧ rd s.matchU x = NIL) ∨
    ∃ u v, (0 ≤ u ∧ u < (s.n1 : Int)) ∧ rd dist u ≠ INF ∧ v ∈ rd s.adj u ∧
      rd s.matchV v = x ∧ rd dist x = rd dist u + 1
  wit : found = true → ∃ u v, (0 ≤ u ∧ u < (s.n1 : Int)) ∧ rd dist u ≠ INF ∧
    v ∈ rd s.adj u ∧ rd s.matchV v = NIL

/-- Invariant of the first loop of `bfs`, with `us` the vertices still to visit. -/
structure InitInv (s : HopcroftKarp) (us dist q : List Int) : Prop where
  len : dist.length = s.n1
  todo : ∀ x ∈ us, rd dist x = INF
  done : ∀ x, 0 ≤ x → x < (s.n1 : Int) → x ∉ us →
    (rd s.matchU x = NIL → rd dist x = 0 ∧ x ∈ q) ∧ (rd s.matchU x ≠ NIL → rd dist x = INF)
  q_rng : ∀ x ∈ q, (0 ≤ x ∧ x < (s.n1 : Int)) ∧ rd s.matchU x = NIL ∧ rd dist x = 0
  cnt : q.length + dist.count INF = s.n1

/-- What `bfs()` started in `s` and returning `found` leaves in `t`. -/
structure BfsPost (s : HopcroftKarp) (found : Bool) (t : HopcroftKarp) : Prop where
  same : t = { s with dist := t.dist }
  inv : BfsInv s t.dist [] found

/-- What the loop `while (bfs())` started in `s` with counter `k` leaves in `t` with
counter `k2`. -/
structure RoundsPost (s : HopcroftKarp) (k : Nat) (t : HopcroftKarp) (k2 : Nat) : Prop where
  shape : Shape t
  matching : Matching t
  n1 : t.n1 = s.n1
  n2 : t.n2 = s.n2
  adj : t.adj = s.adj
  mono : k ≤ k2
  cntU : t.matchU.count NIL + (k2 - k) = s.matchU.count NIL
  cntV : t.matchV.count NIL + (k2 - k) = s.matchV.count NIL
  keepU : ∀ x, rd s.matchU x ≠ NIL → rd t.matchU x ≠ NIL
  keepV : ∀ y, rd s.matchV y ≠ NIL → rd t.matchV y ≠ NIL
  final : BfsInv t t.dist [] false
  again : bfs t = some (false, t)

/-- What the matching `r` leaves in `next_node` and `is_potential_start`. -/
structure Links (n : Nat) (r : List (Int × Int)) (nx : List Int) (st : List Bool) : Prop where
  nx_len : nx.length = n
  st_len : st.length = n
  nx_mem : ∀ u, 0 ≤ u → u < (n : Int) → rd nx u ≠ NIL → (u, rd nx u) ∈ r
  mem_nx : ∀ p ∈ r, rd nx p.1 = p.2
  st_iff : ∀ v, 0 ≤ v → v < (n : Int) → (rd st v = false ↔ v ∈ r.map Prod.snd)
  cnt : st.count false = r.length

/-- What one walk of the path reconstruction, started at `cur` with the vector
`visited`, appends (`ext`) and leaves in `visited2`. -/
structure WalkPost (n : Nat) (nx : List Int) (st : List Bool) (cur : Int)
    (visited : List Bool) (ext : List Int) (visited2 : List Bool) : Prop where
  len : visited2.length = n
  mem : ∀ x, rd visited2 x = true ↔ (rd visited x = true ∨ x ∈ ext)
  rng : ∀ x ∈ ext, 0 ≤ x ∧ x < (n : Int)
  fresh : ∀ x ∈ ext, rd visited x = false
  nodup : ext.Nodup
  chain : List.Chain' (fun a b => rd nx a = b) ext
  head : ((cur = NIL ∨ rd visited cur = true) ∧ ext = []) ∨
    (cur ≠ NIL ∧ rd visited cur = false ∧ ext.head? = some cur)
  nonstart : ∀ x ∈ ext, x = cur ∨ rd st x = false
  closed : ∀ x ∈ ext, rd nx x ≠ NIL → rd visited2 (rd nx x) = true

/-- Invariant of the outer loop of the path reconstruction, with `rest` the vertices
still to visit. -/
structure RecInv (n : Nat) (nx : List Int) (st : List Bool) (rest : List Int)
    (paths : List (List Int)) (visited : List Bool) : Prop where
  len : visited.length = n
  mem : ∀ x, rd visited x = true ↔ x ∈ paths.flatten
  rng : ∀ x ∈ paths.flatten, 0 ≤ x ∧ x < (n : Int)
  nodup : paths.flatten.Nodup
  chain : ∀ p ∈ paths, p ≠ [] ∧ List.Chain' (fun a b => rd nx a = b) p
  closed : ∀ x, rd visited x = true → rd nx x ≠ NIL → rd visited (rd nx x) = true
  done : ∀ x, 0 ≤ x → x < (n : Int) → x ∉ rest → rd st x = true → rd visited x = true
  todo : ∀ x ∈ rest, rd st x = true → rd visited x = false

/-- What `dag_minimum_path_cover(n, edges)` returns (`paths`), stated with the matching
`r` and the matcher state `t` that `max_matching()` produced inside it. -/
structure DagPost (n : Nat) (edges : List (Int × Int)) (r : List (Int × Int))
    (t : HopcroftKarp) (paths : List (List Int)) : Prop where
  matched : max_matching (load n n edges) = some (r, t)
  result : dag_minimum_path_cover n edges = some paths
  r_eq : r = collect t
  shape : Shape t
  matching : Matching t
  final : BfsInv t t.dist [] false
  adj : ∀ x y, y ∈ rd t.adj x ↔
    ((x, y) ∈ edges ∧ 0 ≤ x ∧ x < (n : Int) ∧ 0 ≤ y ∧ y < (n : Int))
  r_rng : ∀ p ∈ r, (0 ≤ p.1 ∧ p.1 < (n : Int)) ∧ (0 ≤ p.2 ∧ p.2 < (n : Int))
  r_edges : ∀ p ∈ r, p ∈ edges
  cnt : paths.length + r.length = n
  rng : ∀ x ∈ paths.flatten, 0 ≤ x ∧ x < (n : Int)
  nodup : paths.flatten.Nodup
  nonempty : ∀ p ∈ paths, p ≠ []
  chain : ∀ p ∈ paths, List.Chain' (fun a b => (a, b) ∈ r) p
  cover : (∀ y, 0 ≤ y → y < (n : Int) → (∀ x, (x, y) ∈ r → x ∈ paths.flatten) →
    y ∈ paths.flatten)

/-! ## States reached through the public interface and inside a round -/

/-- The states of a matcher `HopcroftKarp(n1, n2)` that the public interface can reach,
with the list of all pairs passed to `add_edge` so far: the constructor, then any
sequence of `add_edge` and `max_matching()` calls. -/
inductive Reach (n1 n2 : Nat) : List (Int × Int) → HopcroftKarp → Prop
  | init : Reach n1 n2 [] (HopcroftKarp.mk0 n1 n2)
  | add (es : List (Int × Int)) (s : HopcroftKarp) (u v : Int) :
      Reach n1 n2 es s → Reach n1 n2 (es ++ [(u, v)]) (add_edge s u v)
  | query (es : List (Int × Int)) (s t : HopcroftKarp) (r : List (Int × Int)) :
      Reach n1 n2 es s → max_matching s = some (r, t) → Reach n1 n2 es t

/-- The states in which `max_matching()`, called in a reachable state, evaluates the
loop condition `while (bfs())`. -/
inductive Run (n1 n2 : Nat) (es : List (Int × Int)) : HopcroftKarp → Prop
  | start (s : HopcroftKarp) : Reach n1 n2 es s → Run n1 n2 es s
  | round (s t t2 : HopcroftKarp) (k k2 : Nat) : Run n1 n2 es s → bfs s = some (true, t) →
      augment (upto t.n1) t k = some (t2, k2) → Run n1 n2 es t2

/-- The states inside the loop `for (int u = 0; u < n1; ++u)` of a round of
`max_matching()`, with the vertices `u` still to visit. -/
inductive Phase (n1 n2 : Nat) (es : List (Int × Int)) : List Int → HopcroftKarp → Prop
  | start (s t : HopcroftKarp) : Run n1 n2 es s → bfs s = some (true, t) →
      Phase n1 n2 es (upto t.n1) t
  | skip (u : Int) (us : List Int) (s : HopcroftKarp) : Phase n1 n2 es (u :: us) s →
      rd s.matchU u ≠ NIL → Phase n1 n2 es us s
  | call (u : Int) (us : List Int) (s t : HopcroftKarp) (b : Bool) :
      Phase n1 n2 es (u :: us) s → rd s.matchU u = NIL → dfs s.n1 s u = some (b, t) →
      Phase n1 n2 es us t

/-- What holds of a state inside the loop over `u` of a round. -/
structure PhaseInv (n1 n2 : Nat) (es : List (Int × Int)) (us : List Int) (s : HopcroftKarp) :
    Prop where
  shape : Shape s
  matching : Matching s
  distOK : DistOK s
  n1 : s.n1 = n1
  n2 : s.n2 = n2
  adj : ∀ x y, y ∈ rd s.adj x → (x, y) ∈ es
  nodup : us.Nodup
  rng : ∀ x ∈ us, 0 ≤ x ∧ x < (s.n1 : Int)
  fresh : ∀ x ∈ us, rd s.matchU x = NIL → rd s.dist x = 0

/-- The state after the first `bfs()` on the matcher `HopcroftKarp(2, 2)` with the edges
`(0,0)` and `(1,0)`. -/
def roundExample : HopcroftKarp :=
  { n1 := 2, n2 := 2, adj := [[0], [0]], matchU := [NIL, NIL], matchV := [NIL, NIL],
    dist := [0, 0] }

/-- The edges stored in the adjacency lists of a state. -/
def edgesOf (s : HopcroftKarp) : List (Int × Int) :=
  (upto s.n1).flatMap (fun u => (rd s.adj u).map (fun v => (u, v)))

/-! ## Variants of the source: assertions added, guards deleted -/

/-- The entry assertion of a call `dfs(u)`: `dist[u]` is not `INF`, lies in `[0, n1)`,
`dist[u] + 1` does not exceed the largest `int`, and for a nested call `dist[u]` is one
more than `caller`, the label of the calling vertex. -/
def entryOK (s : HopcroftKarp) (caller : Option Int) (u : Int) : Bool :=
  decide (rd s.dist u ≠ INF) && decide (0 ≤ rd s.dist u) &&
  decide (rd s.dist u < (s.n1 : Int)) && decide (rd s.dist u + 1 ≤ INF) &&
  (match caller with
   | none => true
   | some d => decide (rd s.dist u = d + 1))

/-- The method `dfs(u)` with the entry assertion `entryOK` checked at every call,
top-level or nested: a failed assertion gives `none`, as does a recursion deeper than the
fuel. -/
def dfsChecked : Nat → Option Int → HopcroftKarp → Int → Option (Bool × HopcroftKarp)
  | 0, _, _, _ => none
  | fuel + 1, caller, s, u =>
    if entryOK s caller u = true then
      dfsScan (fun s2 w => dfsChecked fuel (some (rd s2.dist u)) s2 w) u (rd s.adj u) s
    else none

/-- The state after the second `bfs()` on the matcher `HopcroftKarp(2, 2)` with the edges
`(0,0)`, `(1,0)`, `(0,1)`: vertex `0` is matched to `0` and lies in layer `1`. -/
def roundTwoExample : HopcroftKarp :=
  { n1 := 2, n2 := 2, adj := [[0, 1], [0]], matchU := [0, NIL], matchV := [0, NIL],
    dist := [1, 0] }

/-- The inner loop of the path reconstruction with the test
`if (visited[current_vertex]) break;` deleted. -/
def walkNoGuard (next_node : List Int) :
    Nat → Int → List Int × List Bool → Option (List Int × List Bool)
  | 0, cur, (path, visited) => if cur = NIL then some (path, visited) else none
  | fuel + 1, cur, (path, visited) =>
    if cur = NIL then some (path, visited)
    else walkNoGuard next_node fuel (rd next_node cur) (path ++ [cur], wr visited cur true)

/-- The outer loop of the path reconstruction with the guard of the inner loop
deleted. -/
def reconstructNoGuard (n : Nat) (next_node : List Int) (start : List Bool) :
    List Int → List (List Int) × List Bool → Option (List (List Int) × List Bool)
  | [], st => some st
  | i :: rest, (paths, visited) =>
    if rd start i = true ∧ rd visited i = false then
      match walkNoGuard next_node n i ([], visited) with
      | none => none
      | some (path, visited2) =>
        reconstructNoGuard n next_node start rest
          (if path ≠ [] then paths ++ [path] else paths, visited2)
    else reconstructNoGuard n next_node start rest (paths, visited)

/-- The outer loop of the path reconstruction with the guard of the inner loop, the
test `!visited[i]` and the test `!current_path.empty()` all deleted. -/
def reconstructPlain (n : Nat) (next_node : List Int) (start : List Bool) :
    List Int → List (List Int) × List Bool → Option (List (List Int) × List Bool)
  | [], st => some st
  | i :: rest, (paths, visited) =>
    if rd start i = true then
      match walkNoGuard next_node n i ([], visited) with
      | none => none
      | some (path, visited2) =>
        reconstructPlain n next_node start rest (paths ++ [path], visited2)
    else reconstructPlain n next_node start rest (paths, visited)

/-- The function `dag_minimum_path_cover` with the reconstruction loop given as
`recon`. -/
def pathCoverWith
    (recon : Nat → List Int → List Bool → List Int → List (List Int) × List Bool →
      Option (List (List Int) × List Bool))
    (n : Nat) (edges : List (Int × Int)) : Option (List (List Int)) :=
  match max_matching (load n n edges) with
  | none => none
  | some (matching, _) =>
    let ns := link matching (List.replicate n NIL, List.replicate n true)
    match recon n ns.1 ns.2 (upto n) ([], List.replicate n false) with
    | none => none
    | some (paths, _) => some paths

/-- The visited set is closed under predecessors along `next_node`. -/
def Bwd (n : Nat) (nx : List Int) (visited : List Bool) : Prop :=
  ∀ x, 0 ≤ x → x < (n : Int) → rd nx x ≠ NIL → rd visited (rd nx x) = true →
    rd visited x = true

/-! ## Vocabulary and invariants for parallel edges and for the layers of a round -/

/-- The state `s` with the adjacency lists replaced by `A`. -/
def withAdj (A : List (List Int)) (s : HopcroftKarp) : HopcroftKarp :=
  { s with adj := A }

/-- The adjacency lists `A` are the lists `B` with one more copy of `v` inserted in
the list of `u`, behind an earlier copy. -/
def DupEdge (u v : Int) (A B : List (List Int)) : Prop :=
  A.length = B.length ∧ (∀ x, x ≠ u → rd A x = rd B x) ∧
  ∃ l1 l2 l3, rd A u = l1 ++ v :: (l2 ++ v :: l3) ∧ rd B u = l1 ++ v :: (l2 ++ l3)

/-- The values that the accepted pairs `(x, y)` of `es` append to `adj[x]`, in order. -/
def nbrs (n1 n2 : Nat) (es : List (Int × Int)) (x : Int) : List Int :=
  (es.filter (fun e => decide (0 ≤ e.1 ∧ e.1 < (n1 : Int) ∧ 0 ≤ e.2 ∧ e.2 < (n2 : Int) ∧
    e.1 = x))).map Prod.snd

/-- Order invariant of the loop `while (!q.empty())` of `bfs`: no label exceeds the
label of a queued vertex by more than one, the queue is sorted by label, and every
labelled vertex that has left the queue has all partners of its neighbours labelled at
most one layer deeper. -/
structure BfsOrd (s : HopcroftKarp) (dist q : List Int) : Prop where
  ord : ∀ y, 0 ≤ y → y < (s.n1 : Int) → rd dist y ≠ INF → ∀ x ∈ q, rd dist y ≤ rd dist x + 1
  sorted : q.Pairwise (fun a b => rd dist a ≤ rd dist b)
  near : ∀ u, 0 ≤ u → u < (s.n1 : Int) → rd dist u ≠ INF →
    u ∈ q ∨ ∀ v ∈ rd s.adj u, rd s.matchV v ≠ NIL → rd dist (rd s.matchV v) ≤ rd dist u + 1

/-- Between the states `s` and `t` every partner of a vertex of `V` that was replaced
was replaced by a vertex exactly one layer higher up (labels of `s`). -/
def LayerPost (s t : HopcroftKarp) : Prop :=
  ∀ y, rd s.matchV y ≠ NIL → rd t.matchV y = rd s.matchV y ∨
    (rd s.dist (rd t.matchV y) ≠ INF ∧ rd s.dist (rd t.matchV y) + 1 < INF ∧
      rd s.dist (rd s.matchV y) = rd s.dist (rd t.matchV y) + 1)

/-- The state `t` comes later than `c` in the same round, whose layering is `D`:
matched vertices stay matched, and a vertex of `V` whose partner was replaced has its
new partner in a strictly lower layer. -/
structure Later (D : List Int) (c t : HopcroftKarp) : Prop where
  adj : t.adj = c.adj
  keepU : ∀ x, rd c.matchU x ≠ NIL → rd t.matchU x ≠ NIL
  keepV : ∀ y, rd c.matchV y ≠ NIL → rd t.matchV y ≠ NIL
  layer : ∀ y, rd c.matchV y ≠ NIL →
    rd t.matchV y = rd c.matchV y ∨ rd D (rd t.matchV y) < rd D (rd c.matchV y)

/-- From `u` a walk that is layered by `D` leads to a vertex of `V` that is free in
`t`, through vertices of `V` that have in `t` the partner they had in `s0`. -/
inductive GoodEnd (D : List Int) (s0 t : HopcroftKarp) : Int → Prop
  | free (u v : Int) : v ∈ rd t.adj u → rd t.matchV v = NIL → GoodEnd D s0 t u
  | step (u v : Int) : v ∈ rd t.adj u → rd t.matchV v ≠ NIL →
      rd t.matchV v = rd s0.matchV v → rd D (rd t.matchV v) = rd D u + 1 →
      GoodEnd D s0 t (rd t.matchV v) → GoodEnd D s0 t u

/-- An alternating walk from the vertex `x` of `U` to an unmatched vertex of `V`, with
`us` the vertices of `U` on it in order: every step leaves the current vertex by an
edge to a matched `v` and continues at the partner of `v`, and the last vertex has an
unmatched neighbour. The walk has `2 * us.length - 1` edges. -/
inductive AltTail (s : HopcroftKarp) : Int → List Int → Prop
  | last (x v : Int) : v ∈ rd s.adj x → rd s.matchV v = NIL → AltTail s x [x]
  | cons (x v : Int) (us : List Int) : v ∈ rd s.adj x → rd s.matchV v ≠ NIL →
      AltTail s (rd s.matchV v) us → AltTail s x (x :: us)

/-- An augmenting walk relative to the matching of `s`: an alternating walk from an
unmatched vertex of `U` to an unmatched vertex of `V`, given by its vertices of `U`.
When `us` has no repetition it is an augmenting path. -/
def AugWalk (s : HopcroftKarp) (us : List Int) : Prop :=
  ∃ u, 0 ≤ u ∧ u < (s.n1 : Int) ∧ rd s.matchU u = NIL ∧ AltTail s u us

/-- A matcher with the edges `(0,0)`, `(0,1)`, `(1,0)` before the first round. -/
def layerExample : HopcroftKarp := load 2 2 [(0, 0), (0, 1), (1, 0)]

/-! ## Vectors -/

theorem length_wr {α : Type} (xs : List α) (i : Int) (a : α) :
    (wr xs i a).length = xs.length := by
  unfold wr; split <;> simp

theorem rd_wr {α : Type} [Inhabited α] (xs : List α) (i j : Int) (a : α) :
    rd (wr xs i a) j = if i = j ∧ 0 ≤ i ∧ i < (xs.length : Int) then a else rd xs j := by
  unfold rd wr
  by_cases hi : 0 ≤ i
  · by_cases hj : 0 ≤ j
    · simp only [hi, hj, if_true, true_and]
      by_cases hij : i = j
      · subst hij
        by_cases hlen : i < (xs.length : Int)
        · have : i.toNat < xs.length := by omega
          simp [hlen, List.getD_eq_getElem?_getD, List.getElem?_set, this]
        · have h2 : xs.length ≤ i.toNat := by omega
          have h3 : ¬ i.toNat < xs.length := by omega
          simp [hlen, List.getD_eq_getElem?_getD, List.getElem?_set, List.getElem?_eq_none h2, h3]
      · have : i.toNat ≠ j.toNat := by omega
        simp [hij, List.getD_eq_getElem?_getD, List.getElem?_set, this]
    · have : i ≠ j := by omega
      simp [hi, hj, this]
  · simp [hi]

theorem rd_wr_same {α : Type} [Inhabited α] (xs : List α) (i : Int) (a : α)
    (h0 : 0 ≤ i) (h1 : i < (xs.length : Int)) : rd (wr xs i a) i = a := by
  rw [rd_wr]; simp [h0, h1]

theorem rd_wr_ne {α : Type} [Inhabited α] (xs : List α) (i j : Int) (a : α)
    (h : i ≠ j) : rd (wr xs i a) j = rd xs j := by
  rw [rd_wr]; simp [h]

theorem rd_replicate {α : Type} [Inhabited α] (n : Nat) (a : α) (i : Int)
    (h0 : 0 ≤ i) (h1 : i < (n : Int)) : rd (List.replicate n a) i = a := by
  unfold rd
  have : i.toNat < n := by omega
  simp [h0, List.getD_eq_getElem?_getD, List.getElem?_replicate, this]

theorem rd_outside {α : Type} [Inhabited α] (xs : List α) (i : Int)
    (h : ¬ (0 ≤ i ∧ i < (xs.length : Int))) : rd xs i = default := by
  unfold rd
  by_cases h0 : 0 ≤ i
  · have : xs.length ≤ i.toNat := by omega
    simp [h0, List.getD_eq_getElem?_getD, List.getElem?_eq_none this]
  · simp [h0]

theorem mem_upto (n : Nat) (u : Int) : u ∈ upto n ↔ 0 ≤ u ∧ u < (n : Int) := by
  unfold upto
  simp only [List.mem_map, List.mem_range]
  constructor
  · rintro ⟨a, ha, rfl⟩
    exact ⟨Int.ofNat_nonneg a, by show (a : Int) < n; exact_mod_cast ha⟩
  · rintro ⟨h0, h1⟩
    exact ⟨u.toNat, by omega, by simp [Int.toNat_of_nonneg h0]⟩

theorem nodup_upto (n : Nat) : (upto n).Nodup := by
  unfold upto
  exact (List.nodup_range n).map (fun a b h => by simpa using h)

theorem length_upto (n : Nat) : (upto n).length = n := by
  simp [upto]

theorem count_set_add {α : Type} [DecidableEq α] {a b d : α} (xs : List α) (i : Nat)
    (h : i < xs.length) :
    (xs.set i b).count a + (if xs.getD i d = a then 1 else 0)
      = xs.count a + (if b = a then 1 else 0) := by
  induction xs generalizing i with
  | nil => simp at h
  | cons x xs ih =>
    cases i with
    | zero =>
      simp only [List.set_cons_zero, List.count_cons, List.getD_cons_zero, beq_iff_eq]
      omega
    | succ i =>
      have h2 : i < xs.length := by simpa using h
      have := ih i h2
      simp only [List.set_cons_succ, List.count_cons, List.getD_cons_succ, beq_iff_eq]
      omega

theorem count_wr {α : Type} [DecidableEq α] [Inhabited α] {a b : α} (xs : List α) (i : Int)
    (h0 : 0 ≤ i) (h1 : i < (xs.length : Int)) :
    (wr xs i b).count a + (if rd xs i = a then 1 else 0)
      = xs.count a + (if b = a then 1 else 0) := by
  unfold wr rd
  simp only [h0, if_true]
  exact count_set_add xs i.toNat (by omega)

theorem map_rd_upto {α : Type} [Inhabited α] (xs : List α) :
    (upto xs.length).map (rd xs) = xs := by
  apply List.ext_getElem
  · simp [upto]
  · intro i h1 h2
    simp only [upto, List.map_map, List.getElem_map, List.getElem_range, Function.comp]
    unfold rd
    simp [List.getD_eq_getElem?_getD, List.getElem?_eq_getElem h2]

theorem rd_mem {α : Type} [Inhabited α] (xs : List α) (i : Int) (h0 : 0 ≤ i)
    (h1 : i < (xs.length : Int)) : rd xs i ∈ xs := by
  unfold rd
  have h : i.toNat < xs.length := by omega
  simp only [h0, if_true, List.getD_eq_getElem?_getD, List.getElem?_eq_getElem h, Option.getD_some]
  exact List.getElem_mem h

theorem NIL_ne_of_nonneg {x : Int} (h : 0 ≤ x) : x ≠ NIL := by
  unfold NIL; omega

theorem INF_pos : (0 : Int) < INF := by unfold INF; omega

/-! ## The constructor and `add_edge` keep the invariants -/

theorem mem_adj_rng {s : HopcroftKarp} (hs : Shape s) {u v : Int} (h : v ∈ rd s.adj u) :
    0 ≤ u ∧ u < (s.n1 : Int) := by
  by_contra hc
  rw [rd_outside s.adj u (by rw [hs.adj_len]; exact hc)] at h
  exact absurd h (List.not_mem_nil v)

theorem shape_mk0 (n1 n2 : Nat) : Shape (HopcroftKarp.mk0 n1 n2) := by
  refine ⟨by simp [HopcroftKarp.mk0], by simp [HopcroftKarp.mk0], by simp [HopcroftKarp.mk0],
    by simp [HopcroftKarp.mk0], ?_⟩
  intro u v h
  exfalso
  by_cases hu : 0 ≤ u ∧ u < (n1 : Int)
  · simp only [HopcroftKarp.mk0] at h
    rw [rd_replicate n1 [] u hu.1 hu.2] at h
    simp at h
  · simp only [HopcroftKarp.mk0] at h
    rw [rd_outside _ u (by simpa using hu)] at h
    exact absurd h (List.not_mem_nil v)

theorem matching_mk0 (n1 n2 : Nat) : Matching (HopcroftKarp.mk0 n1 n2) := by
  constructor
  · intro u h0 h1 h
    exact absurd (rd_replicate n1 NIL u h0 h1) h
  · intro v h0 h1 h
    exact absurd (rd_replicate n2 NIL v h0 h1) h

theorem add_edge_fields (s : HopcroftKarp) (u v : Int) :
    (add_edge s u v).n1 = s.n1 ∧ (add_edge s u v).n2 = s.n2 ∧
    (add_edge s u v).matchU = s.matchU ∧ (add_edge s u v).matchV = s.matchV ∧
    (add_edge s u v).dist = s.dist := by
  unfold add_edge; split <;> simp

theorem mem_adj_add_edge (s : HopcroftKarp) (hs : s.adj.length = s.n1) (u v x y : Int) :
    y ∈ rd (add_edge s u v).adj x ↔
      y ∈ rd s.adj x ∨ (x = u ∧ y = v ∧ 0 ≤ u ∧ u < (s.n1 : Int) ∧ 0 ≤ v ∧ v < (s.n2 : Int)) := by
  unfold add_edge
  split
  · rename_i h
    simp only [rd_wr, hs]
    by_cases hux : u = x
    · subst hux
      simp [h.1, h.2.1, h.2.2.1, h.2.2.2]
    · have : ¬ x = u := fun h => hux h.symm
      simp [hux, this]
  · rename_i h
    constructor
    · exact Or.inl
    · rintro (h' | ⟨_, _, h'⟩)
      · exact h'
      · exact absurd h' h

theorem shape_add_edge {s : HopcroftKarp} (hs : Shape s) (u v : Int) :
    Shape (add_edge s u v) := by
  obtain ⟨e1, e2, e3, e4, e5⟩ := add_edge_fields s u v
  refine ⟨?_, by rw [e3, e1]; exact hs.mU_len, by rw [e4, e2]; exact hs.mV_len,
    by rw [e5, e1]; exact hs.dist_len, ?_⟩
  · rw [e1]; unfold add_edge; split
    · simp [length_wr, hs.adj_len]
    · exact hs.adj_len
  · intro x y h
    rw [e2]
    rcases (mem_adj_add_edge s hs.adj_len u v x y).1 h with h | ⟨_, rfl, _, _, h0, h1⟩
    · exact hs.adj_rng x y h
    · exact ⟨h0, h1⟩

theorem matching_add_edge {s : HopcroftKarp} (hs : Shape s) (hm : Matching s) (u v : Int) :
    Matching (add_edge s u v) := by
  obtain ⟨e1, e2, e3, e4, e5⟩ := add_edge_fields s u v
  constructor
  · intro x h0 h1 h
    rw [e3] at h ⊢; rw [e4]; rw [e1] at h1
    obtain ⟨a, b⟩ := hm.uv x h0 h1 h
    exact ⟨(mem_adj_add_edge s hs.adj_len u v x _).2 (Or.inl a), b⟩
  · intro y h0 h1 h
    rw [e4] at h ⊢; rw [e3, e1]; rw [e2] at h1
    exact hm.vu y h0 h1 h

theorem add_edges_props (es : List (Int × Int)) :
    ∀ s : HopcroftKarp, Shape s → Matching s →
      Shape (add_edges s es) ∧ Matching (add_edges s es) ∧
      (add_edges s es).n1 = s.n1 ∧ (add_edges s es).n2 = s.n2 ∧
      (add_edges s es).matchU = s.matchU ∧ (add_edges s es).matchV = s.matchV ∧
      (add_edges s es).dist = s.dist ∧
      ∀ x y, y ∈ rd (add_edges s es).adj x ↔
        y ∈ rd s.adj x ∨ ((x, y) ∈ es ∧ 0 ≤ x ∧ x < (s.n1 : Int) ∧ 0 ≤ y ∧ y < (s.n2 : Int)) := by
  induction es with
  | nil => intro s hs hm; simp [add_edges, hs, hm]
  | cons e es ih =>
    intro s hs hm
    obtain ⟨e1, e2, e3, e4, e5⟩ := add_edge_fields s e.1 e.2
    have := ih (add_edge s e.1 e.2) (shape_add_edge hs _ _) (matching_add_edge hs hm _ _)
    obtain ⟨a1, a2, a3, a4, a5, a6, a7, a8⟩ := this
    have hstep : add_edges s (e :: es) = add_edges (add_edge s e.1 e.2) es := rfl
    rw [hstep]
    refine ⟨a1, a2, a3.trans e1, a4.trans e2, a5.trans e3, a6.trans e4, a7.trans e5, ?_⟩
    intro x y
    rw [a8, mem_adj_add_edge s hs.adj_len, e1, e2]
    simp only [List.mem_cons]
    constructor
    · rintro (h | h)
      · rcases h with h | ⟨rfl, rfl, h⟩
        · exact Or.inl h
        · exact Or.inr ⟨Or.inl rfl, h⟩
      · exact Or.inr ⟨Or.inr h.1, h.2⟩
    · rintro (h | ⟨h | h, hr⟩)
      · exact Or.inl (Or.inl h)
      · have hx : x = e.1 := by rw [← h]
        have hy : y = e.2 := by rw [← h]
        exact Or.inl (Or.inr ⟨hx, hy, hx ▸ hr.1, hx ▸ hr.2.1, hy ▸ hr.2.2.1, hy ▸ hr.2.2.2⟩)
      · exact Or.inr ⟨h, hr⟩

/-! ## The augmenting search `dfs` -/

theorem ScanInv.init (s : HopcroftKarp) (u : Int) : ScanInv s u s :=
  ⟨rfl, rfl, rfl, rfl, rfl, rfl, fun _ => Or.inl rfl, fun _ _ => rfl⟩

theorem ScanInv.keeps_shape {s si : HopcroftKarp} {u : Int} (h : ScanInv s u si) (hs : Shape s) :
    Shape si :=
  ⟨by rw [h.adj, h.n1]; exact hs.adj_len, by rw [h.mU, h.n1]; exact hs.mU_len,
   by rw [h.mV, h.n2]; exact hs.mV_len, by rw [h.dist_len, h.n1]; exact hs.dist_len,
   by rw [h.adj, h.n2]; exact hs.adj_rng⟩

theorem ScanInv.keeps_matching {s si : HopcroftKarp} {u : Int} (h : ScanInv s u si)
    (hm : Matching s) : Matching si := by
  constructor
  · rw [h.mU, h.mV, h.adj, h.n1]; exact hm.uv
  · rw [h.mU, h.mV, h.n1, h.n2]; exact hm.vu

theorem ScanInv.keeps_distOK {s si : HopcroftKarp} {u : Int} (h : ScanInv s u si)
    (hd : DistOK s) : DistOK si := by
  refine ⟨by rw [h.n1]; exact hd.1, ?_⟩
  intro x h0 h1
  rw [h.n1] at h1 ⊢
  rcases h.dist_mono x with e | e
  · rw [e]; exact hd.2 x h0 h1
  · exact Or.inl e

theorem DfsPost.frameU_lt {s t : HopcroftKarp} {u : Int} {b : Bool} (hp : DfsPost s u b t)
    (x : Int) (hx : rd s.dist x < rd s.dist u) :
    rd t.dist x = rd s.dist x ∧ rd t.matchU x = rd s.matchU x :=
  hp.frameU x (by rintro rfl; omega) (le_of_lt hx)

set_option maxHeartbeats 1000000 in
theorem dfsScan_post
    (call : HopcroftKarp → Int → Option (Bool × HopcroftKarp))
    (hcall : ∀ s' w b t, Shape s' → Matching s' → DistOK s' → 0 ≤ w → w < (s'.n1 : Int) →
      rd s'.dist w ≠ INF → call s' w = some (b, t) → DfsPost s' w b t)
    (s : HopcroftKarp) (u : Int) (hs : Shape s) (hm : Matching s) (hd : DistOK s)
    (hu0 : 0 ≤ u) (hu1 : u < (s.n1 : Int)) (hdu : rd s.dist u ≠ INF) :
    ∀ vs : List Int, (∀ v ∈ vs, v ∈ rd s.adj u) → ∀ si, ScanInv s u si →
      ∀ b t, dfsScan call u vs si = some (b, t) → DfsPost s u b t := by
  have hdlt : rd s.dist u + 1 < INF := by
    rcases hd.2 u hu0 hu1 with e | e
    · exact absurd e hdu
    · have := hd.1; omega
  have huN : u ≠ NIL := NIL_ne_of_nonneg hu0
  intro vs
  induction vs with
  | nil =>
    intro _ si hi b t h
    simp only [dfsScan, Option.some.injEq, Prod.mk.injEq] at h
    obtain ⟨rfl, rfl⟩ := h
    refine ⟨hi.n1, hi.n2, hi.adj, by rw [hi.mU], by rw [hi.mV],
      by simp [length_wr, hi.dist_len], ?_, ?_, ?_, ?_, by simp⟩
    · intro x
      simp only [rd_wr]
      split
      · exact Or.inr rfl
      · exact hi.dist_mono x
    · intro x hxu' hx
      have hxu : u ≠ x := fun h => hxu' h.symm
      simp only [rd_wr_ne _ _ _ _ hxu, hi.mU]
      exact ⟨hi.low x hx, trivial⟩
    · intro y _ _
      simp only [hi.mV]
    · intro _
      refine ⟨hi.mU, hi.mV, ?_⟩
      simp only
      exact rd_wr_same _ _ _ hu0 (by rw [hi.dist_len, hs.dist_len]; exact hu1)
  | cons v vs ih =>
    intro hvs si hi b t h
    have hv : v ∈ rd s.adj u := hvs v (List.mem_cons_self _ _)
    have hvr := hs.adj_rng u v hv
    have hvN : v ≠ NIL := NIL_ne_of_nonneg hvr.1
    have hvs' : ∀ v' ∈ vs, v' ∈ rd s.adj u := fun v' h' => hvs v' (List.mem_cons_of_mem _ h')
    have hdu' : rd si.dist u = rd s.dist u := hi.low u (le_refl _)
    have hulenU : u < (si.matchU.length : Int) := by rw [hi.mU, hs.mU_len]; exact hu1
    have hvlenV : v < (si.matchV.length : Int) := by rw [hi.mV, hs.mV_len]; exact hvr.2
    simp only [dfsScan] at h
    by_cases hw : rd si.matchV v = NIL
    · -- the neighbour `v` is free
      simp only [hw, if_true, Option.some.injEq, Prod.mk.injEq] at h
      obtain ⟨rfl, rfl⟩ := h
      have hwS : rd s.matchV v = NIL := by rw [← hi.mV]; exact hw
      refine ⟨hi.n1, hi.n2, hi.adj, by simp [length_wr, hi.mU], by simp [length_wr, hi.mV],
        hi.dist_len, hi.dist_mono, ?_, ?_, by simp, ?_⟩
      · intro x hxu' hx
        have hxu : u ≠ x := fun h => hxu' h.symm
        exact ⟨hi.low x hx, by simp only [rd_wr_ne _ _ _ _ hxu, hi.mU]⟩
      · intro y hy _
        have hyv : v ≠ y := by rintro rfl; exact hy hwS
        simp only [rd_wr_ne _ _ _ _ hyv, hi.mV]
      · intro _
        have e1 : rd (wr si.matchU u v) u = v := rd_wr_same _ _ _ hu0 hulenU
        have e2 : rd (wr si.matchV v u) v = u := rd_wr_same _ _ _ hvr.1 hvlenV
        refine ⟨by simp only [e1]; exact hvN, by simp only [e1]; exact hv,
          by simp only [e1, e2], by simp only [e1, hwS]; exact fun h => huN h.symm,
          ?_, ?_, ?_, ?_, ?_, ?_⟩
        · intro x hx0 hx1 hxu hx
          have hxu' : u ≠ x := fun h => hxu h.symm
          simp only [rd_wr_ne _ _ _ _ hxu', hi.mU] at hx ⊢
          obtain ⟨a, b⟩ := hm.uv x hx0 hx1 hx
          have hyv : v ≠ rd s.matchU x := by
            intro e; rw [← e, hwS] at b; exact NIL_ne_of_nonneg hx0 b.symm
          simp only [rd_wr_ne _ _ _ _ hyv, hi.mV]
          exact ⟨a, b⟩
        · intro y hy0 hy1 hyh hy
          by_cases hyv : v = y
          · subst hyv
            simp only [e2, e1]
            exact ⟨⟨hu0, hu1⟩, trivial⟩
          · simp only [rd_wr_ne _ _ _ _ hyv, hi.mV] at hy ⊢
            obtain ⟨a, b⟩ := hm.vu y hy0 hy1 hy
            have hxu : u ≠ rd s.matchV y := by
              intro e; rw [← e] at b; exact hyh b.symm
            simp only [rd_wr_ne _ _ _ _ hxu, hi.mU]
            exact ⟨a, b⟩
        · intro x hx
          by_cases hxu : u = x
          · subst hxu; simp only [e1]; exact hvN
          · simp only [rd_wr_ne _ _ _ _ hxu, hi.mU]; exact hx
        · intro y hy
          have hyv : v ≠ y := by rintro rfl; exact hy hwS
          simp only [rd_wr_ne _ _ _ _ hyv, hi.mV]; exact hy
        · have := @count_wr Int _ _ NIL u si.matchV v hvr.1 hvlenV
          simp only [hw, if_true, huN, if_false] at this
          simp only [← hi.mV]; omega
        · have := @count_wr Int _ _ NIL v si.matchU u hu0 hulenU
          simp only [hvN, if_false] at this
          simp only [← hi.mU]; omega
    · simp only [hw, if_false] at h
      have hwS : rd s.matchV v ≠ NIL := by rw [← hi.mV]; exact hw
      obtain ⟨hwr, hwback⟩ := hm.vu v hvr.1 hvr.2 hwS
      rw [← hi.mV] at hwr hwback
      by_cases hdw : rd si.dist (rd si.matchV v) = rd si.dist u + 1
      · simp only [hdw, if_true] at h
        generalize hwdef : rd si.matchV v = w at h hw hdw hwr hwback
        have hwS' : rd s.matchV v = w := by rw [← hi.mV]; exact hwdef
        have hdwS : rd s.dist w = rd s.dist u + 1 := by
          rcases hi.dist_mono w with e | e
          · rw [← e, hdw, hdu']
          · rw [hdw, hdu'] at e; omega
        have hwu : w ≠ u := by
          rintro rfl; omega
        have hwInf : rd si.dist w ≠ INF := by rw [hdw, hdu']; omega
        cases hc : call si w with
        | none => simp [hc] at h
        | some r =>
          obtain ⟨b', t'⟩ := r
          have hp := hcall si w b' t' (hi.keeps_shape hs) (hi.keeps_matching hm) (hi.keeps_distOK hd) hwr.1
            (by rw [hi.n1]; exact hwr.2) hwInf hc
          cases b' with
          | false =>
            simp only [hc] at h
            obtain ⟨fU, fV, _⟩ := hp.fail rfl
            refine ih hvs' t' ⟨hp.n1.trans hi.n1, hp.n2.trans hi.n2, hp.adj.trans hi.adj,
              fU.trans hi.mU, fV.trans hi.mV, hp.dist_len.trans hi.dist_len, ?_, ?_⟩ b t h
            · intro x
              rcases hp.dist_mono x with e | e
              · rw [e]; exact hi.dist_mono x
              · exact Or.inr e
            · intro x hx
              have e := hi.low x hx
              have := (hp.frameU_lt x (by rw [e, hdw, hdu']; omega)).1
              rw [this, e]
          | true =>
            simp only [hc, Option.some.injEq, Prod.mk.injEq] at h
            obtain ⟨rfl, rfl⟩ := h
            have A := hp.succ rfl
            have hulen : u < (t'.matchU.length : Int) := by rw [hp.mU_len]; exact hulenU
            have hvlen : v < (t'.matchV.length : Int) := by rw [hp.mV_len]; exact hvlenV
            have e1 : rd (wr t'.matchU u v) u = v := rd_wr_same _ _ _ hu0 hulen
            have e2 : rd (wr t'.matchV v u) v = u := rd_wr_same _ _ _ hvr.1 hvlen
            have f1 : rd t'.matchU u = rd s.matchU u := by
              rw [(hp.frameU_lt u (by rw [hdw]; omega)).2, hi.mU]
            have f2 : rd t'.matchV v = w := by
              have := hp.frameV v (by rw [hwdef]; exact hw) (by rw [hwdef])
              rw [this, hwdef]
            have f4 : v ≠ rd s.matchU u := by
              intro e
              have := (hm.uv u hu0 hu1 (by rw [← e]; exact hvN)).2
              rw [← e, hwS'] at this
              exact hwu this
            have hswv : rd si.matchU w = v := by rw [hi.mU]; exact hwback
            refine ⟨hp.n1.trans hi.n1, hp.n2.trans hi.n2, hp.adj.trans hi.adj,
              by simp [length_wr, hp.mU_len, hi.mU], by simp [length_wr, hp.mV_len, hi.mV],
              hp.dist_len.trans hi.dist_len, ?_, ?_, ?_, by simp, ?_⟩
            · intro x
              rcases hp.dist_mono x with e | e
              · simp only [e]; exact hi.dist_mono x
              · exact Or.inr e
            · intro x hxu' hx
              have hxu : u ≠ x := fun h => hxu' h.symm
              have e := hi.low x hx
              obtain ⟨a, b⟩ := hp.frameU_lt x (by rw [e, hdw, hdu']; omega)
              simp only [rd_wr_ne _ _ _ _ hxu]
              exact ⟨a.trans e, by rw [b, hi.mU]⟩
            · intro y hy hyd
              have hyv : v ≠ y := by
                rintro rfl
                rw [hwS', hdwS] at hyd; omega
              simp only [rd_wr_ne _ _ _ _ hyv]
              have e := hi.low _ hyd
              have := hp.frameV y (by rw [hi.mV]; exact hy) (by rw [hi.mV, e, hdw, hdu']; omega)
              rw [this, hi.mV]
            · intro _
              refine ⟨by simp only [e1]; exact hvN, by simp only [e1]; exact hv,
                by simp only [e1, e2], by simp only [e1, hwS']; exact hwu,
                ?_, ?_, ?_, ?_, ?_, ?_⟩
              · intro x hx0 hx1 hxu hx
                have hxu' : u ≠ x := fun h => hxu h.symm
                simp only [rd_wr_ne _ _ _ _ hxu'] at hx ⊢
                by_cases hxw : x = w
                · subst hxw
                  have hyv : v ≠ rd t'.matchU x := by
                    intro e
                    have := A.new_fresh
                    rw [← e, hwdef] at this
                    exact this rfl
                  simp only [rd_wr_ne _ _ _ _ hyv]
                  exact ⟨by rw [← hi.adj]; exact A.new_adj, A.new_back⟩
                · obtain ⟨a, b⟩ := A.uv x hx0 (by rw [hi.n1]; exact hx1) hxw hx
                  have hyv : v ≠ rd t'.matchU x := by
                    intro e; rw [← e, f2] at b; exact hxw b.symm
                  simp only [rd_wr_ne _ _ _ _ hyv]
                  exact ⟨by rw [← hi.adj]; exact a, b⟩
              · intro y hy0 hy1 hyh hy
                by_cases hyv : v = y
                · subst hyv
                  simp only [e2, e1]
                  exact ⟨⟨hu0, hu1⟩, trivial⟩
                · simp only [rd_wr_ne _ _ _ _ hyv] at hy ⊢
                  obtain ⟨a, b⟩ := A.vu y hy0 (by rw [hi.n2]; exact hy1)
                    (by rw [hswv]; exact fun h => hyv h.symm) hy
                  have hxu : u ≠ rd t'.matchV y := by
                    intro e; rw [← e, f1] at b; exact hyh b.symm
                  simp only [rd_wr_ne _ _ _ _ hxu]
                  exact ⟨by rw [← hi.n1]; exact a, b⟩
              · intro x hx
                by_cases hxu : u = x
                · subst hxu; simp only [e1]; exact hvN
                · simp only [rd_wr_ne _ _ _ _ hxu]
                  exact A.keepU x (by rw [hi.mU]; exact hx)
              · intro y hy
                by_cases hyv : v = y
                · subst hyv; simp only [e2]; exact huN
                · simp only [rd_wr_ne _ _ _ _ hyv]
                  exact A.keepV y (by rw [hi.mV]; exact hy)
              · have := @count_wr Int _ _ NIL u t'.matchV v hvr.1 hvlen
                rw [f2] at this
                simp only [hw, if_false, huN] at this
                have c := A.cntV
                rw [hi.mV] at c
                simp only; omega
              · have := @count_wr Int _ _ NIL v t'.matchU u hu0 hulen
                rw [f1] at this
                simp only [hvN, if_false] at this
                have c := A.cntU
                rw [hswv] at c
                simp only [hvN, if_false, hi.mU] at c
                simp only; omega
      · simp only [hdw, if_false] at h
        exact ih hvs' si hi b t h

theorem dfs_post : ∀ (fuel : Nat) (s : HopcroftKarp) (u : Int) (b : Bool) (t : HopcroftKarp),
    Shape s → Matching s → DistOK s → 0 ≤ u → u < (s.n1 : Int) → rd s.dist u ≠ INF →
    dfs fuel s u = some (b, t) → DfsPost s u b t := by
  intro fuel
  induction fuel with
  | zero => intro s u b t _ _ _ _ _ _ h; simp [dfs] at h
  | succ f ih =>
    intro s u b t hs hm hd hu0 hu1 hdu h
    simp only [dfs] at h
    exact dfsScan_post (dfs f) (fun s' w b t a1 a2 a3 a4 a5 a6 a7 => ih s' w b t a1 a2 a3 a4 a5 a6 a7)
      s u hs hm hd hu0 hu1 hdu (rd s.adj u) (fun _ h => h) s (ScanInv.init s u) b t h

theorem ScanInv.step {s si t : HopcroftKarp} {u w : Int} (hi : ScanInv s u si)
    (hp : DfsPost si w false t) (hdw : rd si.dist w = rd si.dist u + 1) : ScanInv s u t := by
  obtain ⟨fU, fV, _⟩ := hp.fail rfl
  have hdu' : rd si.dist u = rd s.dist u := hi.low u (le_refl _)
  refine ⟨hp.n1.trans hi.n1, hp.n2.trans hi.n2, hp.adj.trans hi.adj,
    fU.trans hi.mU, fV.trans hi.mV, hp.dist_len.trans hi.dist_len, ?_, ?_⟩
  · intro x
    rcases hp.dist_mono x with e | e
    · rw [e]; exact hi.dist_mono x
    · exact Or.inr e
  · intro x hx
    have e := hi.low x hx
    have := (hp.frameU_lt x (by rw [e, hdw, hdu']; omega)).1
    rw [this, e]

theorem dfsScan_total
    (call : HopcroftKarp → Int → Option (Bool × HopcroftKarp)) (f : Nat)
    (hcall : ∀ s' w b t, Shape s' → Matching s' → DistOK s' → 0 ≤ w → w < (s'.n1 : Int) →
      rd s'.dist w ≠ INF → call s' w = some (b, t) → DfsPost s' w b t)
    (htot : ∀ s' w, Shape s' → Matching s' → DistOK s' → 0 ≤ w → w < (s'.n1 : Int) →
      rd s'.dist w ≠ INF → (s'.n1 : Int) ≤ rd s'.dist w + f → ∃ b t, call s' w = some (b, t))
    (s : HopcroftKarp) (u : Int) (hs : Shape s) (hm : Matching s) (hd : DistOK s)
    (hu0 : 0 ≤ u) (hu1 : u < (s.n1 : Int)) (hdu : rd s.dist u ≠ INF)
    (hfuel : (s.n1 : Int) ≤ rd s.dist u + (f + 1)) :
    ∀ vs : List Int, (∀ v ∈ vs, v ∈ rd s.adj u) → ∀ si, ScanInv s u si →
      ∃ b t, dfsScan call u vs si = some (b, t) := by
  have hdlt : rd s.dist u + 1 < INF := by
    rcases hd.2 u hu0 hu1 with e | e
    · exact absurd e hdu
    · have := hd.1; omega
  intro vs
  induction vs with
  | nil => intro _ si _; exact ⟨_, _, rfl⟩
  | cons v vs ih =>
    intro hvs si hi
    have hv : v ∈ rd s.adj u := hvs v (List.mem_cons_self _ _)
    have hvr := hs.adj_rng u v hv
    have hvs' : ∀ v' ∈ vs, v' ∈ rd s.adj u := fun v' h' => hvs v' (List.mem_cons_of_mem _ h')
    have hdu' : rd si.dist u = rd s.dist u := hi.low u (le_refl _)
    simp only [dfsScan]
    by_cases hw : rd si.matchV v = NIL
    · simp only [hw, if_true]; exact ⟨_, _, rfl⟩
    · simp only [hw, if_false]
      have hwS : rd s.matchV v ≠ NIL := by rw [← hi.mV]; exact hw
      obtain ⟨hwr, _⟩ := hm.vu v hvr.1 hvr.2 hwS
      rw [← hi.mV] at hwr
      by_cases hdw : rd si.dist (rd si.matchV v) = rd si.dist u + 1
      · simp only [hdw, if_true]
        have hwInf : rd si.dist (rd si.matchV v) ≠ INF := by rw [hdw, hdu']; omega
        obtain ⟨b', t', hc⟩ := htot si (rd si.matchV v) (hi.keeps_shape hs) (hi.keeps_matching hm)
          (hi.keeps_distOK hd) hwr.1 (by rw [hi.n1]; exact hwr.2) hwInf
          (by rw [hdw, hdu', hi.n1]; omega)
        have hp := hcall si _ b' t' (hi.keeps_shape hs) (hi.keeps_matching hm) (hi.keeps_distOK hd) hwr.1
            (by rw [hi.n1]; exact hwr.2) hwInf hc
        cases b' with
        | false =>
          simp only [hc]
          exact ih hvs' t' (hi.step hp hdw)
        | true =>
          simp only [hc]; exact ⟨_, _, rfl⟩
      · simp only [hdw, if_false]
        exact ih hvs' si hi

theorem dfs_total : ∀ (fuel : Nat) (s : HopcroftKarp) (u : Int),
    Shape s → Matching s → DistOK s → 0 ≤ u → u < (s.n1 : Int) → rd s.dist u ≠ INF →
    (s.n1 : Int) ≤ rd s.dist u + fuel → ∃ b t, dfs fuel s u = some (b, t) := by
  intro fuel
  induction fuel with
  | zero =>
    intro s u _ _ hd hu0 hu1 hdu hf
    exfalso
    rcases hd.2 u hu0 hu1 with e | e
    · exact hdu e
    · simp at hf; omega
  | succ f ih =>
    intro s u hs hm hd hu0 hu1 hdu hf
    simp only [dfs]
    exact dfsScan_total (dfs f) f (fun s' w b t => dfs_post f s' w b t) ih s u hs hm hd hu0 hu1 hdu
      (by push_cast at hf; omega) (rd s.adj u) (fun _ h => h) s (ScanInv.init s u)

/-- A top-level call `dfs(u)` on an unmatched `u` keeps the invariants. -/
theorem dfs_post_shape {s t : HopcroftKarp} {u : Int} {b : Bool} (hs : Shape s)
    (hp : DfsPost s u b t) : Shape t :=
  ⟨by rw [hp.adj, hp.n1]; exact hs.adj_len, by rw [hp.mU_len, hp.n1]; exact hs.mU_len,
   by rw [hp.mV_len, hp.n2]; exact hs.mV_len, by rw [hp.dist_len, hp.n1]; exact hs.dist_len,
   by rw [hp.adj, hp.n2]; exact hs.adj_rng⟩

theorem dfs_post_distOK {s t : HopcroftKarp} {u : Int} {b : Bool} (hd : DistOK s)
    (hp : DfsPost s u b t) : DistOK t := by
  refine ⟨by rw [hp.n1]; exact hd.1, ?_⟩
  intro x h0 h1
  rw [hp.n1] at h1 ⊢
  rcases hp.dist_mono x with e | e
  · rw [e]; exact hd.2 x h0 h1
  · exact Or.inl e

theorem dfs_post_matching {s t : HopcroftKarp} {u : Int} {b : Bool}
    (hm : Matching s) (hu0 : 0 ≤ u) (hu1 : u < (s.n1 : Int)) (hfree : rd s.matchU u = NIL)
    (hp : DfsPost s u b t) : Matching t := by
  cases b with
  | false =>
    obtain ⟨fU, fV, _⟩ := hp.fail rfl
    constructor
    · rw [fU, fV, hp.adj, hp.n1]; exact hm.uv
    · rw [fU, fV, hp.n1, hp.n2]; exact hm.vu
  | true =>
    have A := hp.succ rfl
    constructor
    · intro x h0 h1 hx
      rw [hp.n1] at h1
      rw [hp.adj]
      by_cases hxu : x = u
      · subst hxu; exact ⟨A.new_adj, A.new_back⟩
      · exact A.uv x h0 h1 hxu hx
    · intro y h0 h1 hy
      rw [hp.n2] at h1
      rw [hp.n1]
      exact A.vu y h0 h1 (by rw [hfree]; exact NIL_ne_of_nonneg h0) hy

theorem SameGood.same (s : HopcroftKarp) : SameGood s s :=
  ⟨rfl, rfl, rfl, fun _ => Or.inl rfl⟩

theorem SameGood.pres {s t : HopcroftKarp} (h : SameGood s t) {x : Int} (hx : Good s x) :
    Good t x := by
  induction hx with
  | free u v hv hf => exact Good.free u v (by rw [h.adj]; exact hv) (by rw [h.mV]; exact hf)
  | step u v hv hw hd hg ih =>
    have e1 : rd t.dist u = rd s.dist u := by
      rcases h.dist u with e | e
      · exact e
      · exact absurd (Good.step u v hv hw hd hg) e
    have e2 : rd t.dist (rd s.matchV v) = rd s.dist (rd s.matchV v) := by
      rcases h.dist (rd s.matchV v) with e | e
      · exact e
      · exact absurd hg e
    refine Good.step u v (by rw [h.adj]; exact hv) (by rw [h.mV]; exact hw) ?_ ?_
    · rw [h.mV, e1, e2]; exact hd
    · rw [h.mV]; exact ih

theorem SameGood.trans {s t r : HopcroftKarp} (h1 : SameGood s t) (h2 : SameGood t r) :
    SameGood s r := by
  refine ⟨h2.adj.trans h1.adj, h2.mU.trans h1.mU, h2.mV.trans h1.mV, ?_⟩
  intro x
  rcases h2.dist x with e | e
  · rcases h1.dist x with e' | e'
    · exact Or.inl (e.trans e')
    · exact Or.inr e'
  · exact Or.inr (fun hg => e (h1.pres hg))

theorem dfsScan_fail
    (call : HopcroftKarp → Int → Option (Bool × HopcroftKarp))
    (hcall : ∀ s' w t, call s' w = some (false, t) → SameGood s' t ∧ ¬ Good s' w)
    (s : HopcroftKarp) (u : Int) :
    ∀ vs : List Int, ∀ si, SameGood s si →
      ((∀ v ∈ vs, ¬ (rd s.matchV v = NIL ∨
          (rd s.dist (rd s.matchV v) = rd s.dist u + 1 ∧ Good s (rd s.matchV v)))) → ¬ Good s u) →
      ∀ t, dfsScan call u vs si = some (false, t) → SameGood s t ∧ ¬ Good s u := by
  intro vs
  induction vs with
  | nil =>
    intro si hi hyp t h
    simp only [dfsScan, Option.some.injEq, Prod.mk.injEq, true_and] at h
    subst h
    have hng : ¬ Good s u := hyp (fun v hv => absurd hv (List.not_mem_nil v))
    refine ⟨⟨hi.adj, hi.mU, hi.mV, ?_⟩, hng⟩
    intro x
    by_cases hxu : u = x
    · subst hxu; exact Or.inr hng
    · simp only [rd_wr_ne _ _ _ _ hxu]; exact hi.dist x
  | cons v vs ih =>
    intro si hi hyp t h
    by_cases hG : Good s u
    · have hdu : rd si.dist u = rd s.dist u := by
        rcases hi.dist u with e | e
        · exact e
        · exact absurd hG e
      simp only [dfsScan] at h
      by_cases hw : rd si.matchV v = NIL
      · simp [hw] at h
      · simp only [hw, if_false] at h
        have hwS : rd s.matchV v ≠ NIL := by rw [← hi.mV]; exact hw
        by_cases hdw : rd si.dist (rd si.matchV v) = rd si.dist u + 1
        · simp only [hdw, if_true] at h
          cases hc : call si (rd si.matchV v) with
          | none => simp [hc] at h
          | some r =>
            obtain ⟨b', t'⟩ := r
            cases b' with
            | true => simp [hc] at h
            | false =>
              simp only [hc] at h
              obtain ⟨g1, g2⟩ := hcall si _ t' hc
              have hngw : ¬ Good s (rd s.matchV v) := by
                intro hg; rw [hi.mV] at g2; exact g2 (hi.pres hg)
              refine ih t' (hi.trans g1) (fun hall => hyp ?_) t h
              intro v' hv'
              rcases List.mem_cons.1 hv' with rfl | hv'
              · rintro (e | ⟨_, e⟩)
                · exact hwS e
                · exact hngw e
              · exact hall v' hv'
        · simp only [hdw, if_false] at h
          refine ih si hi (fun hall => hyp ?_) t h
          intro v' hv'
          rcases List.mem_cons.1 hv' with rfl | hv'
          · rintro (e | ⟨e1, e2⟩)
            · exact hwS e
            · apply hdw
              rw [hi.mV, hdu, ← e1]
              rcases hi.dist (rd s.matchV v') with e | e
              · exact e
              · exact absurd e2 e
          · exact hall v' hv'
    · -- `u` is not `Good`: only the frame matters
      simp only [dfsScan] at h
      by_cases hw : rd si.matchV v = NIL
      · simp [hw] at h
      · simp only [hw, if_false] at h
        by_cases hdw : rd si.dist (rd si.matchV v) = rd si.dist u + 1
        · simp only [hdw, if_true] at h
          cases hc : call si (rd si.matchV v) with
          | none => simp [hc] at h
          | some r =>
            obtain ⟨b', t'⟩ := r
            cases b' with
            | true => simp [hc] at h
            | false =>
              simp only [hc] at h
              obtain ⟨g1, _⟩ := hcall si _ t' hc
              exact ih t' (hi.trans g1) (fun _ => hG) t h
        · simp only [hdw, if_false] at h
          exact ih si hi (fun _ => hG) t h

theorem dfs_fail : ∀ (fuel : Nat) (s : HopcroftKarp) (u : Int) (t : HopcroftKarp),
    dfs fuel s u = some (false, t) → SameGood s t ∧ ¬ Good s u := by
  intro fuel
  induction fuel with
  | zero => intro s u t h; simp [dfs] at h
  | succ f ih =>
    intro s u t h
    simp only [dfs] at h
    refine dfsScan_fail (dfs f) ih s u (rd s.adj u) s (SameGood.same s) ?_ t h
    intro hall hg
    cases hg with
    | free _ v hv hf => exact hall v hv (Or.inl hf)
    | step _ v hv hw hd hg' => exact hall v hv (Or.inr ⟨hd, hg'⟩)

/-! ## The layering `bfs` -/

set_option maxHeartbeats 1000000 in
theorem bfsScan_spec (s : HopcroftKarp) (hs : Shape s) (hm : Matching s)
    (hn : (s.n1 : Int) < INF) (u : Int) :
    ∀ (vs : List Int) (dist q : List Int) (found : Bool), (∀ v ∈ vs, v ∈ rd s.adj u) →
      BfsInv s dist (u :: q) found →
      ∃ dist2 q2 found2, bfsScan s.matchV u vs (dist, q, found) = (dist2, q2, found2) ∧
        BfsInv s dist2 (u :: q2) found2 ∧
        q2.length + dist2.count INF = q.length + dist.count INF ∧
        (∀ x, rd dist x ≠ INF → rd dist2 x = rd dist x) ∧
        (found = true → found2 = true) ∧
        (∀ v ∈ vs, (rd s.matchV v = NIL → found2 = true) ∧
          (rd s.matchV v ≠ NIL → rd dist2 (rd s.matchV v) ≠ INF)) := by
  intro vs
  induction vs with
  | nil =>
    intro dist q found _ hi
    exact ⟨dist, q, found, rfl, hi, rfl, fun _ _ => rfl, fun h => h,
      fun v hv => absurd hv (List.not_mem_nil v)⟩
  | cons v vs ih =>
    intro dist q found hvs hi
    have hv : v ∈ rd s.adj u := hvs v (List.mem_cons_self _ _)
    have hvr := hs.adj_rng u v hv
    have hvs' : ∀ v' ∈ vs, v' ∈ rd s.adj u := fun v' h' => hvs v' (List.mem_cons_of_mem _ h')
    obtain ⟨hur, hud⟩ := hi.q_rng u (List.mem_cons_self _ _)
    simp only [bfsScan]
    by_cases hw : rd s.matchV v = NIL
    · simp only [hw, if_true]
      have hi' : BfsInv s dist (u :: q) true := by
        refine ⟨hi.len, hi.q_rng, hi.bound, hi.free0, ?_, hi.parent, fun _ => ⟨u, v, hur, hud, hv, hw⟩⟩
        intro x h0 h1 hx
        rcases hi.closed x h0 h1 hx with h | h
        · exact Or.inl h
        · exact Or.inr (fun v' hv' => ⟨fun _ => rfl, (h v' hv').2⟩)
      obtain ⟨d2, q2, f2, e, I2, c2, m2, fm2, p2⟩ := ih dist q true hvs' hi'
      refine ⟨d2, q2, f2, e, I2, c2, m2, fun _ => fm2 rfl, ?_⟩
      intro v' hv'
      rcases List.mem_cons.1 hv' with rfl | hv'
      · exact ⟨fun _ => fm2 rfl, fun h => absurd hw h⟩
      · exact p2 v' hv'
    · simp only [hw, if_false]
      obtain ⟨hwr, _⟩ := hm.vu v hvr.1 hvr.2 hw
      by_cases hdw : rd dist (rd s.matchV v) = INF
      · simp only [hdw, if_true]
        generalize hwdef : rd s.matchV v = w at hw hwr hdw
        have hwlen : w < (dist.length : Int) := by rw [hi.len]; exact hwr.2
        have hb := hi.bound u hur.1 hur.2 hud
        have hcnt := @count_wr Int _ _ INF (rd dist u + 1) dist w hwr.1 hwlen
        have hne : rd dist u + 1 ≠ INF := by omega
        simp only [hdw, if_true, hne, if_false] at hcnt
        have hsame : ∀ x, rd dist x ≠ INF → rd (wr dist w (rd dist u + 1)) x = rd dist x := by
          intro x hx
          have : w ≠ x := by rintro rfl; exact hx hdw
          exact rd_wr_ne _ _ _ _ this
        have hnew : rd (wr dist w (rd dist u + 1)) w = rd dist u + 1 :=
          rd_wr_same _ _ _ hwr.1 hwlen
        have hstay : ∀ x, rd dist x ≠ INF → rd (wr dist w (rd dist u + 1)) x ≠ INF := by
          intro x hx; rw [hsame x hx]; exact hx
        have hi' : BfsInv s (wr dist w (rd dist u + 1)) (u :: (q ++ [w])) found := by
          refine ⟨by rw [length_wr]; exact hi.len, ?_, ?_, ?_, ?_, ?_, ?_⟩
          · intro x hx
            rcases List.mem_cons.1 hx with rfl | hx
            · exact ⟨hur, hstay _ hud⟩
            · rcases List.mem_append.1 hx with hx | hx
              · obtain ⟨a, b⟩ := hi.q_rng x (List.mem_cons_of_mem _ hx)
                exact ⟨a, hstay _ b⟩
              · rw [List.mem_singleton.1 hx]
                exact ⟨hwr, by rw [hnew]; exact hne⟩
          · intro x h0 h1 hx
            by_cases hxw : x = w
            · subst hxw
              rw [hnew]
              constructor
              · omega
              · omega
            · have hxw' : w ≠ x := fun h => hxw h.symm
              rw [rd_wr_ne _ _ _ _ hxw'] at hx ⊢
              have := hi.bound x h0 h1 hx
              omega
          · intro x h0 h1 hx
            have := hi.free0 x h0 h1 hx
            rw [hsame x (by rw [this]; exact ne_of_lt INF_pos), this]
          · intro x h0 h1 hx
            by_cases hxw : x = w
            · left; rw [hxw]; simp
            · have hxw' : w ≠ x := fun h => hxw h.symm
              rw [rd_wr_ne _ _ _ _ hxw'] at hx
              rcases hi.closed x h0 h1 hx with h | h
              · left
                rcases List.mem_cons.1 h with rfl | h
                · simp
                · simp [h]
              · right
                intro v' hv'
                exact ⟨(h v' hv').1, fun hne' => hstay _ ((h v' hv').2 hne')⟩
          · intro x h0 h1 hx
            by_cases hxw : x = w
            · right
              refine ⟨u, v, hur, hstay _ hud, hv, ?_, ?_⟩
              · rw [hwdef, hxw]
              · rw [hxw, hnew, hsame u hud]
            · have hxw' : w ≠ x := fun h => hxw h.symm
              rw [rd_wr_ne _ _ _ _ hxw'] at hx ⊢
              rcases hi.parent x h0 h1 hx with h | ⟨u', v', a, b, c, d, e⟩
              · exact Or.inl h
              · exact Or.inr ⟨u', v', a, hstay _ b, c, d, by rw [hsame u' b]; exact e⟩
          · intro hf
            obtain ⟨u', v', a, b, c, d⟩ := hi.wit hf
            exact ⟨u', v', a, hstay _ b, c, d⟩
        obtain ⟨d2, q2, f2, e, I2, c2, m2, fm2, p2⟩ :=
          ih (wr dist w (rd dist u + 1)) (q ++ [w]) found hvs' hi'
        refine ⟨d2, q2, f2, e, I2, ?_, ?_, fm2, ?_⟩
        · rw [c2]; simp only [List.length_append, List.length_singleton]; omega
        · intro x hx
          rw [m2 x (hstay x hx), hsame x hx]
        · intro v' hv'
          rcases List.mem_cons.1 hv' with rfl | hv'
          · refine ⟨fun h => absurd (hwdef ▸ h) hw, fun _ => ?_⟩
            rw [hwdef, m2 w (by rw [hnew]; exact hne), hnew]; exact hne
          · exact p2 v' hv'
      · simp only [hdw, if_false]
        obtain ⟨d2, q2, f2, e, I2, c2, m2, fm2, p2⟩ := ih dist q found hvs' hi
        refine ⟨d2, q2, f2, e, I2, c2, m2, fm2, ?_⟩
        intro v' hv'
        rcases List.mem_cons.1 hv' with rfl | hv'
        · exact ⟨fun h => absurd h hw, fun _ => by rw [m2 _ hdw]; exact hdw⟩
        · exact p2 v' hv'

theorem bfsLoop_spec (s : HopcroftKarp) (hs : Shape s) (hm : Matching s)
    (hn : (s.n1 : Int) < INF) :
    ∀ (fuel : Nat) (dist q : List Int) (found : Bool), BfsInv s dist q found →
      q.length + dist.count INF ≤ fuel →
      ∃ dist2 found2, bfsLoop s.adj s.matchV fuel (dist, q, found) = some (dist2, found2) ∧
        BfsInv s dist2 [] found2 := by
  intro fuel
  induction fuel with
  | zero =>
    intro dist q found hi hf
    cases q with
    | nil => exact ⟨dist, found, by simp [bfsLoop], hi⟩
    | cons u q => simp at hf
  | succ f ih =>
    intro dist q found hi hf
    cases q with
    | nil => exact ⟨dist, found, by simp [bfsLoop], hi⟩
    | cons u q =>
      obtain ⟨d2, q2, f2, e, I2, c2, m2, fm2, p2⟩ :=
        bfsScan_spec s hs hm hn u (rd s.adj u) dist q found (fun _ h => h) hi
      simp only [bfsLoop, e]
      have I3 : BfsInv s d2 q2 f2 := by
        refine ⟨I2.len, fun x hx => I2.q_rng x (List.mem_cons_of_mem _ hx), I2.bound, I2.free0,
          ?_, I2.parent, I2.wit⟩
        intro x h0 h1 hx
        rcases I2.closed x h0 h1 hx with h | h
        · rcases List.mem_cons.1 h with rfl | h
          · exact Or.inr p2
          · exact Or.inl h
        · exact Or.inr h
      apply ih d2 q2 f2 I3
      simp only [List.length_cons] at hf
      omega

theorem bfsInit_spec (s : HopcroftKarp) :
    ∀ (us dist q : List Int), us.Nodup → (∀ x ∈ us, 0 ≤ x ∧ x < (s.n1 : Int)) →
      InitInv s us dist q →
      ∃ d2 q2, bfsInit s.matchU us (dist, q) = (d2, q2) ∧ InitInv s [] d2 q2 := by
  intro us
  induction us with
  | nil => intro dist q _ _ hi; exact ⟨dist, q, rfl, hi⟩
  | cons u us ih =>
    intro dist q hnd hrng hi
    have hnd' : us.Nodup := (List.nodup_cons.1 hnd).2
    have hune : ∀ x ∈ us, u ≠ x := by
      intro x hx e; subst e; exact (List.nodup_cons.1 hnd).1 hx
    have hur := hrng u (List.mem_cons_self _ _)
    have hrng' : ∀ x ∈ us, 0 ≤ x ∧ x < (s.n1 : Int) :=
      fun x hx => hrng x (List.mem_cons_of_mem _ hx)
    have hdu : rd dist u = INF := hi.todo u (List.mem_cons_self _ _)
    simp only [bfsInit]
    by_cases hfree : rd s.matchU u = NIL
    · simp only [hfree, if_true]
      have hulen : u < (dist.length : Int) := by rw [hi.len]; exact hur.2
      have hnew : rd (wr dist u 0) u = 0 := rd_wr_same _ _ _ hur.1 hulen
      apply ih (wr dist u 0) (q ++ [u]) hnd' hrng'
      refine ⟨by rw [length_wr]; exact hi.len, ?_, ?_, ?_, ?_⟩
      · intro x hx
        rw [rd_wr_ne _ _ _ _ (hune x hx)]
        exact hi.todo x (List.mem_cons_of_mem _ hx)
      · intro x h0 h1 hx
        by_cases hxu : u = x
        · subst hxu
          exact ⟨fun _ => ⟨hnew, by simp⟩, fun h => absurd hfree h⟩
        · rw [rd_wr_ne _ _ _ _ hxu]
          have hx' : x ∉ u :: us := by
            intro h
            rcases List.mem_cons.1 h with h | h
            · exact hxu h.symm
            · exact hx h
          obtain ⟨a, b⟩ := hi.done x h0 h1 hx'
          exact ⟨fun h => ⟨(a h).1, List.mem_append_left _ (a h).2⟩, b⟩
      · intro x hx
        rcases List.mem_append.1 hx with hx | hx
        · obtain ⟨a, b, c⟩ := hi.q_rng x hx
          have hxu : u ≠ x := by
            rintro rfl; rw [hdu] at c; exact absurd c (ne_of_gt INF_pos)
          rw [rd_wr_ne _ _ _ _ hxu]
          exact ⟨a, b, c⟩
        · rw [List.mem_singleton.1 hx]
          exact ⟨hur, hfree, hnew⟩
      · have hcnt := @count_wr Int _ _ INF 0 dist u hur.1 hulen
        have h0 : (0 : Int) ≠ INF := ne_of_lt INF_pos
        simp only [hdu, if_true, h0, if_false] at hcnt
        have := hi.cnt
        simp only [List.length_append, List.length_singleton]
        omega
    · simp only [hfree, if_false]
      apply ih dist q hnd' hrng'
      refine ⟨hi.len, fun x hx => hi.todo x (List.mem_cons_of_mem _ hx), ?_, hi.q_rng, hi.cnt⟩
      intro x h0 h1 hx
      by_cases hxu : u = x
      · subst hxu
        exact ⟨fun h => absurd h hfree, fun _ => hdu⟩
      · have hx' : x ∉ u :: us := by
          intro h
          rcases List.mem_cons.1 h with h | h
          · exact hxu h.symm
          · exact hx h
        exact hi.done x h0 h1 hx'

theorem bfs_spec (s : HopcroftKarp) (hs : Shape s) (hm : Matching s)
    (hn : (s.n1 : Int) < INF) :
    ∃ found t, bfs s = some (found, t) ∧ BfsPost s found t := by
  have h0 : InitInv s (upto s.n1) (List.replicate s.dist.length INF) [] := by
    rw [hs.dist_len]
    refine ⟨by simp, ?_, ?_, ?_, by simp⟩
    · intro x hx
      obtain ⟨a, b⟩ := (mem_upto _ _).1 hx
      exact rd_replicate _ _ _ a b
    · intro x a b hx
      exact absurd ((mem_upto _ _).2 ⟨a, b⟩) hx
    · intro x hx; exact absurd hx (List.not_mem_nil x)
  obtain ⟨d1, q1, e1, I1⟩ := bfsInit_spec s (upto s.n1) _ [] (nodup_upto _)
    (fun x hx => (mem_upto _ _).1 hx) h0
  have hB : BfsInv s d1 q1 false := by
    refine ⟨I1.len, fun x hx => ?_, ?_, ?_, ?_, ?_, fun h => by cases h⟩
    · obtain ⟨a, _, c⟩ := I1.q_rng x hx
      exact ⟨a, by rw [c]; exact ne_of_lt INF_pos⟩
    · intro x a b hx
      obtain ⟨p1, p2⟩ := I1.done x a b (List.not_mem_nil x)
      by_cases hf : rd s.matchU x = NIL
      · obtain ⟨c, d⟩ := p1 hf
        have hq : 0 < q1.length := List.length_pos_of_mem d
        have := I1.cnt
        rw [c]
        constructor
        · exact le_refl _
        · omega
      · exact absurd (p2 hf) hx
    · intro x a b hf
      exact ((I1.done x a b (List.not_mem_nil x)).1 hf).1
    · intro x a b hx
      obtain ⟨p1, p2⟩ := I1.done x a b (List.not_mem_nil x)
      by_cases hf : rd s.matchU x = NIL
      · exact Or.inl (p1 hf).2
      · exact absurd (p2 hf) hx
    · intro x a b hx
      obtain ⟨p1, p2⟩ := I1.done x a b (List.not_mem_nil x)
      by_cases hf : rd s.matchU x = NIL
      · exact Or.inl ⟨(p1 hf).1, hf⟩
      · exact absurd (p2 hf) hx
  obtain ⟨d2, f2, e2, I2⟩ := bfsLoop_spec s hs hm hn s.n1 d1 q1 false hB (le_of_eq I1.cnt)
  refine ⟨f2, { s with dist := d2 }, ?_, rfl, I2⟩
  simp only [bfs, e1, e2]

theorem BfsPost.shape_after {s t : HopcroftKarp} {found : Bool} (hp : BfsPost s found t)
    (hs : Shape s) : Shape t := by
  rw [hp.same]
  exact ⟨hs.adj_len, hs.mU_len, hs.mV_len, hp.inv.len, hs.adj_rng⟩

theorem BfsPost.matching_after {s t : HopcroftKarp} {found : Bool} (hp : BfsPost s found t)
    (hm : Matching s) : Matching t := by
  rw [hp.same]
  exact ⟨hm.uv, hm.vu⟩

theorem BfsPost.distOK_after {s t : HopcroftKarp} {found : Bool} (hp : BfsPost s found t)
    (hn : (s.n1 : Int) < INF) : DistOK t := by
  have e : t.n1 = s.n1 := by rw [hp.same]
  refine ⟨by rw [e]; exact hn, ?_⟩
  intro x h0 h1
  rw [e] at h1 ⊢
  by_cases hx : rd t.dist x = INF
  · exact Or.inl hx
  · have := hp.inv.bound x h0 h1 hx
    exact Or.inr ⟨this.1, by omega⟩

/-- After a `bfs()` that returned `true`, some unmatched vertex of `U` starts a
layered alternating path to a free vertex of `V`. -/
theorem BfsPost.good_start {s t : HopcroftKarp} (hp : BfsPost s true t) :
    ∃ u, (0 ≤ u ∧ u < (s.n1 : Int)) ∧ rd s.matchU u = NIL ∧ Good t u := by
  have eA : t.adj = s.adj := by rw [hp.same]
  have eV : t.matchV = s.matchV := by rw [hp.same]
  have key : ∀ (n : Nat) (x : Int), (0 ≤ x ∧ x < (s.n1 : Int)) → rd t.dist x ≠ INF →
      rd t.dist x = n → Good t x →
      ∃ u, (0 ≤ u ∧ u < (s.n1 : Int)) ∧ rd s.matchU u = NIL ∧ Good t u := by
    intro n
    induction n with
    | zero =>
      intro x hx hd h0 hg
      rcases hp.inv.parent x hx.1 hx.2 hd with h | ⟨u, v, hu, hud, _, _, e⟩
      · exact ⟨x, hx, h.2, hg⟩
      · exfalso
        have hu := hp.inv.bound u hu.1 hu.2 hud
        simp at h0
        omega
    | succ n ih =>
      intro x hx hd h0 hg
      rcases hp.inv.parent x hx.1 hx.2 hd with h | ⟨u, v, hu, hud, hv, hw, e⟩
      · exact ⟨x, hx, h.2, hg⟩
      · apply ih u hu hud (by push_cast at h0; omega)
        have hwN : rd t.matchV v ≠ NIL := by rw [eV, hw]; exact NIL_ne_of_nonneg hx.1
        refine Good.step u v (by rw [eA]; exact hv) hwN ?_ ?_
        · rw [eV, hw]; exact e
        · rw [eV, hw]; exact hg
  obtain ⟨u, v, hu, hud, hv, hw⟩ := hp.inv.wit rfl
  have hb := hp.inv.bound u hu.1 hu.2 hud
  exact key (rd t.dist u).toNat u hu hud (by omega)
    (Good.free u v (by rw [eA]; exact hv) (by rw [eV]; exact hw))

/-! ## One round of augmentations -/

theorem augment_spec : ∀ (us : List Int) (s : HopcroftKarp) (k : Nat),
    us.Nodup → (∀ x ∈ us, 0 ≤ x ∧ x < (s.n1 : Int)) → Shape s → Matching s → DistOK s →
    (∀ x ∈ us, rd s.matchU x = NIL → rd s.dist x = 0) →
    ∃ t k2, augment us s k = some (t, k2) ∧ AugmentPost s k t k2 ∧
      ((∃ u ∈ us, rd s.matchU u = NIL ∧ Good s u) → k < k2) := by
  intro us
  induction us with
  | nil =>
    intro s k _ _ hs hm hd _
    refine ⟨s, k, rfl, ⟨hs, hm, hd, rfl, rfl, rfl, le_refl _, by simp, by simp,
      fun _ h => h, fun _ h => h⟩, ?_⟩
    rintro ⟨u, hu, _⟩
    exact absurd hu (List.not_mem_nil u)
  | cons u us ih =>
    intro s k hnd hrng hs hm hd hfresh
    have hnd' : us.Nodup := (List.nodup_cons.1 hnd).2
    have hune : ∀ x ∈ us, x ≠ u := by
      intro x hx e; subst e; exact (List.nodup_cons.1 hnd).1 hx
    have hur := hrng u (List.mem_cons_self _ _)
    have hrng' : ∀ x ∈ us, 0 ≤ x ∧ x < (s.n1 : Int) :=
      fun x hx => hrng x (List.mem_cons_of_mem _ hx)
    simp only [augment]
    by_cases hfree : rd s.matchU u = NIL
    · simp only [hfree, if_true]
      have hdu : rd s.dist u = 0 := hfresh u (List.mem_cons_self _ _) hfree
      have hdInf : rd s.dist u ≠ INF := by rw [hdu]; unfold INF; omega
      obtain ⟨b, t, hc⟩ := dfs_total s.n1 s u hs hm hd hur.1 hur.2 hdInf (by rw [hdu]; omega)
      have hp := dfs_post s.n1 s u b t hs hm hd hur.1 hur.2 hdInf hc
      have hst := dfs_post_shape hs hp
      have hmt := dfs_post_matching hm hur.1 hur.2 hfree hp
      have hdt := dfs_post_distOK hd hp
      have hkeepU : ∀ x, rd s.matchU x ≠ NIL → rd t.matchU x ≠ NIL := by
        intro x hx
        cases b with
        | false => rw [(hp.fail rfl).1]; exact hx
        | true => exact (hp.succ rfl).keepU x hx
      have hkeepV : ∀ y, rd s.matchV y ≠ NIL → rd t.matchV y ≠ NIL := by
        intro x hx
        cases b with
        | false => rw [(hp.fail rfl).2.1]; exact hx
        | true => exact (hp.succ rfl).keepV x hx
      have hfresh' : ∀ x ∈ us, rd t.matchU x = NIL → rd t.dist x = 0 := by
        intro x hx hxf
        have hxs : rd s.matchU x = NIL := by
          by_contra hne; exact hkeepU x hne hxf
        have hx0 := hfresh x (List.mem_cons_of_mem _ hx) hxs
        rw [(hp.frameU x (hune x hx) (by rw [hx0, hdu])).1, hx0]
      have hrng'' : ∀ x ∈ us, 0 ≤ x ∧ x < (t.n1 : Int) := by rw [hp.n1]; exact hrng'
      cases b with
      | true =>
        simp only [hc]
        have A := hp.succ rfl
        obtain ⟨t2, k2, e, P, _⟩ := ih t (k + 1) hnd' hrng'' hst hmt hdt hfresh'
        refine ⟨t2, k2, e, ⟨P.shape, P.matching, P.distOK, P.n1.trans hp.n1, P.n2.trans hp.n2,
          P.adj.trans hp.adj, by have := P.mono; omega, ?_, ?_,
          fun x hx => P.keepU x (hkeepU x hx), fun x hx => P.keepV x (hkeepV x hx)⟩, ?_⟩
        · have c1 := P.cntU
          have c2 := A.cntU
          have := P.mono
          simp only [hfree, if_true] at c2
          omega
        · have c1 := P.cntV
          have c2 := A.cntV
          have := P.mono
          omega
        · intro _; have := P.mono; omega
      | false =>
        simp only [hc]
        obtain ⟨fU, fV, _⟩ := hp.fail rfl
        obtain ⟨g1, g2⟩ := dfs_fail s.n1 s u t hc
        obtain ⟨t2, k2, e, P, hprog⟩ := ih t k hnd' hrng'' hst hmt hdt hfresh'
        refine ⟨t2, k2, e, ⟨P.shape, P.matching, P.distOK, P.n1.trans hp.n1, P.n2.trans hp.n2,
          P.adj.trans hp.adj, P.mono, by rw [← fU]; exact P.cntU, by rw [← fV]; exact P.cntV,
          fun x hx => P.keepU x (hkeepU x hx), fun x hx => P.keepV x (hkeepV x hx)⟩, ?_⟩
        rintro ⟨u0, hu0, hf0, hg0⟩
        rcases List.mem_cons.1 hu0 with rfl | hu0
        · exact absurd hg0 g2
        · exact hprog ⟨u0, hu0, by rw [fU]; exact hf0, g1.pres hg0⟩
    · simp only [hfree, if_false]
      obtain ⟨t2, k2, e, P, hprog⟩ := ih s k hnd' hrng' hs hm hd
        (fun x hx => hfresh x (List.mem_cons_of_mem _ hx))
      refine ⟨t2, k2, e, P, ?_⟩
      rintro ⟨u0, hu0, hf0, hg0⟩
      rcases List.mem_cons.1 hu0 with rfl | hu0
      · exact absurd hf0 hfree
      · exact hprog ⟨u0, hu0, hf0, hg0⟩

theorem BfsPost.n1 {s t : HopcroftKarp} {found : Bool} (hp : BfsPost s found t) :
    t.n1 = s.n1 := by rw [hp.same]

theorem BfsPost.n2 {s t : HopcroftKarp} {found : Bool} (hp : BfsPost s found t) :
    t.n2 = s.n2 := by rw [hp.same]

theorem BfsPost.adj {s t : HopcroftKarp} {found : Bool} (hp : BfsPost s found t) :
    t.adj = s.adj := by rw [hp.same]

theorem BfsPost.mU {s t : HopcroftKarp} {found : Bool} (hp : BfsPost s found t) :
    t.matchU = s.matchU := by rw [hp.same]

theorem BfsPost.mV {s t : HopcroftKarp} {found : Bool} (hp : BfsPost s found t) :
    t.matchV = s.matchV := by rw [hp.same]

/-- The layering reads the old distance labels only for the length of `dist`:
running `bfs()` again on the state it left gives the same answer and state. -/
theorem bfs_again {s t : HopcroftKarp} {found : Bool} (hs : Shape s)
    (hp : BfsPost s found t) (h : bfs s = some (found, t)) : bfs t = some (found, t) := by
  have hl : t.dist.length = s.dist.length := by rw [hp.inv.len, hs.dist_len]
  have e : bfs t = (bfs s).map (fun r => (r.1, { t with dist := r.2.dist })) := by
    rw [hp.same]
    simp only [bfs]
    rw [hl]
    cases bfsLoop s.adj s.matchV s.n1
      ((bfsInit s.matchU (upto s.n1) (List.replicate s.dist.length INF, [])).1,
       (bfsInit s.matchU (upto s.n1) (List.replicate s.dist.length INF, [])).2, false) with
    | none => rfl
    | some r => rfl
  rw [e, h]
  rfl

theorem BfsInv.congr {s t : HopcroftKarp} {dist q : List Int} {found : Bool}
    (h : BfsInv s dist q found) (e1 : t.n1 = s.n1) (e2 : t.adj = s.adj)
    (e3 : t.matchU = s.matchU) (e4 : t.matchV = s.matchV) : BfsInv t dist q found := by
  refine ⟨by rw [e1]; exact h.len, by rw [e1]; exact h.q_rng, by rw [e1]; exact h.bound,
    by rw [e1, e3]; exact h.free0, ?_, by rw [e1, e2, e3, e4]; exact h.parent,
    by rw [e1, e2, e4]; exact h.wit⟩
  intro u h0 h1 hu
  rw [e1] at h1
  rcases h.closed u h0 h1 hu with a | a
  · exact Or.inl a
  · right
    intro v hv
    rw [e2] at hv
    rw [e4]
    exact a v hv

theorem rounds_spec : ∀ (fuel : Nat) (s : HopcroftKarp) (k : Nat),
    Shape s → Matching s → (s.n1 : Int) < INF →
    min (s.matchU.count NIL) (s.matchV.count NIL) + 1 ≤ fuel →
    ∃ t k2, rounds fuel s k = some (t, k2) ∧ RoundsPost s k t k2 := by
  intro fuel
  induction fuel with
  | zero => intro s k _ _ _ h; omega
  | succ f ih =>
    intro s k hs hm hn hf
    obtain ⟨found, t1, e1, B⟩ := bfs_spec s hs hm hn
    simp only [rounds, e1]
    cases found with
    | false =>
      refine ⟨t1, k, rfl, ⟨B.shape_after hs, B.matching_after hm, B.n1, B.n2, B.adj, le_refl _,
        by rw [B.mU]; simp, by rw [B.mV]; simp, by rw [B.mU]; exact fun _ h => h,
        by rw [B.mV]; exact fun _ h => h, B.inv.congr B.n1 B.adj B.mU B.mV,
        bfs_again hs B e1⟩⟩
    | true =>
      have hfresh : ∀ x ∈ upto t1.n1, rd t1.matchU x = NIL → rd t1.dist x = 0 := by
        intro x hx hfree
        rw [B.n1] at hx
        obtain ⟨a, b⟩ := (mem_upto _ _).1 hx
        exact B.inv.free0 x a b (by rw [← B.mU]; exact hfree)
      obtain ⟨t2, k2, e2, P, hprog⟩ := augment_spec (upto t1.n1) t1 k (nodup_upto _)
        (fun x hx => (mem_upto _ _).1 hx) (B.shape_after hs) (B.matching_after hm) (B.distOK_after hn) hfresh
      have hlt : k < k2 := by
        apply hprog
        obtain ⟨u, hu, hfree, hg⟩ := B.good_start
        exact ⟨u, (mem_upto _ _).2 (by rw [B.n1]; exact hu), by rw [B.mU]; exact hfree, hg⟩
      simp only [e2]
      have cU := P.cntU
      have cV := P.cntV
      rw [B.mU] at cU
      rw [B.mV] at cV
      obtain ⟨t3, k3, e3, R⟩ := ih t2 k2 P.shape P.matching
        (by rw [P.n1, B.n1]; exact hn) (by omega)
      refine ⟨t3, k3, e3, ⟨R.shape, R.matching, R.n1.trans (P.n1.trans B.n1),
        R.n2.trans (P.n2.trans B.n2), R.adj.trans (P.adj.trans B.adj),
        by have := R.mono; omega, ?_, ?_, ?_, ?_, R.final, R.again⟩⟩
      · have := R.cntU; have := R.mono; omega
      · have := R.cntV; have := R.mono; omega
      · intro x hx; exact R.keepU x (P.keepU x (by rw [B.mU]; exact hx))
      · intro x hx; exact R.keepV x (P.keepV x (by rw [B.mV]; exact hx))

theorem max_matching_spec (s : HopcroftKarp) (hs : Shape s) (hm : Matching s)
    (hn : (s.n1 : Int) < INF) :
    ∃ t k2, max_matching s = some (collect t, t) ∧ RoundsPost s 0 t k2 := by
  have h1 : s.matchU.count NIL ≤ s.n1 := by rw [← hs.mU_len]; exact List.count_le_length _ _
  have h2 : s.matchV.count NIL ≤ s.n2 := by rw [← hs.mV_len]; exact List.count_le_length _ _
  obtain ⟨t, k2, e, R⟩ := rounds_spec (min s.n1 s.n2 + 1) s 0 hs hm hn (by omega)
  exact ⟨t, k2, by simp only [max_matching, e], R⟩

/-! ## The returned vector -/

theorem filterMap_ite {α β : Type} (p : α → Prop) [DecidablePred p] (f : α → β) (l : List α) :
    l.filterMap (fun a => if p a then some (f a) else none)
      = (l.filter (fun a => decide (p a))).map f := by
  induction l with
  | nil => rfl
  | cons a l ih =>
    by_cases h : p a
    · simp [List.filterMap_cons, List.filter_cons, h, ih]
    · simp [List.filterMap_cons, List.filter_cons, h, ih]

theorem collect_eq (s : HopcroftKarp) :
    collect s = ((upto s.n1).filter (fun u => decide (rd s.matchU u ≠ NIL))).map
      (fun u => (u, rd s.matchU u)) := by
  unfold collect
  exact filterMap_ite (fun u => rd s.matchU u ≠ NIL) (fun u => (u, rd s.matchU u)) (upto s.n1)

theorem mem_collect (s : HopcroftKarp) (p : Int × Int) :
    p ∈ collect s ↔ (0 ≤ p.1 ∧ p.1 < (s.n1 : Int)) ∧ rd s.matchU p.1 ≠ NIL ∧
      p.2 = rd s.matchU p.1 := by
  rw [collect_eq]
  simp only [List.mem_map, List.mem_filter, mem_upto, decide_eq_true_eq]
  constructor
  · rintro ⟨u, ⟨hu, hm⟩, rfl⟩
    exact ⟨hu, hm, rfl⟩
  · rintro ⟨hu, hm, e⟩
    exact ⟨p.1, ⟨hu, hm⟩, by rw [← e]⟩

theorem collect_fst (s : HopcroftKarp) :
    (collect s).map Prod.fst = (upto s.n1).filter (fun u => decide (rd s.matchU u ≠ NIL)) := by
  rw [collect_eq, List.map_map]
  exact List.map_id _

theorem mem_collect_fst (s : HopcroftKarp) (u : Int) :
    u ∈ (collect s).map Prod.fst ↔ (0 ≤ u ∧ u < (s.n1 : Int)) ∧ rd s.matchU u ≠ NIL := by
  rw [collect_fst]
  simp only [List.mem_filter, mem_upto, decide_eq_true_eq]

theorem collect_fst_nodup (s : HopcroftKarp) : ((collect s).map Prod.fst).Nodup := by
  rw [collect_fst]
  exact (nodup_upto _).filter _

theorem collect_snd_nodup (s : HopcroftKarp) (hm : Matching s) :
    ((collect s).map Prod.snd).Nodup := by
  rw [collect_eq, List.map_map]
  apply List.Nodup.map_on _ ((nodup_upto _).filter _)
  intro x hx y hy e
  simp only [List.mem_filter, mem_upto, decide_eq_true_eq] at hx hy
  simp only [Function.comp] at e
  have h1 := (hm.uv x hx.1.1 hx.1.2 hx.2).2
  have h2 := (hm.uv y hy.1.1 hy.1.2 hy.2).2
  rw [← h1, ← h2, e]

theorem length_collect (s : HopcroftKarp) (hs : Shape s) :
    (collect s).length + s.matchU.count NIL = s.n1 := by
  rw [collect_eq, List.length_map]
  have e := map_rd_upto s.matchU
  rw [hs.mU_len] at e
  have h1 : ((upto s.n1).filter (fun u => decide (rd s.matchU u ≠ NIL))).length
      = (s.matchU.filter (fun a => decide (a ≠ NIL))).length := by
    conv_rhs => rw [← e]
    rw [List.filter_map, List.length_map]
    rfl
  rw [h1, List.count_eq_countP, List.countP_eq_length_filter]
  have h2 := List.length_eq_length_filter_add (l := s.matchU) (fun a => decide (a ≠ NIL))
  have h3 : (s.matchU.filter (fun a => !decide (a ≠ NIL))) = s.matchU.filter (fun a => a == NIL) := by
    congr 1; funext a
    by_cases h : a = NIL <;> simp [h]
  rw [h3, hs.mU_len] at h2
  omega

/-! ## The returned matching is maximum -/

/-- Once `bfs()` has returned `false`, every matching of the graph injects into the
matched vertices of `U`. -/
theorem final_maximum (t : HopcroftKarp) (ht : Shape t) (hm : Matching t)
    (hf : BfsInv t t.dist [] false) (M : List (Int × Int))
    (hM1 : (M.map Prod.fst).Nodup) (hM2 : (M.map Prod.snd).Nodup)
    (hM3 : ∀ p ∈ M, p.2 ∈ rd t.adj p.1) : M.length ≤ (collect t).length := by
  let f : Int × Int → Int := fun p => if rd t.dist p.1 = INF then p.1 else rd t.matchV p.2
  have hexp : ∀ p ∈ M, rd t.dist p.1 ≠ INF →
      rd t.matchV p.2 ≠ NIL ∧ rd t.dist (rd t.matchV p.2) ≠ INF := by
    intro p hp hd
    have hr := mem_adj_rng ht (hM3 p hp)
    rcases hf.closed p.1 hr.1 hr.2 hd with h | h
    · exact absurd h (List.not_mem_nil _)
    · obtain ⟨a, b⟩ := h p.2 (hM3 p hp)
      have : rd t.matchV p.2 ≠ NIL := fun e => by cases a e
      exact ⟨this, b this⟩
  have hinj : ∀ p ∈ M, ∀ p' ∈ M, f p = f p' → p = p' := by
    intro p hp p' hp' e
    simp only [f] at e
    by_cases h1 : rd t.dist p.1 = INF
    · by_cases h2 : rd t.dist p'.1 = INF
      · simp only [h1, h2, if_true] at e
        exact List.inj_on_of_nodup_map hM1 hp hp' e
      · simp only [h1, h2, if_true, if_false] at e
        exact absurd (e ▸ h1) (hexp p' hp' h2).2
    · by_cases h2 : rd t.dist p'.1 = INF
      · simp only [h1, h2, if_true, if_false] at e
        exact absurd (e ▸ h2) (hexp p hp h1).2
      · simp only [h1, h2, if_false] at e
        have r1 := ht.adj_rng _ _ (hM3 p hp)
        have r2 := ht.adj_rng _ _ (hM3 p' hp')
        have b1 := (hm.vu p.2 r1.1 r1.2 (hexp p hp h1).1).2
        have b2 := (hm.vu p'.2 r2.1 r2.2 (hexp p' hp' h2).1).2
        rw [e, b2] at b1
        exact List.inj_on_of_nodup_map hM2 hp hp' b1.symm
  have hsub : M.map f ⊆ (collect t).map Prod.fst := by
    intro x hx
    obtain ⟨p, hp, rfl⟩ := List.mem_map.1 hx
    rw [mem_collect_fst]
    have hr := mem_adj_rng ht (hM3 p hp)
    simp only [f]
    by_cases h1 : rd t.dist p.1 = INF
    · simp only [h1, if_true]
      refine ⟨hr, fun hfree => ?_⟩
      have := hf.free0 p.1 hr.1 hr.2 hfree
      rw [this] at h1
      exact absurd h1 (ne_of_lt INF_pos)
    · simp only [h1, if_false]
      have r1 := ht.adj_rng _ _ (hM3 p hp)
      obtain ⟨a, b⟩ := hm.vu p.2 r1.1 r1.2 (hexp p hp h1).1
      exact ⟨a, by rw [b]; exact NIL_ne_of_nonneg r1.1⟩
  have hnd : (M.map f).Nodup := List.Nodup.map_on hinj (List.Nodup.of_map _ hM1)
  have := (List.subperm_of_subset hnd hsub).length_le
  simpa using this

theorem final_no_augmenting (t : HopcroftKarp) (hm : Matching t)
    (hf : BfsInv t t.dist [] false) (es : List (Int × Int))
    (hadj : ∀ x y, ((x, y) ∈ es ∧ 0 ≤ x ∧ x < (t.n1 : Int) ∧ 0 ≤ y ∧ y < (t.n2 : Int)) →
      y ∈ rd t.adj x) :
    ¬ Augmenting t.n1 t.n2 es (collect t) := by
  have key : ∀ u, AltReach t.n1 t.n2 es (collect t) u →
      (0 ≤ u ∧ u < (t.n1 : Int)) ∧ rd t.dist u ≠ INF := by
    intro u h
    induction h with
    | start u h0 h1 hfree =>
      refine ⟨⟨h0, h1⟩, ?_⟩
      have : rd t.matchU u = NIL := by
        by_contra hne
        exact hfree ((mem_collect_fst t u).2 ⟨⟨h0, h1⟩, hne⟩)
      rw [hf.free0 u h0 h1 this]
      exact ne_of_lt INF_pos
    | step u v w _ he hu hv hr ih =>
      obtain ⟨hw, hne, hp2⟩ := (mem_collect t (w, v)).1 hr
      simp only at hw hne hp2
      have hback := (hm.uv w hw.1 hw.2 hne).2
      rw [← hp2] at hback
      refine ⟨hw, ?_⟩
      rcases hf.closed u ih.1.1 ih.1.2 ih.2 with h | h
      · exact absurd h (List.not_mem_nil _)
      · have := (h v (hadj u v ⟨he, hu.1, hu.2, hv.1, hv.2⟩)).2
        rw [hback] at this
        exact this (NIL_ne_of_nonneg hw.1)
  rintro ⟨u, v, hu, he, hur, hvr, hv⟩
  obtain ⟨_, hd⟩ := key u hu
  rcases hf.closed u hur.1 hur.2 hd with h | h
  · exact absurd h (List.not_mem_nil _)
  · obtain ⟨a, _⟩ := h v (hadj u v ⟨he, hur.1, hur.2, hvr.1, hvr.2⟩)
    by_cases hw : rd t.matchV v = NIL
    · cases a hw
    · obtain ⟨b, c⟩ := hm.vu v hvr.1 hvr.2 hw
      apply hv
      refine List.mem_map.2 ⟨(rd t.matchV v, v), ?_, rfl⟩
      rw [mem_collect]
      exact ⟨b, by simp only; rw [c]; exact NIL_ne_of_nonneg hvr.1, by simp only; exact c.symm⟩

/-! ## Properties of `max_matching` and `add_edge` -/

theorem load_props (n1 n2 : Nat) (es : List (Int × Int)) :
    Shape (load n1 n2 es) ∧ Matching (load n1 n2 es) ∧
    (load n1 n2 es).n1 = n1 ∧ (load n1 n2 es).n2 = n2 ∧
    (load n1 n2 es).matchU = List.replicate n1 NIL ∧
    (load n1 n2 es).matchV = List.replicate n2 NIL ∧
    ∀ x y, y ∈ rd (load n1 n2 es).adj x ↔
      ((x, y) ∈ es ∧ 0 ≤ x ∧ x < (n1 : Int) ∧ 0 ≤ y ∧ y < (n2 : Int)) := by
  obtain ⟨a1, a2, a3, a4, a5, a6, _, a8⟩ :=
    add_edges_props es (HopcroftKarp.mk0 n1 n2) (shape_mk0 n1 n2) (matching_mk0 n1 n2)
  refine ⟨a1, a2, a3, a4, a5, a6, ?_⟩
  intro x y
  rw [show load n1 n2 es = add_edges (HopcroftKarp.mk0 n1 n2) es from rfl, a8]
  constructor
  · rintro (h | h)
    · exact absurd h (fun h => by
        have := mem_adj_rng (shape_mk0 n1 n2) h
        simp only [HopcroftKarp.mk0] at h
        rw [rd_replicate n1 [] x this.1 this.2] at h
        exact absurd h (List.not_mem_nil y))
    · exact h
  · exact Or.inr

/-- C1: on a fresh matcher `HopcroftKarp(n1, n2)` loaded by any sequence of `add_edge`
calls, `max_matching()` returns, and the returned list is a matching of the graph: no
`u` and no `v` occurs in two pairs, and every pair `(u, v)` has `0 <= u < n1`,
`0 <= v < n2` and was passed to `add_edge`. -/
theorem max_matching_valid (n1 n2 : Nat) (es : List (Int × Int)) (hn : (n1 : Int) < INF) :
    ∃ r t, max_matching (load n1 n2 es) = some (r, t) ∧
      (r.map Prod.fst).Nodup ∧ (r.map Prod.snd).Nodup ∧
      ∀ p ∈ r, (0 ≤ p.1 ∧ p.1 < (n1 : Int)) ∧ (0 ≤ p.2 ∧ p.2 < (n2 : Int)) ∧ p ∈ es := by
  obtain ⟨hs, hm, e1, e2, _, _, hadj⟩ := load_props n1 n2 es
  obtain ⟨t, k2, e, R⟩ := max_matching_spec (load n1 n2 es) hs hm (by rw [e1]; exact hn)
  refine ⟨collect t, t, e, collect_fst_nodup t, collect_snd_nodup t R.matching, ?_⟩
  intro p hp
  obtain ⟨hr, hne, hp2⟩ := (mem_collect t p).1 hp
  obtain ⟨a, _⟩ := R.matching.uv p.1 hr.1 hr.2 hne
  rw [← hp2, R.adj] at a
  obtain ⟨b1, b2, b3, b4, b5⟩ := (hadj p.1 p.2).1 a
  exact ⟨⟨b2, b3⟩, ⟨b4, b5⟩, b1⟩

theorem max_matching_valid_witness :
    ((4 : Nat) : Int) < INF ∧
    ∃ r t, max_matching (load 4 4 [(0,0),(0,1),(1,0),(2,1),(2,2),(3,2),(3,3)]) = some (r, t) ∧
      (r.map Prod.fst).Nodup ∧ (r.map Prod.snd).Nodup ∧
      ∀ p ∈ r, (0 ≤ p.1 ∧ p.1 < ((4 : Nat) : Int)) ∧ (0 ≤ p.2 ∧ p.2 < ((4 : Nat) : Int)) ∧
        p ∈ [((0 : Int), (0 : Int)),(0,1),(1,0),(2,1),(2,2),(3,2),(3,3)] :=
  ⟨by decide, max_matching_valid 4 4 _ (by decide)⟩

/-- C2: on a fresh matcher loaded by any sequence of `add_edge` calls, the list
returned by `max_matching()` has maximum cardinality: a list `M` of accepted
(in-range, added) edges in which no `u` and no `v` occurs twice has at most as many
pairs as the returned list; and no augmenting path exists relative to the returned
list. -/
theorem max_matching_maximum (n1 n2 : Nat) (es : List (Int × Int)) (hn : (n1 : Int) < INF)
    (M : List (Int × Int)) (hM1 : (M.map Prod.fst).Nodup) (hM2 : (M.map Prod.snd).Nodup)
    (hM3 : ∀ p ∈ M, p ∈ es ∧ (0 ≤ p.1 ∧ p.1 < (n1 : Int)) ∧ (0 ≤ p.2 ∧ p.2 < (n2 : Int))) :
    ∃ r t, max_matching (load n1 n2 es) = some (r, t) ∧ M.length ≤ r.length ∧
      ¬ Augmenting n1 n2 es r := by
  obtain ⟨hs, hm, e1, e2, _, _, hadj⟩ := load_props n1 n2 es
  obtain ⟨t, k2, e, R⟩ := max_matching_spec (load n1 n2 es) hs hm (by rw [e1]; exact hn)
  refine ⟨collect t, t, e, final_maximum t R.shape R.matching R.final M hM1 hM2 ?_, ?_⟩
  · intro p hp
    obtain ⟨a, b, c⟩ := hM3 p hp
    rw [R.adj]
    exact (hadj p.1 p.2).2 ⟨a, b.1, b.2, c.1, c.2⟩
  · have h := final_no_augmenting t R.matching R.final es (by
      intro x y hxy
      rw [R.n1, e1, R.n2, e2] at hxy
      rw [R.adj]
      exact (hadj x y).2 hxy)
    rw [R.n1, e1, R.n2, e2] at h
    exact h

theorem max_matching_maximum_witness :
    ((5 : Nat) : Int) < INF ∧
    (([((1 : Int), (1 : Int)), (2,0), (3,3), (4,2)].map Prod.fst).Nodup ∧
     ([((1 : Int), (1 : Int)), (2,0), (3,3), (4,2)].map Prod.snd).Nodup ∧
     ∀ p ∈ [((1 : Int), (1 : Int)), (2,0), (3,3), (4,2)],
       p ∈ [((0 : Int), (1 : Int)),(1,1),(2,0),(2,2),(3,3),(4,2)] ∧
       (0 ≤ p.1 ∧ p.1 < ((5 : Nat) : Int)) ∧ (0 ≤ p.2 ∧ p.2 < ((4 : Nat) : Int))) ∧
    ∃ r t, max_matching (load 5 4 [(0,1),(1,1),(2,0),(2,2),(3,3),(4,2)]) = some (r, t) ∧
      [((1 : Int), (1 : Int)), (2,0), (3,3), (4,2)].length ≤ r.length ∧
      ¬ Augmenting 5 4 [(0,1),(1,1),(2,0),(2,2),(3,3),(4,2)] r :=
  ⟨by decide, ⟨by decide, by decide, by decide⟩,
    max_matching_maximum 5 4 [(0,1),(1,1),(2,0),(2,2),(3,3),(4,2)] (by decide)
      [(1,1),(2,0),(3,3),(4,2)] (by decide) (by decide) (by decide)⟩

/-- The graphs of `hopcroft_karp_test.cc` and of `hopcroft_karp_sample.cc`: the sizes of
the returned matchings are 4, 3, 3, 1, 2 and 4. -/
theorem max_matching_tests :
    (max_matching (load 4 4 [(0,0),(0,1),(1,0),(2,1),(2,2),(3,2),(3,3)])).map (fun r => r.1.length)
      = some 4 ∧
    (max_matching (load 3 3 [(0,0),(0,1),(1,1),(1,2),(2,0),(2,2)])).map (fun r => r.1.length)
      = some 3 ∧
    (max_matching (load 5 5 [(0,0),(0,1),(1,1),(2,0),(2,1),(3,4),(4,4)])).map (fun r => r.1.length)
      = some 3 ∧
    (max_matching (load 4 2 [(0,0),(1,0),(2,0)])).map (fun r => r.1.length) = some 1 ∧
    (max_matching (load 2 4 [(0,0),(0,1),(1,2),(1,3)])).map (fun r => r.1.length) = some 2 ∧
    (max_matching (load 5 4 [(0,1),(1,1),(2,0),(2,2),(3,3),(4,2)])).map (fun r => r.1.length)
      = some 4 := by
  refine ⟨by decide, by decide, by decide, by decide, by decide, by decide⟩

/-- C3: `max_matching()` terminates. On a fresh loaded matcher the loop `while (bfs())`
ends within `min(n1, n2) + 1` calls of `bfs()`; and in every state with a valid
matching in which `bfs()` returns `true`, the loop over `u` that follows ends with at
least one successful top-level `dfs(u)` (the counter `matching_size` grows) and with
strictly fewer unmatched vertices of `U`. -/
theorem max_matching_terminates (n1 n2 : Nat) (es : List (Int × Int))
    (hn : (n1 : Int) < INF) :
    (∃ t k, rounds (min n1 n2 + 1) (load n1 n2 es) 0 = some (t, k)) ∧
    (∀ s : HopcroftKarp, Shape s → Matching s → s.n1 = n1 → ∀ t k, bfs s = some (true, t) →
      ∃ t2 k2, augment (upto t.n1) t k = some (t2, k2) ∧ k < k2 ∧
        t2.matchU.count NIL < s.matchU.count NIL) := by
  obtain ⟨hs, hm, e1, e2, e3, e4, _⟩ := load_props n1 n2 es
  constructor
  · obtain ⟨t, k2, e, _⟩ := rounds_spec (min n1 n2 + 1) (load n1 n2 es) 0 hs hm
      (by rw [e1]; exact hn) (by rw [e3, e4]; simp)
    exact ⟨t, k2, e⟩
  · intro s hs hm e1 t k hb
    have hn' : (s.n1 : Int) < INF := by rw [e1]; exact hn
    obtain ⟨found, t1, eb, B⟩ := bfs_spec s hs hm hn'
    rw [hb] at eb
    simp only [Option.some.injEq, Prod.mk.injEq] at eb
    obtain ⟨rfl, rfl⟩ := eb
    have hfresh : ∀ x ∈ upto t.n1, rd t.matchU x = NIL → rd t.dist x = 0 := by
      intro x hx hfree
      rw [B.n1] at hx
      obtain ⟨a, b⟩ := (mem_upto _ _).1 hx
      exact B.inv.free0 x a b (by rw [← B.mU]; exact hfree)
    obtain ⟨t2, k2, e2, P, hprog⟩ := augment_spec (upto t.n1) t k (nodup_upto _)
      (fun x hx => (mem_upto _ _).1 hx) (B.shape_after hs) (B.matching_after hm) (B.distOK_after hn') hfresh
    have hlt : k < k2 := by
      apply hprog
      obtain ⟨u, hu, hfree, hg⟩ := B.good_start
      exact ⟨u, (mem_upto _ _).2 (by rw [B.n1]; exact hu), by rw [B.mU]; exact hfree, hg⟩
    refine ⟨t2, k2, e2, hlt, ?_⟩
    have := P.cntU
    rw [B.mU] at this
    omega

theorem max_matching_terminates_witness :
    ((4 : Nat) : Int) < INF ∧
    (∃ t k, rounds (min 4 2 + 1) (load 4 2 [(0,0),(1,0),(2,0)]) 0 = some (t, k)) ∧
    bfs (load 4 2 [(0,0),(1,0),(2,0)]) = some (true,
      { n1 := 4, n2 := 2, adj := [[0],[0],[0],[]], matchU := [NIL, NIL, NIL, NIL],
        matchV := [NIL, NIL], dist := [0, 0, 0, 0] }) ∧
    ∃ t2 k2, augment (upto 4)
        { n1 := 4, n2 := 2, adj := [[0],[0],[0],[]], matchU := [NIL, NIL, NIL, NIL],
          matchV := [NIL, NIL], dist := [0, 0, 0, 0] } 0 = some (t2, k2) ∧ 0 < k2 ∧
      t2.matchU.count NIL < (load 4 2 [(0,0),(1,0),(2,0)]).matchU.count NIL := by
  have hb : bfs (load 4 2 [(0,0),(1,0),(2,0)]) = some (true,
      { n1 := 4, n2 := 2, adj := [[0],[0],[0],[]], matchU := [NIL, NIL, NIL, NIL],
        matchV := [NIL, NIL], dist := [0, 0, 0, 0] }) := by decide
  obtain ⟨hs, hm, e1, _⟩ := load_props 4 2 [(0,0),(1,0),(2,0)]
  obtain ⟨h1, h2⟩ := max_matching_terminates 4 2 [(0,0),(1,0),(2,0)] (by decide)
  exact ⟨by decide, h1, hb, h2 _ hs hm e1 _ 0 hb⟩

/-- C9: re-querying is idempotent. After `max_matching()` on a fresh loaded matcher, a
second `max_matching()` with no `add_edge` in between finds `bfs()` false at once and
returns the same list, hence a result of the same size, and leaves the same state. -/
theorem max_matching_twice (n1 n2 : Nat) (es : List (Int × Int)) (hn : (n1 : Int) < INF) :
    ∃ r t, max_matching (load n1 n2 es) = some (r, t) ∧ bfs t = some (false, t) ∧
      max_matching t = some (r, t) := by
  obtain ⟨hs, hm, e1, _⟩ := load_props n1 n2 es
  obtain ⟨t, k2, e, R⟩ := max_matching_spec (load n1 n2 es) hs hm (by rw [e1]; exact hn)
  refine ⟨collect t, t, e, R.again, ?_⟩
  simp only [max_matching, rounds, R.again]

theorem max_matching_twice_witness :
    ((2 : Nat) : Int) < INF ∧
    ∃ r t, max_matching (load 2 4 [(0,0),(0,1),(1,2),(1,3)]) = some (r, t) ∧
      bfs t = some (false, t) ∧ max_matching t = some (r, t) :=
  ⟨by decide, max_matching_twice 2 4 [(0,0),(0,1),(1,2),(1,3)] (by decide)⟩

/-- C10: `add_edge(u, v)` with `u < 0`, `u >= n1`, `v < 0` or `v >= n2` is a silent
no-op: it returns the state unchanged (adjacency lists, `matchU`, `matchV`, `dist`), so
whatever calls follow, `max_matching()` returns what it would have returned without
that call. -/
theorem add_edge_out_of_range (s : HopcroftKarp) (u v : Int)
    (h : u < 0 ∨ (s.n1 : Int) ≤ u ∨ v < 0 ∨ (s.n2 : Int) ≤ v) :
    add_edge s u v = s ∧
    ∀ es, max_matching (add_edges (add_edge s u v) es) = max_matching (add_edges s es) := by
  have e : add_edge s u v = s := by
    unfold add_edge
    rw [if_neg]
    rintro ⟨a, b, c, d⟩
    omega
  exact ⟨e, fun es => by rw [e]⟩

theorem add_edge_out_of_range_witness :
    ((5 : Int) < 0 ∨ (((load 3 3 [(0,1)]).n1 : Nat) : Int) ≤ 5 ∨ (1 : Int) < 0 ∨
      (((load 3 3 [(0,1)]).n2 : Nat) : Int) ≤ 1) ∧
    (add_edge (load 3 3 [(0,1)]) 5 1 = load 3 3 [(0,1)] ∧
    ∀ es, max_matching (add_edges (add_edge (load 3 3 [(0,1)]) 5 1) es)
      = max_matching (add_edges (load 3 3 [(0,1)]) es)) :=
  ⟨by decide, add_edge_out_of_range (load 3 3 [(0,1)]) 5 1 (by decide)⟩

/-! ## The path reconstruction of `dag_minimum_path_cover` -/



theorem links_nil (n : Nat) : Links n [] (List.replicate n NIL) (List.replicate n true) := by
  refine ⟨by simp, by simp, ?_, ?_, ?_, ?_⟩
  · intro u h0 h1 h
    exact absurd (rd_replicate n NIL u h0 h1) h
  · intro p hp; exact absurd hp (List.not_mem_nil p)
  · intro v h0 h1
    rw [rd_replicate n true v h0 h1]
    simp
  · simp [List.count_replicate]

theorem links_snoc {n : Nat} {r : List (Int × Int)} {nx : List Int} {st : List Bool}
    (L : Links n r nx st) (u v : Int) (hu : 0 ≤ u ∧ u < (n : Int)) (hv : 0 ≤ v ∧ v < (n : Int))
    (hu' : u ∉ r.map Prod.fst) (hv' : v ∉ r.map Prod.snd) :
    Links n (r ++ [(u, v)]) (wr nx u v) (wr st v false) := by
  have hulen : u < (nx.length : Int) := by rw [L.nx_len]; exact hu.2
  have hvlen : v < (st.length : Int) := by rw [L.st_len]; exact hv.2
  refine ⟨by rw [length_wr]; exact L.nx_len, by rw [length_wr]; exact L.st_len, ?_, ?_, ?_, ?_⟩
  · intro x h0 h1 hx
    by_cases hxu : u = x
    · subst hxu
      rw [rd_wr_same _ _ _ hu.1 hulen]
      simp
    · rw [rd_wr_ne _ _ _ _ hxu] at hx ⊢
      exact List.mem_append_left _ (L.nx_mem x h0 h1 hx)
  · intro p hp
    rcases List.mem_append.1 hp with hp1 | hp2
    · have hpu : u ≠ p.1 := by
        intro e; exact hu' (e ▸ List.mem_map_of_mem _ hp1)
      rw [rd_wr_ne _ _ _ _ hpu]
      exact L.mem_nx p hp1
    · rw [List.mem_singleton.1 hp2]
      exact rd_wr_same _ _ _ hu.1 hulen
  · intro y h0 h1
    by_cases hyv : v = y
    · subst hyv
      rw [rd_wr_same _ _ _ hv.1 hvlen]
      simp
    · rw [rd_wr_ne _ _ _ _ hyv, L.st_iff y h0 h1]
      simp only [List.map_append, List.mem_append, List.map_cons, List.map_nil,
        List.mem_singleton]
      constructor
      · exact Or.inl
      · rintro (h | h)
        · exact h
        · exact absurd h.symm hyv
  · have hst : rd st v ≠ false := fun h => hv' ((L.st_iff v hv.1 hv.2).1 h)
    have := @count_wr Bool _ _ false false st v hv.1 hvlen
    have hst2 : rd st v = true := by
      cases h : rd st v
      · exact absurd h hst
      · rfl
    rw [hst2] at this
    simp only [if_true, Bool.true_eq_false, if_false] at this
    rw [List.length_append, List.length_singleton, ← L.cnt]
    omega

theorem link_spec (n : Nat) :
    ∀ (ms done : List (Int × Int)) (nx : List Int) (st : List Bool), Links n done nx st →
      ((done ++ ms).map Prod.fst).Nodup → ((done ++ ms).map Prod.snd).Nodup →
      (∀ p ∈ ms, (0 ≤ p.1 ∧ p.1 < (n : Int)) ∧ (0 ≤ p.2 ∧ p.2 < (n : Int))) →
      Links n (done ++ ms) (link ms (nx, st)).1 (link ms (nx, st)).2 := by
  intro ms
  induction ms with
  | nil => intro done nx st L _ _ _; simpa [link] using L
  | cons m ms ih =>
    intro done nx st L h1 h2 hr
    obtain ⟨u, v⟩ := m
    have hm := hr (u, v) (List.mem_cons_self _ _)
    have e : done ++ (u, v) :: ms = (done ++ [(u, v)]) ++ ms := by simp
    rw [e] at h1 h2 ⊢
    have hu' : u ∉ done.map Prod.fst := by
      intro h
      simp only [List.map_append, List.map_cons, List.map_nil] at h1
      have := (List.nodup_append.1 (List.nodup_append.1 h1).1).2.2
      exact this h (List.mem_singleton_self u)
    have hv' : v ∉ done.map Prod.snd := by
      intro h
      simp only [List.map_append, List.map_cons, List.map_nil] at h2
      have := (List.nodup_append.1 (List.nodup_append.1 h2).1).2.2
      exact this h (List.mem_singleton_self v)
    simp only [link]
    exact ih (done ++ [(u, v)]) _ _ (links_snoc L u v hm.1 hm.2 hu' hv') h1 h2
      (fun p hp => hr p (List.mem_cons_of_mem _ hp))

theorem walk_spec {n : Nat} {r : List (Int × Int)} {nx : List Int} {st : List Bool}
    (L : Links n r nx st)
    (hr : ∀ p ∈ r, (0 ≤ p.1 ∧ p.1 < (n : Int)) ∧ (0 ≤ p.2 ∧ p.2 < (n : Int))) :
    ∀ (fuel : Nat) (cur : Int) (path : List Int) (visited : List Bool),
      (cur = NIL ∨ (0 ≤ cur ∧ cur < (n : Int))) → visited.length = n →
      visited.count false ≤ fuel →
      ∃ ext visited2, walk nx fuel cur (path, visited) = some (path ++ ext, visited2) ∧
        WalkPost n nx st cur visited ext visited2 := by
  have stop : ∀ (cur : Int) (visited : List Bool), visited.length = n →
      (cur = NIL ∨ rd visited cur = true) → WalkPost n nx st cur visited [] visited := by
    intro cur visited hl h
    exact ⟨hl, fun x => by simp, fun x hx => absurd hx (List.not_mem_nil x),
      fun x hx => absurd hx (List.not_mem_nil x), List.nodup_nil, List.chain'_nil,
      Or.inl ⟨h, rfl⟩, fun x hx => absurd hx (List.not_mem_nil x),
      fun x hx => absurd hx (List.not_mem_nil x)⟩
  intro fuel
  induction fuel with
  | zero =>
    intro cur path visited hc hl hf
    by_cases h1 : cur = NIL
    · exact ⟨[], visited, by simp [walk, h1], stop cur visited hl (Or.inl h1)⟩
    · have hcr : 0 ≤ cur ∧ cur < (n : Int) := by
        rcases hc with h | h
        · exact absurd h h1
        · exact h
      have hv : rd visited cur = true := by
        have h0 : visited.count false = 0 := by omega
        have hm := rd_mem visited cur hcr.1 (by rw [hl]; exact hcr.2)
        cases h : rd visited cur
        · rw [h] at hm
          exact absurd hm (List.count_eq_zero.1 h0)
        · rfl
      exact ⟨[], visited, by simp [walk, h1, hv], stop cur visited hl (Or.inr hv)⟩
  | succ f ih =>
    intro cur path visited hc hl hf
    by_cases h1 : cur = NIL
    · exact ⟨[], visited, by simp [walk, h1], stop cur visited hl (Or.inl h1)⟩
    · have hcr : 0 ≤ cur ∧ cur < (n : Int) := by
        rcases hc with h | h
        · exact absurd h h1
        · exact h
      by_cases hv : rd visited cur = true
      · exact ⟨[], visited, by simp [walk, h1, hv], stop cur visited hl (Or.inr hv)⟩
      · have hvf : rd visited cur = false := by
          cases h : rd visited cur
          · rfl
          · exact absurd h hv
        have hclen : cur < (visited.length : Int) := by rw [hl]; exact hcr.2
        have hnext : rd nx cur ≠ NIL → (cur, rd nx cur) ∈ r := L.nx_mem cur hcr.1 hcr.2
        have hc' : rd nx cur = NIL ∨ (0 ≤ rd nx cur ∧ rd nx cur < (n : Int)) := by
          by_cases h : rd nx cur = NIL
          · exact Or.inl h
          · exact Or.inr (hr _ (hnext h)).2
        have hcnt := @count_wr Bool _ _ false true visited cur hcr.1 hclen
        rw [hvf] at hcnt
        simp only [if_true, Bool.true_eq_false, if_false] at hcnt
        obtain ⟨ext, v2, e, W⟩ := ih (rd nx cur) (path ++ [cur]) (wr visited cur true) hc'
          (by rw [length_wr]; exact hl) (by omega)
        have hnew : rd (wr visited cur true) cur = true := rd_wr_same _ _ _ hcr.1 hclen
        have hcur_notin : cur ∉ ext := by
          intro h
          have := W.fresh cur h
          rw [hnew] at this
          cases this
        refine ⟨cur :: ext, v2, ?_, ?_⟩
        · simp only [walk, h1, hv, if_false, e]
          simp
        · refine ⟨W.len, ?_, ?_, ?_, ?_, ?_, ?_, ?_, ?_⟩
          · intro x
            rw [W.mem x, rd_wr]
            by_cases hx : cur = x
            · subst hx
              simp [hcr.1, hclen]
            · have hx' : ¬ x = cur := fun h => hx h.symm
              simp [hx, hx']
          · intro x hx
            rcases List.mem_cons.1 hx with rfl | hx
            · exact hcr
            · exact W.rng x hx
          · intro x hx
            rcases List.mem_cons.1 hx with rfl | hx
            · exact hvf
            · have := W.fresh x hx
              have hxc : cur ≠ x := by rintro rfl; exact hcur_notin hx
              rw [rd_wr_ne _ _ _ _ hxc] at this
              exact this
          · exact List.nodup_cons.2 ⟨hcur_notin, W.nodup⟩
          · apply W.chain.cons'
            intro y hy
            rcases W.head with ⟨_, h⟩ | ⟨_, _, h⟩
            · rw [h] at hy; simp at hy
            · rw [h] at hy
              simp only [Option.mem_def, Option.some.injEq] at hy
              exact hy
          · exact Or.inr ⟨h1, hvf, rfl⟩
          · intro x hx
            rcases List.mem_cons.1 hx with rfl | hx
            · exact Or.inl rfl
            · right
              rcases W.nonstart x hx with h | h
              · have hxr := W.rng x hx
                have hne : rd nx cur ≠ NIL := by rw [← h]; exact NIL_ne_of_nonneg hxr.1
                rw [L.st_iff x hxr.1 hxr.2, h]
                exact List.mem_map_of_mem Prod.snd (hnext hne)
              · exact h
          · intro x hx hne
            rcases List.mem_cons.1 hx with rfl | hx
            · rw [W.mem]
              rcases W.head with ⟨h | h, _⟩ | ⟨_, _, h⟩
              · exact absurd h hne
              · exact Or.inl h
              · exact Or.inr (List.mem_of_mem_head? h)
            · exact W.closed x hx hne

theorem recInv_init (n : Nat) (nx : List Int) (st : List Bool) :
    RecInv n nx st (upto n) [] (List.replicate n false) := by
  have hf : ∀ x, rd (List.replicate n false) x = false := by
    intro x
    by_cases hx : 0 ≤ x ∧ x < (n : Int)
    · exact rd_replicate n false x hx.1 hx.2
    · exact rd_outside _ x (by simpa using hx)
  refine ⟨by simp, ?_, ?_, by simp, ?_, ?_, ?_, fun x _ _ => hf x⟩
  · intro x; simp [hf x]
  · intro x hx; simp at hx
  · intro p hp; exact absurd hp (List.not_mem_nil p)
  · intro x hx; rw [hf x] at hx; cases hx
  · intro x h0 h1 hx; exact absurd ((mem_upto n x).2 ⟨h0, h1⟩) hx

theorem reconstruct_spec {n : Nat} {r : List (Int × Int)} {nx : List Int} {st : List Bool}
    (L : Links n r nx st)
    (hr : ∀ p ∈ r, (0 ≤ p.1 ∧ p.1 < (n : Int)) ∧ (0 ≤ p.2 ∧ p.2 < (n : Int))) :
    ∀ (rest : List Int) (paths : List (List Int)) (visited : List Bool),
      rest.Nodup → (∀ x ∈ rest, 0 ≤ x ∧ x < (n : Int)) → RecInv n nx st rest paths visited →
      ∃ paths2 visited2, reconstruct n nx st rest (paths, visited) = some (paths2, visited2) ∧
        RecInv n nx st [] paths2 visited2 ∧
        paths2.length = paths.length + (rest.filter (fun i => rd st i)).length := by
  intro rest
  induction rest with
  | nil =>
    intro paths visited _ _ hi
    exact ⟨paths, visited, rfl, hi, by simp⟩
  | cons i rest ih =>
    intro paths visited hnd hrng hi
    have hnd' : rest.Nodup := (List.nodup_cons.1 hnd).2
    have hine : ∀ x ∈ rest, x ≠ i := by
      intro x hx e; subst e; exact (List.nodup_cons.1 hnd).1 hx
    have hir := hrng i (List.mem_cons_self _ _)
    have hrng' : ∀ x ∈ rest, 0 ≤ x ∧ x < (n : Int) :=
      fun x hx => hrng x (List.mem_cons_of_mem _ hx)
    by_cases hs : rd st i = true
    · have hv : rd visited i = false := hi.todo i (List.mem_cons_self _ _) hs
      have hcnt : visited.count false ≤ n := by
        rw [← hi.len]; exact List.count_le_length _ _
      obtain ⟨ext, v2, e, W⟩ := walk_spec L hr n i [] visited (Or.inr hir) hi.len hcnt
      have hhead : ext.head? = some i := by
        rcases W.head with ⟨h | h, _⟩ | ⟨_, _, h⟩
        · exact absurd h (NIL_ne_of_nonneg hir.1)
        · rw [hv] at h; cases h
        · exact h
      have hne : ext ≠ [] := by
        intro h; rw [h] at hhead; simp at hhead
      have hI : RecInv n nx st rest (paths ++ [ext]) v2 := by
        refine ⟨W.len, ?_, ?_, ?_, ?_, ?_, ?_, ?_⟩
        · intro x
          rw [W.mem x, hi.mem x]
          simp
        · intro x hx
          simp only [List.flatten_append, List.flatten_singleton, List.mem_append] at hx
          rcases hx with hx | hx
          · exact hi.rng x hx
          · exact W.rng x hx
        · simp only [List.flatten_append, List.flatten_singleton]
          refine List.nodup_append.2 ⟨hi.nodup, W.nodup, ?_⟩
          intro x hx1 hx2
          have h1 := (hi.mem x).2 hx1
          rw [W.fresh x hx2] at h1
          cases h1
        · intro p hp
          rcases List.mem_append.1 hp with hp | hp
          · exact hi.chain p hp
          · rw [List.mem_singleton.1 hp]
            exact ⟨hne, W.chain⟩
        · intro x hx hnx
          rcases (W.mem x).1 hx with h | h
          · exact (W.mem _).2 (Or.inl (hi.closed x h hnx))
          · exact W.closed x h hnx
        · intro x h0 h1 hx hsx
          by_cases hxi : x = i
          · rw [hxi]
            exact (W.mem i).2 (Or.inr (List.mem_of_mem_head? hhead))
          · have : x ∉ i :: rest := by
              intro h
              rcases List.mem_cons.1 h with h | h
              · exact hxi h
              · exact hx h
            exact (W.mem x).2 (Or.inl (hi.done x h0 h1 this hsx))
        · intro x hx hsx
          have h1 := hi.todo x (List.mem_cons_of_mem _ hx) hsx
          cases h2 : rd v2 x
          · rfl
          · exfalso
            rcases (W.mem x).1 h2 with h | h
            · rw [h1] at h; cases h
            · rcases W.nonstart x h with h' | h'
              · exact hine x hx h'
              · rw [hsx] at h'; cases h'
      obtain ⟨p2, v3, e3, I3, c3⟩ := ih (paths ++ [ext]) v2 hnd' hrng' hI
      refine ⟨p2, v3, ?_, I3, ?_⟩
      · simp only [reconstruct, hs, hv, and_self, if_true, e, List.nil_append, hne, ne_eq,
          not_false_eq_true]
        exact e3
      · have hfil : (i :: rest).filter (fun i => rd st i) = i :: rest.filter (fun i => rd st i) := by
          simp [List.filter_cons, hs]
        rw [c3, hfil, List.length_append, List.length_cons, List.length_cons, List.length_nil]
        omega
    · have hsf : rd st i = false := by
        cases h : rd st i
        · rfl
        · exact absurd h hs
      have hI : RecInv n nx st rest paths visited := by
        refine ⟨hi.len, hi.mem, hi.rng, hi.nodup, hi.chain, hi.closed, ?_,
          fun x hx => hi.todo x (List.mem_cons_of_mem _ hx)⟩
        intro x h0 h1 hx hsx
        have : x ∉ i :: rest := by
          intro h
          rcases List.mem_cons.1 h with h | h
          · rw [h, hsf] at hsx; cases hsx
          · exact hx h
        exact hi.done x h0 h1 this hsx
      obtain ⟨p2, v3, e3, I3, c3⟩ := ih paths visited hnd' hrng' hI
      refine ⟨p2, v3, ?_, I3, ?_⟩
      · simp only [reconstruct, hsf, Bool.false_eq_true, false_and, if_false]
        exact e3
      · have hfil : (i :: rest).filter (fun i => rd st i) = rest.filter (fun i => rd st i) := by
          simp [List.filter_cons, hsf]
        rw [c3, hfil]

theorem acyclic_wf (edges : List (Int × Int)) (h : Acyclic edges) :
    WellFounded (fun a b : Int => (a, b) ∈ edges) := by
  let S : Finset Int := (edges.map Prod.fst).toFinset
  let r' : {x // x ∈ S} → {x // x ∈ S} → Prop :=
    fun a b => Relation.TransGen (fun a b => (a, b) ∈ edges) a.1 b.1
  haveI : IsTrans {x // x ∈ S} r' := ⟨fun a b c h1 h2 => Relation.TransGen.trans h1 h2⟩
  haveI : IsIrrefl {x // x ∈ S} r' := ⟨fun a => h a.1⟩
  have wf : WellFounded r' := Finite.wellFounded_of_trans_of_irrefl r'
  have key : ∀ a : {x // x ∈ S}, Acc (fun a b : Int => (a, b) ∈ edges) a.1 := by
    intro a
    induction a using wf.induction with
    | _ a ih =>
      refine Acc.intro _ (fun z hz => ?_)
      have hzS : z ∈ S := by
        simp only [S, List.mem_toFinset]
        exact List.mem_map_of_mem Prod.fst hz
      exact ih ⟨z, hzS⟩ (Relation.TransGen.single hz)
  constructor
  intro x
  refine Acc.intro _ (fun y hy => ?_)
  have hyS : y ∈ S := by
    simp only [S, List.mem_toFinset]
    exact List.mem_map_of_mem Prod.fst hy
  exact key ⟨y, hyS⟩

theorem count_true_false (xs : List Bool) : xs.count true + xs.count false = xs.length := by
  induction xs with
  | nil => rfl
  | cons x xs ih => cases x <;> simp [List.count_cons] <;> omega

theorem length_filter_starts (st : List Bool) :
    ((upto st.length).filter (fun i => rd st i)).length + st.count false = st.length := by
  have e := map_rd_upto st
  have h1 : ((upto st.length).filter (fun i => rd st i)).length = (st.filter id).length := by
    conv_rhs => rw [← e]
    rw [List.filter_map, List.length_map]
    rfl
  have h2 : (st.filter id).length = st.count true := by
    rw [List.count_eq_countP, List.countP_eq_length_filter]
    congr 1
    apply List.filter_congr
    intro x _
    cases x <;> rfl
  rw [h1, h2]
  exact count_true_false st

theorem dag_spec (n : Nat) (edges : List (Int × Int)) (hn : (n : Int) < INF) :
    ∃ r t paths, DagPost n edges r t paths := by
  obtain ⟨hs, hm, e1, e2, _, _, hadj⟩ := load_props n n edges
  obtain ⟨t, k2, e, R⟩ := max_matching_spec (load n n edges) hs hm (by rw [e1]; exact hn)
  have hr_rng : ∀ p ∈ collect t, (0 ≤ p.1 ∧ p.1 < (n : Int)) ∧ (0 ≤ p.2 ∧ p.2 < (n : Int)) := by
    intro p hp
    obtain ⟨hr, hne, hp2⟩ := (mem_collect t p).1 hp
    rw [R.n1, e1] at hr
    obtain ⟨a, _⟩ := R.matching.uv p.1 (by exact hr.1) (by rw [R.n1, e1]; exact hr.2) hne
    have := R.shape.adj_rng _ _ a
    rw [← hp2, R.n2, e2] at this
    exact ⟨hr, this⟩
  have hr_edges : ∀ p ∈ collect t, p ∈ edges := by
    intro p hp
    obtain ⟨hr, hne, hp2⟩ := (mem_collect t p).1 hp
    obtain ⟨a, _⟩ := R.matching.uv p.1 hr.1 hr.2 hne
    rw [← hp2, R.adj] at a
    exact ((hadj p.1 p.2).1 a).1
  have L := link_spec n (collect t) [] _ _ (links_nil n)
    (by simpa using collect_fst_nodup t) (by simpa using collect_snd_nodup t R.matching) hr_rng
  simp only [List.nil_append] at L
  obtain ⟨paths, visited, e3, I, c⟩ := reconstruct_spec L hr_rng (upto n) []
    (List.replicate n false) (nodup_upto n) (fun x hx => (mem_upto n x).1 hx)
    (recInv_init n _ _)
  have hcnt : paths.length + (collect t).length = n := by
    have h1 := length_filter_starts (link (collect t) (List.replicate n NIL, List.replicate n true)).2
    rw [L.st_len, L.cnt] at h1
    simp only [List.length_nil, Nat.zero_add] at c
    omega
  refine ⟨collect t, t, paths, e, ?_, rfl, R.shape, R.matching, R.final, ?_, hr_rng, hr_edges,
    hcnt, I.rng, I.nodup, fun p hp => (I.chain p hp).1, ?_, ?_⟩
  · simp only [dag_minimum_path_cover, e, e3]
  · intro x y; rw [R.adj]; exact hadj x y
  · intro p hp
    have hc := (I.chain p hp).2
    rw [List.Chain'.iff_mem] at hc
    refine hc.imp ?_
    rintro a b ⟨ha, hb, hab⟩
    have har := I.rng a (List.mem_flatten.2 ⟨p, hp, ha⟩)
    have hbr := I.rng b (List.mem_flatten.2 ⟨p, hp, hb⟩)
    have := L.nx_mem a har.1 har.2 (by rw [hab]; exact NIL_ne_of_nonneg hbr.1)
    rw [hab] at this
    exact this
  · intro y h0 h1 hy
    rw [← I.mem]
    by_cases hsy : rd (link (collect t) (List.replicate n NIL, List.replicate n true)).2 y = true
    · exact I.done y h0 h1 (List.not_mem_nil y) hsy
    · have hsf : rd (link (collect t) (List.replicate n NIL, List.replicate n true)).2 y = false := by
        cases h : rd (link (collect t) (List.replicate n NIL, List.replicate n true)).2 y
        · rfl
        · exact absurd h hsy
      obtain ⟨p, hp, hpy⟩ := List.mem_map.1 ((L.st_iff y h0 h1).1 hsf)
      have hx := hy p.1 (by rw [← hpy]; exact hp)
      have hnx := L.mem_nx p hp
      have := I.closed p.1 ((I.mem _).2 hx) (by rw [hnx, hpy]; exact NIL_ne_of_nonneg h0)
      rw [hnx, hpy] at this
      exact this

theorem DagPost.cover_acyclic {n : Nat} {edges r : List (Int × Int)} {t : HopcroftKarp}
    {paths : List (List Int)} (D : DagPost n edges r t paths) (hac : Acyclic edges) :
    ∀ y, 0 ≤ y → y < (n : Int) → y ∈ paths.flatten := by
  intro y
  induction y using (acyclic_wf edges hac).induction with
  | _ y ih =>
    intro h0 h1
    apply D.cover y h0 h1
    intro x hx
    have := D.r_rng _ hx
    exact ih x (D.r_edges _ hx) this.1.1 this.1.2

theorem zip_fst_sublist {α β : Type} : ∀ (l1 : List α) (l2 : List β),
    List.Sublist ((l1.zip l2).map Prod.fst) l1
  | [], _ => by simp
  | _ :: l1, [] => by simp
  | a :: l1, b :: l2 => by
    simp only [List.zip_cons_cons, List.map_cons]
    exact (zip_fst_sublist l1 l2).cons₂ a

theorem zip_snd_sublist {α β : Type} : ∀ (l1 : List α) (l2 : List β),
    List.Sublist ((l1.zip l2).map Prod.snd) l2
  | [], _ => by simp
  | _ :: l1, [] => by simp
  | a :: l1, b :: l2 => by
    simp only [List.zip_cons_cons, List.map_cons]
    exact (zip_snd_sublist l1 l2).cons₂ b

theorem flatMap_sublist {α β : Type} (f : List α → List β) (g : List α → List β)
    (h : ∀ p, List.Sublist (f p) (g p)) :
    ∀ Q : List (List α), List.Sublist (Q.flatMap f) (Q.flatMap g)
  | [] => by simp
  | p :: Q => by
    simp only [List.flatMap_cons]
    exact (h p).append (flatMap_sublist f g h Q)

theorem chain_zip_tail {R : Int → Int → Prop} : ∀ (p : List Int), List.Chain' R p →
    ∀ m ∈ p.zip p.tail, R m.1 m.2
  | [], _ => by simp
  | [_], _ => by simp
  | a :: b :: tl, h => by
    intro m hm
    simp only [List.tail_cons, List.zip_cons_cons, List.mem_cons] at hm
    rw [List.chain'_cons] at h
    rcases hm with rfl | hm
    · exact h.1
    · exact chain_zip_tail (b :: tl) h.2 m hm

theorem stepsOf_fst (Q : List (List Int)) :
    List.Sublist ((stepsOf Q).map Prod.fst) Q.flatten := by
  unfold stepsOf
  rw [List.map_flatMap, List.flatten_eq_flatMap]
  exact flatMap_sublist _ _ (fun p => zip_fst_sublist p p.tail) Q

theorem stepsOf_snd (Q : List (List Int)) :
    List.Sublist ((stepsOf Q).map Prod.snd) Q.flatten := by
  unfold stepsOf
  rw [List.map_flatMap, List.flatten_eq_flatMap]
  exact flatMap_sublist _ _ (fun p => (zip_snd_sublist p p.tail).trans (List.tail_sublist p)) Q

theorem stepsOf_length : ∀ Q : List (List Int),
    Q.flatten.length ≤ (stepsOf Q).length + Q.length
  | [] => by simp [stepsOf]
  | p :: Q => by
    have ih := stepsOf_length Q
    simp only [stepsOf, List.flatMap_cons, List.flatten_cons, List.length_append,
      List.length_zip, List.length_tail, List.length_cons] at ih ⊢
    omega

theorem stepsOf_mem {R : Int → Int → Prop} (Q : List (List Int))
    (h : ∀ p ∈ Q, List.Chain' R p) : ∀ m ∈ stepsOf Q, R m.1 m.2 := by
  intro m hm
  obtain ⟨p, hp, hmp⟩ := List.mem_flatMap.1 hm
  exact chain_zip_tail p (h p hp) m hmp

/-! ## Properties of `dag_minimum_path_cover` -/

/-- C4: for an acyclic edge list, the paths returned by `dag_minimum_path_cover(n, edges)`
partition the vertex set: only values `0..n-1` occur, and every vertex `0..n-1` occurs
exactly once in the returned paths taken together (so in exactly one path, once). -/
theorem dag_cover_partition (n : Nat) (edges : List (Int × Int)) (hn : (n : Int) < INF)
    (hac : Acyclic edges) :
    ∃ paths, dag_minimum_path_cover n edges = some paths ∧
      (∀ x ∈ paths.flatten, 0 ≤ x ∧ x < (n : Int)) ∧
      (∀ x, 0 ≤ x → x < (n : Int) → paths.flatten.count x = 1) := by
  obtain ⟨r, t, paths, D⟩ := dag_spec n edges hn
  refine ⟨paths, D.result, D.rng, ?_⟩
  intro x h0 h1
  exact List.count_eq_one_of_mem D.nodup (D.cover_acyclic hac x h0 h1)

theorem acyclic_of_increasing (edges : List (Int × Int)) (h : ∀ e ∈ edges, e.1 < e.2) :
    Acyclic edges := by
  have key : ∀ x y, Relation.TransGen (fun a b => (a, b) ∈ edges) x y → x < y := by
    intro x y hxy
    induction hxy with
    | single h1 => exact h _ h1
    | tail _ h2 ih => exact lt_trans ih (h _ h2)
  intro x hx
  exact lt_irrefl x (key x x hx)

theorem dag_cover_partition_witness :
    ((5 : Nat) : Int) < INF ∧ Acyclic [(0,1),(1,2),(3,4),(0,3)] ∧
    ∃ paths, dag_minimum_path_cover 5 [(0,1),(1,2),(3,4),(0,3)] = some paths ∧
      (∀ x ∈ paths.flatten, 0 ≤ x ∧ x < ((5 : Nat) : Int)) ∧
      (∀ x, 0 ≤ x → x < ((5 : Nat) : Int) → paths.flatten.count x = 1) :=
  ⟨by decide, acyclic_of_increasing _ (by decide),
    dag_cover_partition 5 [(0,1),(1,2),(3,4),(0,3)] (by decide)
      (acyclic_of_increasing _ (by decide))⟩

/-- C5: the cover returned by `dag_minimum_path_cover(n, edges)` for an in-range edge
list is minimum: a family `Q` of vertex-disjoint directed paths (consecutive vertices
joined by input edges) that covers all of `0..n-1` has at least as many paths as the
returned list. -/
theorem dag_cover_minimum (n : Nat) (edges : List (Int × Int)) (hn : (n : Int) < INF)
    (hin : ∀ e ∈ edges, (0 ≤ e.1 ∧ e.1 < (n : Int)) ∧ (0 ≤ e.2 ∧ e.2 < (n : Int)))
    (Q : List (List Int)) (hQ1 : ∀ p ∈ Q, List.Chain' (fun a b => (a, b) ∈ edges) p)
    (hQ2 : Q.flatten.Nodup) (hQ3 : ∀ x, 0 ≤ x → x < (n : Int) → x ∈ Q.flatten) :
    ∃ paths, dag_minimum_path_cover n edges = some paths ∧ paths.length ≤ Q.length := by
  obtain ⟨r, t, paths, D⟩ := dag_spec n edges hn
  refine ⟨paths, D.result, ?_⟩
  have h1 : ((stepsOf Q).map Prod.fst).Nodup := (stepsOf_fst Q).nodup hQ2
  have h2 : ((stepsOf Q).map Prod.snd).Nodup := (stepsOf_snd Q).nodup hQ2
  have h3 : ∀ m ∈ stepsOf Q, m.2 ∈ rd t.adj m.1 := by
    intro m hm
    have he : (m.1, m.2) ∈ edges := stepsOf_mem Q hQ1 m hm
    have := hin _ he
    exact (D.adj m.1 m.2).2 ⟨he, this.1.1, this.1.2, this.2.1, this.2.2⟩
  have hmax := final_maximum t D.shape D.matching D.final (stepsOf Q) h1 h2 h3
  rw [← D.r_eq] at hmax
  have hlen := stepsOf_length Q
  have hcov : n ≤ Q.flatten.length := by
    have hsub : upto n ⊆ Q.flatten := fun x hx => by
      obtain ⟨a, b⟩ := (mem_upto n x).1 hx
      exact hQ3 x a b
    have := (List.subperm_of_subset (nodup_upto n) hsub).length_le
    rwa [length_upto] at this
  have := D.cnt
  omega

theorem dag_cover_minimum_witness :
    ((5 : Nat) : Int) < INF ∧
    (∀ e ∈ [((0 : Int), (1 : Int)),(1,2),(3,4),(0,3)],
      (0 ≤ e.1 ∧ e.1 < ((5 : Nat) : Int)) ∧ (0 ≤ e.2 ∧ e.2 < ((5 : Nat) : Int))) ∧
    [[(0 : Int), 3, 4], [1, 2]].flatten.Nodup ∧
    ∃ paths, dag_minimum_path_cover 5 [(0,1),(1,2),(3,4),(0,3)] = some paths ∧
      paths.length ≤ [[(0 : Int), 3, 4], [1, 2]].length :=
  ⟨by decide, by decide, by decide,
    dag_cover_minimum 5 [(0,1),(1,2),(3,4),(0,3)] (by decide) (by decide)
      [[0, 3, 4], [1, 2]] (by simp) (by decide) (by
        intro x h0 h1
        have : x = 0 ∨ x = 1 ∨ x = 2 ∨ x = 3 ∨ x = 4 := by omega
        rcases this with rfl | rfl | rfl | rfl | rfl <;> decide)⟩

/-- The four graphs of `test_dag_minimum_path_cover`: the returned covers, of sizes 2, 3,
1 and 2. -/
theorem dag_tests :
    dag_minimum_path_cover 5 [(0,1),(1,2),(3,4),(0,3)] = some [[0,1,2],[3,4]] ∧
    dag_minimum_path_cover 3 [] = some [[0],[1],[2]] ∧
    dag_minimum_path_cover 4 [(0,1),(1,2),(2,3)] = some [[0,1,2,3]] ∧
    dag_minimum_path_cover 4 [(0,1),(2,3)] = some [[0,1],[2,3]] := by
  refine ⟨by decide, by decide, by decide, by decide⟩

/-- C6: in every path returned by `dag_minimum_path_cover(n, edges)`, for any edge list,
each pair of consecutive vertices `(a, b)` is an element of the input edge list. -/
theorem dag_paths_follow_edges (n : Nat) (edges : List (Int × Int)) (hn : (n : Int) < INF) :
    ∃ paths, dag_minimum_path_cover n edges = some paths ∧
      ∀ p ∈ paths, List.Chain' (fun a b => (a, b) ∈ edges) p := by
  obtain ⟨r, t, paths, D⟩ := dag_spec n edges hn
  exact ⟨paths, D.result, fun p hp => (D.chain p hp).imp (fun a b h => D.r_edges _ h)⟩

theorem dag_paths_follow_edges_witness :
    ((4 : Nat) : Int) < INF ∧
    ∃ paths, dag_minimum_path_cover 4 [(0,1),(1,2),(2,3)] = some paths ∧
      ∀ p ∈ paths, List.Chain' (fun a b => (a, b) ∈ [((0 : Int), (1 : Int)),(1,2),(2,3)]) p :=
  ⟨by decide, dag_paths_follow_edges 4 [(0,1),(1,2),(2,3)] (by decide)⟩

/-- C7: for every `n` and edge list, the number of paths returned by
`dag_minimum_path_cover(n, edges)` is `n` minus the size of the matching that
`max_matching()` returns on `HopcroftKarp(n, n)` loaded with the same edges. -/
theorem dag_paths_count (n : Nat) (edges : List (Int × Int)) (hn : (n : Int) < INF) :
    ∃ r t paths, max_matching (load n n edges) = some (r, t) ∧
      dag_minimum_path_cover n edges = some paths ∧
      r.length ≤ n ∧ paths.length = n - r.length := by
  obtain ⟨r, t, paths, D⟩ := dag_spec n edges hn
  have := D.cnt
  exact ⟨r, t, paths, D.matched, D.result, by omega, by omega⟩

theorem dag_paths_count_witness :
    ((4 : Nat) : Int) < INF ∧
    ∃ r t paths, max_matching (load 4 4 [(0,1),(2,3)]) = some (r, t) ∧
      dag_minimum_path_cover 4 [(0,1),(2,3)] = some paths ∧
      r.length ≤ 4 ∧ paths.length = 4 - r.length :=
  ⟨by decide, dag_paths_count 4 [(0,1),(2,3)] (by decide)⟩

/-- C8, as stated, fails on a cyclic edge list: for `n = 2` and the edges `(0,1)`, `(1,0)`
both vertices are matched targets, no vertex is a path start, and the function returns
no path at all, so the vertices `0` and `1` are not covered. -/
theorem dag_cover_cyclic_counterexample :
    dag_minimum_path_cover 2 [(0,1),(1,0)] = some [] ∧
    ¬ ∃ paths, dag_minimum_path_cover 2 [(0,1),(1,0)] = some paths ∧
      ∀ x : Int, 0 ≤ x → x < 2 → paths.flatten.count x = 1 := by
  have e : dag_minimum_path_cover 2 [(0,1),(1,0)] = some [] := by decide
  refine ⟨e, ?_⟩
  rintro ⟨paths, hp, h⟩
  rw [e] at hp
  simp only [Option.some.injEq] at hp
  subst hp
  have := h 0 (by decide) (by decide)
  simp at this

/-- C8, amended: for every `n` and every edge list, the paths returned by
`dag_minimum_path_cover(n, edges)` contain only vertices of `0..n-1` and no vertex
twice; when the edge list is acyclic they cover every vertex, so that their
concatenation is a permutation of `0, ..., n-1`. -/
theorem dag_cover_complete (n : Nat) (edges : List (Int × Int)) (hn : (n : Int) < INF) :
    ∃ paths, dag_minimum_path_cover n edges = some paths ∧
      paths.flatten.Nodup ∧ (∀ x ∈ paths.flatten, 0 ≤ x ∧ x < (n : Int)) ∧
      (Acyclic edges → paths.flatten.Perm (upto n)) := by
  obtain ⟨r, t, paths, D⟩ := dag_spec n edges hn
  refine ⟨paths, D.result, D.nodup, D.rng, fun hac => ?_⟩
  rw [List.perm_ext_iff_of_nodup D.nodup (nodup_upto n)]
  intro x
  rw [mem_upto]
  exact ⟨fun h => D.rng x h, fun h => D.cover_acyclic hac x h.1 h.2⟩

theorem dag_cover_complete_witness :
    ((4 : Nat) : Int) < INF ∧ Acyclic [(0,1),(2,3)] ∧
    ∃ paths, dag_minimum_path_cover 4 [(0,1),(2,3)] = some paths ∧
      paths.flatten.Nodup ∧ (∀ x ∈ paths.flatten, 0 ≤ x ∧ x < ((4 : Nat) : Int)) ∧
      paths.flatten.Perm (upto 4) := by
  obtain ⟨paths, h1, h2, h3, h4⟩ := dag_cover_complete 4 [(0,1),(2,3)] (by decide)
  exact ⟨by decide, acyclic_of_increasing _ (by decide), paths, h1, h2, h3,
    h4 (acyclic_of_increasing _ (by decide))⟩

/-! ## Further properties of the matcher -/

/-- C11: `add_edge(u, v)` with `0 <= u < n1` and `0 <= v < n2` appends `v` at the end of
the adjacency sequence of `u`, whether or not `v` is already in it (the length grows by
exactly one), and leaves every other adjacency sequence and `matchU`, `matchV`, `dist`,
`n1`, `n2` unchanged. -/
theorem add_edge_in_range (s : HopcroftKarp) (hs : s.adj.length = s.n1) (u v : Int)
    (hu : 0 ≤ u ∧ u < (s.n1 : Int)) (hv : 0 ≤ v ∧ v < (s.n2 : Int)) :
    rd (add_edge s u v).adj u = rd s.adj u ++ [v] ∧
    (rd (add_edge s u v).adj u).length = (rd s.adj u).length + 1 ∧
    (∀ x, x ≠ u → rd (add_edge s u v).adj x = rd s.adj x) ∧
    (add_edge s u v).adj.length = s.adj.length ∧
    (add_edge s u v).matchU = s.matchU ∧ (add_edge s u v).matchV = s.matchV ∧
    (add_edge s u v).dist = s.dist ∧
    (add_edge s u v).n1 = s.n1 ∧ (add_edge s u v).n2 = s.n2 := by
  have e : add_edge s u v = { s with adj := wr s.adj u (rd s.adj u ++ [v]) } := by
    unfold add_edge
    rw [if_pos ⟨hu.1, hu.2, hv.1, hv.2⟩]
  have h1 : rd (add_edge s u v).adj u = rd s.adj u ++ [v] := by
    rw [e]
    exact rd_wr_same _ _ _ hu.1 (by rw [hs]; exact hu.2)
  refine ⟨h1, by rw [h1]; simp, ?_, by rw [e]; exact length_wr _ _ _, by rw [e], by rw [e],
    by rw [e], by rw [e], by rw [e]⟩
  intro x hx
  rw [e]
  exact rd_wr_ne _ _ _ _ (fun h => hx h.symm)

theorem add_edge_in_range_witness :
    (load 2 2 [(0, 1)]).adj.length = (load 2 2 [(0, 1)]).n1 ∧
    (0 ≤ (0 : Int) ∧ (0 : Int) < ((load 2 2 [(0, 1)]).n1 : Int)) ∧
    (0 ≤ (1 : Int) ∧ (1 : Int) < ((load 2 2 [(0, 1)]).n2 : Int)) ∧
    rd (add_edge (load 2 2 [(0, 1)]) 0 1).adj 0 = [1, 1] ∧
    (rd (add_edge (load 2 2 [(0, 1)]) 0 1).adj 0 = rd (load 2 2 [(0, 1)]).adj 0 ++ [1] ∧
    (rd (add_edge (load 2 2 [(0, 1)]) 0 1).adj 0).length
      = (rd (load 2 2 [(0, 1)]).adj 0).length + 1 ∧
    (∀ x, x ≠ 0 → rd (add_edge (load 2 2 [(0, 1)]) 0 1).adj x = rd (load 2 2 [(0, 1)]).adj x) ∧
    (add_edge (load 2 2 [(0, 1)]) 0 1).adj.length = (load 2 2 [(0, 1)]).adj.length ∧
    (add_edge (load 2 2 [(0, 1)]) 0 1).matchU = (load 2 2 [(0, 1)]).matchU ∧
    (add_edge (load 2 2 [(0, 1)]) 0 1).matchV = (load 2 2 [(0, 1)]).matchV ∧
    (add_edge (load 2 2 [(0, 1)]) 0 1).dist = (load 2 2 [(0, 1)]).dist ∧
    (add_edge (load 2 2 [(0, 1)]) 0 1).n1 = (load 2 2 [(0, 1)]).n1 ∧
    (add_edge (load 2 2 [(0, 1)]) 0 1).n2 = (load 2 2 [(0, 1)]).n2) :=
  ⟨by decide, by decide, by decide, by decide,
    add_edge_in_range (load 2 2 [(0, 1)]) (by decide) 0 1 (by decide) (by decide)⟩

/-- C14: `dag_minimum_path_cover(5, [(0,1),(1,2),(3,4),(0,3)])` returns exactly the two
paths `[0,1,2]` and `[3,4]`, in this order, and not the equally small cover
`[0,3,4]`, `[1,2]`. -/
theorem dag_test_one :
    dag_minimum_path_cover 5 [(0,1),(1,2),(3,4),(0,3)] = some [[0,1,2],[3,4]] ∧
    dag_minimum_path_cover 5 [(0,1),(1,2),(3,4),(0,3)] ≠ some [[0,3,4],[1,2]] := by
  constructor <;> decide

theorem bfsLoop_no_edges (adj : List (List Int)) (matchV : List Int)
    (hadj : ∀ u, rd adj u = []) :
    ∀ (fuel : Nat) (dist q : List Int) (found : Bool), q.length ≤ fuel →
      bfsLoop adj matchV fuel (dist, q, found) = some (dist, found) := by
  intro fuel
  induction fuel with
  | zero =>
    intro dist q found h
    cases q with
    | nil => simp [bfsLoop]
    | cons u q => simp at h
  | succ f ih =>
    intro dist q found h
    cases q with
    | nil => simp [bfsLoop]
    | cons u q =>
      simp only [bfsLoop, hadj u, bfsScan]
      exact ih dist q found (by simpa using h)

theorem initInv_start (s : HopcroftKarp) (hs : Shape s) :
    InitInv s (upto s.n1) (List.replicate s.dist.length INF) [] := by
  rw [hs.dist_len]
  refine ⟨by simp, ?_, ?_, ?_, by simp⟩
  · intro x hx
    obtain ⟨a, b⟩ := (mem_upto _ _).1 hx
    exact rd_replicate _ _ _ a b
  · intro x a b hx
    exact absurd ((mem_upto _ _).2 ⟨a, b⟩) hx
  · intro x hx; exact absurd hx (List.not_mem_nil x)

/-- On a matcher without edges `max_matching()` returns the empty list after one call
of `bfs()`. -/
theorem max_matching_no_edges (n1 n2 : Nat) :
    ∃ t, max_matching (HopcroftKarp.mk0 n1 n2) = some ([], t) := by
  have hs := shape_mk0 n1 n2
  obtain ⟨d1, q1, e1, I1⟩ := bfsInit_spec (HopcroftKarp.mk0 n1 n2) (upto n1) _ []
    (nodup_upto _) (fun x hx => (mem_upto _ _).1 hx) (initInv_start _ hs)
  have hadj : ∀ u, rd (HopcroftKarp.mk0 n1 n2).adj u = [] := by
    intro u
    by_cases hu : 0 ≤ u ∧ u < (n1 : Int)
    · exact rd_replicate n1 [] u hu.1 hu.2
    · exact rd_outside _ u (by simpa [HopcroftKarp.mk0] using hu)
  have hq : q1.length ≤ n1 := by
    have := I1.cnt
    simp only [HopcroftKarp.mk0] at this
    omega
  have e2 := bfsLoop_no_edges (HopcroftKarp.mk0 n1 n2).adj (HopcroftKarp.mk0 n1 n2).matchV hadj
    n1 d1 q1 false hq
  have hb : bfs (HopcroftKarp.mk0 n1 n2)
      = some (false, { HopcroftKarp.mk0 n1 n2 with dist := d1 }) := by
    have e1' : bfsInit (List.replicate n1 NIL) (upto n1)
        (List.replicate (List.replicate n1 (0 : Int)).length INF, []) = (d1, q1) := e1
    have e2' : bfsLoop (List.replicate n1 []) (List.replicate n2 NIL) n1 (d1, q1, false)
        = some (d1, false) := e2
    simp only [bfs, HopcroftKarp.mk0, e1', e2']
  have hc : collect { HopcroftKarp.mk0 n1 n2 with dist := d1 } = [] := by
    apply List.eq_nil_iff_forall_not_mem.2
    intro p hp
    obtain ⟨hr, hne, _⟩ := (mem_collect _ p).1 hp
    exact hne (rd_replicate n1 NIL p.1 hr.1 hr.2)
  refine ⟨{ HopcroftKarp.mk0 n1 n2 with dist := d1 }, ?_⟩
  simp only [max_matching, rounds, hb, hc]

theorem reconstruct_no_links (n : Nat) :
    ∀ (rest : List Int) (paths : List (List Int)) (visited : List Bool), rest.Nodup →
      (∀ i ∈ rest, (0 ≤ i ∧ i < (n : Int)) ∧ rd visited i = false) → visited.length = n →
      ∃ visited2, reconstruct n (List.replicate n NIL) (List.replicate n true) rest
        (paths, visited) = some (paths ++ rest.map (fun i => [i]), visited2) := by
  intro rest
  induction rest with
  | nil => intro paths visited _ _ _; exact ⟨visited, by simp [reconstruct]⟩
  | cons i rest ih =>
    intro paths visited hnd hr hl
    obtain ⟨hir, hiv⟩ := hr i (List.mem_cons_self _ _)
    have hst : rd (List.replicate n true) i = true := rd_replicate n true i hir.1 hir.2
    have hnx : rd (List.replicate n NIL) i = NIL := rd_replicate n NIL i hir.1 hir.2
    have hiN : i ≠ NIL := NIL_ne_of_nonneg hir.1
    have hw : walk (List.replicate n NIL) n i ([], visited) = some ([i], wr visited i true) := by
      cases n with
      | zero => simp at hir; omega
      | succ m =>
        rw [walk]
        simp only [hiN, if_false, hiv, Bool.false_eq_true, hnx, List.nil_append]
        cases m <;> simp [walk]
    obtain ⟨v2, e⟩ := ih (paths ++ [[i]]) (wr visited i true) (List.nodup_cons.1 hnd).2
      (by
        intro j hj
        obtain ⟨a, b⟩ := hr j (List.mem_cons_of_mem _ hj)
        have hij : i ≠ j := by rintro rfl; exact (List.nodup_cons.1 hnd).1 hj
        exact ⟨a, by rw [rd_wr_ne _ _ _ _ hij]; exact b⟩)
      (by rw [length_wr]; exact hl)
    refine ⟨v2, ?_⟩
    simp only [reconstruct, hst, hiv, and_self, if_true, hw]
    simpa using e

/-- C15: for every `n >= 0`, `dag_minimum_path_cover(n, [])` with an empty edge list
returns exactly the `n` single-vertex paths `[0], [1], ..., [n-1]` in increasing order
(the empty list when `n = 0`). -/
theorem dag_no_edges (n : Nat) :
    dag_minimum_path_cover n [] = some ((upto n).map (fun i => [i])) ∧
    dag_minimum_path_cover 0 [] = some [] ∧
    dag_minimum_path_cover 3 [] = some [[0], [1], [2]] := by
  refine ⟨?_, by decide, by decide⟩
  obtain ⟨t, e⟩ := max_matching_no_edges n n
  have e' : max_matching (load n n []) = some ([], t) := e
  obtain ⟨v2, e2⟩ := reconstruct_no_links n (upto n) [] (List.replicate n false) (nodup_upto n)
    (fun i hi => ⟨(mem_upto n i).1 hi,
      rd_replicate n false i ((mem_upto n i).1 hi).1 ((mem_upto n i).1 hi).2⟩) (by simp)
  simp only [dag_minimum_path_cover, e', link, e2, List.nil_append]

theorem max_matching_unique {s t t2 : HopcroftKarp} {r : List (Int × Int)}
    (h1 : max_matching s = some (r, t)) (h2 : max_matching s = some (collect t2, t2)) :
    t = t2 ∧ r = collect t2 := by
  rw [h1] at h2
  simp only [Option.some.injEq, Prod.mk.injEq] at h2
  exact ⟨h2.2, h2.1⟩

theorem reach_inv {n1 n2 : Nat} (hn : (n1 : Int) < INF) {es : List (Int × Int)}
    {s : HopcroftKarp} (h : Reach n1 n2 es s) :
    Shape s ∧ Matching s ∧ s.n1 = n1 ∧ s.n2 = n2 ∧
      ∀ x y, y ∈ rd s.adj x → (x, y) ∈ es := by
  induction h with
  | init =>
    refine ⟨shape_mk0 n1 n2, matching_mk0 n1 n2, rfl, rfl, ?_⟩
    intro x y hy
    have := mem_adj_rng (shape_mk0 n1 n2) hy
    simp only [HopcroftKarp.mk0] at hy
    rw [rd_replicate n1 [] x this.1 this.2] at hy
    exact absurd hy (List.not_mem_nil y)
  | add es s u v _ ih =>
    obtain ⟨hs, hm, e1, e2, hadj⟩ := ih
    obtain ⟨f1, f2, _, _, _⟩ := add_edge_fields s u v
    refine ⟨shape_add_edge hs u v, matching_add_edge hs hm u v, f1.trans e1, f2.trans e2, ?_⟩
    intro x y hy
    rcases (mem_adj_add_edge s hs.adj_len u v x y).1 hy with h | ⟨rfl, rfl, _⟩
    · exact List.mem_append_left _ (hadj x y h)
    · simp
  | query es s t r _ hq ih =>
    obtain ⟨hs, hm, e1, e2, hadj⟩ := ih
    obtain ⟨t2, k2, e, R⟩ := max_matching_spec s hs hm (by rw [e1]; exact hn)
    obtain ⟨rfl, _⟩ := max_matching_unique hq e
    exact ⟨R.shape, R.matching, R.n1.trans e1, R.n2.trans e2, by rw [R.adj]; exact hadj⟩

/-- C13: in every state reachable through the public interface, `matchU` and `matchV`
are mutual inverses (`matchU[u] = v` iff `matchV[v] = u` for `u` in `[0, n1)` and `v` in
`[0, n2)`), every non-`NIL` entry is an in-range vertex joined to its index by an added
edge, and `max_matching()` returns exactly the pairs `(u, matchU[u])` with
`matchU[u] != NIL` of the state it leaves, for `u` increasing. -/
theorem match_vectors_inverse (n1 n2 : Nat) (hn : (n1 : Int) < INF) (es : List (Int × Int))
    (s : HopcroftKarp) (h : Reach n1 n2 es s) :
    (∀ u v, (0 ≤ u ∧ u < (n1 : Int)) → (0 ≤ v ∧ v < (n2 : Int)) →
      (rd s.matchU u = v ↔ rd s.matchV v = u)) ∧
    (∀ u, (0 ≤ u ∧ u < (n1 : Int)) → rd s.matchU u ≠ NIL →
      (0 ≤ rd s.matchU u ∧ rd s.matchU u < (n2 : Int)) ∧ (u, rd s.matchU u) ∈ es) ∧
    (∀ v, (0 ≤ v ∧ v < (n2 : Int)) → rd s.matchV v ≠ NIL →
      (0 ≤ rd s.matchV v ∧ rd s.matchV v < (n1 : Int)) ∧ (rd s.matchV v, v) ∈ es) ∧
    ∃ r t, max_matching s = some (r, t) ∧ Reach n1 n2 es t ∧
      r = ((upto n1).filter (fun u => decide (rd t.matchU u ≠ NIL))).map
        (fun u => (u, rd t.matchU u)) := by
  obtain ⟨hs, hm, e1, e2, hadj⟩ := reach_inv hn h
  have hU : ∀ u, (0 ≤ u ∧ u < (n1 : Int)) → rd s.matchU u ≠ NIL →
      (0 ≤ rd s.matchU u ∧ rd s.matchU u < (n2 : Int)) ∧ (u, rd s.matchU u) ∈ es := by
    intro u hu hne
    obtain ⟨a, _⟩ := hm.uv u hu.1 (by rw [e1]; exact hu.2) hne
    have := hs.adj_rng _ _ a
    rw [e2] at this
    exact ⟨this, hadj _ _ a⟩
  refine ⟨?_, hU, ?_, ?_⟩
  · intro u v hu hv
    constructor
    · intro e
      have := (hm.uv u hu.1 (by rw [e1]; exact hu.2) (by rw [e]; exact NIL_ne_of_nonneg hv.1)).2
      rw [e] at this
      exact this
    · intro e
      have := (hm.vu v hv.1 (by rw [e2]; exact hv.2) (by rw [e]; exact NIL_ne_of_nonneg hu.1)).2
      rw [e] at this
      exact this
  · intro v hv hne
    obtain ⟨a, b⟩ := hm.vu v hv.1 (by rw [e2]; exact hv.2) hne
    rw [e1] at a
    have := (hU _ a (by rw [b]; exact NIL_ne_of_nonneg hv.1)).2
    rw [b] at this
    exact ⟨a, this⟩
  · obtain ⟨t, k2, e, R⟩ := max_matching_spec s hs hm (by rw [e1]; exact hn)
    refine ⟨collect t, t, e, Reach.query es s t _ h e, ?_⟩
    rw [collect_eq, R.n1, e1]

theorem match_vectors_inverse_witness :
    ((2 : Nat) : Int) < INF ∧
    Reach 2 2 [(0, 0), (1, 0)] (add_edge (add_edge (HopcroftKarp.mk0 2 2) 0 0) 1 0) ∧
    ∃ r t, max_matching (add_edge (add_edge (HopcroftKarp.mk0 2 2) 0 0) 1 0) = some (r, t) ∧
      Reach 2 2 [(0, 0), (1, 0)] t ∧
      r = ((upto 2).filter (fun u => decide (rd t.matchU u ≠ NIL))).map
        (fun u => (u, rd t.matchU u)) :=
  ⟨by decide, Reach.add _ _ 1 0 (Reach.add _ _ 0 0 Reach.init),
    (match_vectors_inverse 2 2 (by decide) [(0, 0), (1, 0)] _
      (Reach.add _ _ 1 0 (Reach.add _ _ 0 0 Reach.init))).2.2.2⟩

/-! ## The calls made by `max_matching()` -/

theorem bfs_post_of_eq {s t : HopcroftKarp} {found : Bool} (hs : Shape s) (hm : Matching s)
    (hn : (s.n1 : Int) < INF) (h : bfs s = some (found, t)) : BfsPost s found t := by
  obtain ⟨f2, t2, e, B⟩ := bfs_spec s hs hm hn
  rw [h] at e
  simp only [Option.some.injEq, Prod.mk.injEq] at e
  obtain ⟨rfl, rfl⟩ := e
  exact B

theorem run_inv {n1 n2 : Nat} (hn : (n1 : Int) < INF) {es : List (Int × Int)}
    {s : HopcroftKarp} (h : Run n1 n2 es s) :
    Shape s ∧ Matching s ∧ s.n1 = n1 ∧ s.n2 = n2 ∧
      ∀ x y, y ∈ rd s.adj x → (x, y) ∈ es := by
  induction h with
  | start s hr => exact reach_inv hn hr
  | round s t t2 k k2 _ hb ha ih =>
    obtain ⟨hs, hm, e1, e2, hadj⟩ := ih
    have hn' : (s.n1 : Int) < INF := by rw [e1]; exact hn
    have B := bfs_post_of_eq hs hm hn' hb
    have hfresh : ∀ x ∈ upto t.n1, rd t.matchU x = NIL → rd t.dist x = 0 := by
      intro x hx hfree
      rw [B.n1] at hx
      obtain ⟨a, b⟩ := (mem_upto _ _).1 hx
      exact B.inv.free0 x a b (by rw [← B.mU]; exact hfree)
    obtain ⟨t3, k3, e3, P, _⟩ := augment_spec (upto t.n1) t k (nodup_upto _)
      (fun x hx => (mem_upto _ _).1 hx) (B.shape_after hs) (B.matching_after hm)
      (B.distOK_after hn') hfresh
    rw [ha] at e3
    simp only [Option.some.injEq, Prod.mk.injEq] at e3
    obtain ⟨rfl, rfl⟩ := e3
    exact ⟨P.shape, P.matching, P.n1.trans (B.n1.trans e1), P.n2.trans (B.n2.trans e2),
      by rw [P.adj, B.adj]; exact hadj⟩

theorem phase_inv {n1 n2 : Nat} (hn : (n1 : Int) < INF) {es : List (Int × Int)}
    {us : List Int} {s : HopcroftKarp} (h : Phase n1 n2 es us s) :
    PhaseInv n1 n2 es us s := by
  induction h with
  | start s t hr hb =>
    obtain ⟨hs, hm, e1, e2, hadj⟩ := run_inv hn hr
    have hn' : (s.n1 : Int) < INF := by rw [e1]; exact hn
    have B := bfs_post_of_eq hs hm hn' hb
    refine ⟨B.shape_after hs, B.matching_after hm, B.distOK_after hn', B.n1.trans e1,
      B.n2.trans e2, by rw [B.adj]; exact hadj, nodup_upto _, fun x hx => (mem_upto _ _).1 hx, ?_⟩
    intro x hx hfree
    rw [B.n1] at hx
    obtain ⟨a, b⟩ := (mem_upto _ _).1 hx
    exact B.inv.free0 x a b (by rw [← B.mU]; exact hfree)
  | skip u us s _ _ ih =>
    exact ⟨ih.shape, ih.matching, ih.distOK, ih.n1, ih.n2, ih.adj, (List.nodup_cons.1 ih.nodup).2,
      fun x hx => ih.rng x (List.mem_cons_of_mem _ hx),
      fun x hx => ih.fresh x (List.mem_cons_of_mem _ hx)⟩
  | call u us s t b _ hfree hc ih =>
    have hur := ih.rng u (List.mem_cons_self _ _)
    have hdu : rd s.dist u = 0 := ih.fresh u (List.mem_cons_self _ _) hfree
    have hdInf : rd s.dist u ≠ INF := by rw [hdu]; exact ne_of_lt INF_pos
    have hp := dfs_post s.n1 s u b t ih.shape ih.matching ih.distOK hur.1 hur.2 hdInf hc
    have hkeepU : ∀ x, rd s.matchU x ≠ NIL → rd t.matchU x ≠ NIL := by
      intro x hx
      cases b with
      | false => rw [(hp.fail rfl).1]; exact hx
      | true => exact (hp.succ rfl).keepU x hx
    refine ⟨dfs_post_shape ih.shape hp, dfs_post_matching ih.matching hur.1 hur.2 hfree hp,
      dfs_post_distOK ih.distOK hp, hp.n1.trans ih.n1, hp.n2.trans ih.n2,
      by rw [hp.adj]; exact ih.adj, (List.nodup_cons.1 ih.nodup).2,
      by rw [hp.n1]; exact fun x hx => ih.rng x (List.mem_cons_of_mem _ hx), ?_⟩
    intro x hx hxf
    have hxs : rd s.matchU x = NIL := by
      by_contra hne; exact hkeepU x hne hxf
    have hx0 := ih.fresh x (List.mem_cons_of_mem _ hx) hxs
    have hxu : x ≠ u := by rintro rfl; exact (List.nodup_cons.1 ih.nodup).1 hx
    rw [(hp.frameU x hxu (by rw [hx0, hdu])).1, hx0]

/-- A top-level call of a round returns: the fuel `n1` is enough. -/
theorem phase_call_total {n1 n2 : Nat} (hn : (n1 : Int) < INF) {es : List (Int × Int)}
    {u : Int} {us : List Int} {s : HopcroftKarp} (h : Phase n1 n2 es (u :: us) s)
    (hfree : rd s.matchU u = NIL) :
    ∃ b t, dfs s.n1 s u = some (b, t) ∧ DfsPost s u b t := by
  have I := phase_inv hn h
  have hur := I.rng u (List.mem_cons_self _ _)
  have hdu : rd s.dist u = 0 := I.fresh u (List.mem_cons_self _ _) hfree
  have hdInf : rd s.dist u ≠ INF := by rw [hdu]; exact ne_of_lt INF_pos
  obtain ⟨b, t, hc⟩ := dfs_total s.n1 s u I.shape I.matching I.distOK hur.1 hur.2 hdInf
    (by rw [hdu]; omega)
  exact ⟨b, t, hc, dfs_post s.n1 s u b t I.shape I.matching I.distOK hur.1 hur.2 hdInf hc⟩

theorem count_eq_filter_upto {α : Type} [DecidableEq α] [Inhabited α] (xs : List α) (a : α) :
    xs.count a = ((upto xs.length).filter (fun i => decide (rd xs i = a))).length := by
  have e := map_rd_upto xs
  conv_lhs => rw [← e]
  rw [List.count_eq_countP, List.countP_eq_length_filter, List.filter_map, List.length_map]
  have hf : ((fun x => x == a) ∘ rd xs) = (fun i => decide (rd xs i = a)) := by
    funext i
    by_cases h : rd xs i = a <;> simp [Function.comp, h]
  rw [hf]

/-- When no `NIL` entry appears and the number of `NIL` entries drops by one, exactly one
index goes from `NIL` to a value. -/
theorem exactly_one_new (xs ys : List Int) (n : Nat) (hx : xs.length = n) (hy : ys.length = n)
    (keep : ∀ i, rd xs i ≠ NIL → rd ys i ≠ NIL) (hc : ys.count NIL + 1 = xs.count NIL) :
    ∃! i, (0 ≤ i ∧ i < (n : Int)) ∧ rd xs i = NIL ∧ rd ys i ≠ NIL := by
  have cx := count_eq_filter_upto xs NIL
  have cy := count_eq_filter_upto ys NIL
  rw [hx] at cx
  rw [hy] at cy
  have hT : (upto n).filter (fun i => decide (rd ys i = NIL))
      = ((upto n).filter (fun i => decide (rd xs i = NIL))).filter
          (fun i => decide (rd ys i = NIL)) := by
    rw [List.filter_filter]
    apply List.filter_congr
    intro i _
    by_cases h : rd ys i = NIL
    · have : rd xs i = NIL := by
        by_contra h'; exact keep i h' h
      simp [h, this]
    · simp [h]
  have hsplit := List.length_eq_length_filter_add
    (l := (upto n).filter (fun i => decide (rd xs i = NIL))) (fun i => decide (rd ys i = NIL))
  rw [← hT] at hsplit
  have hone : (((upto n).filter (fun i => decide (rd xs i = NIL))).filter
      (fun i => !decide (rd ys i = NIL))).length = 1 := by omega
  obtain ⟨y, hy1⟩ := List.length_eq_one.1 hone
  have hmem : ∀ i, i ∈ ((upto n).filter (fun i => decide (rd xs i = NIL))).filter
      (fun i => !decide (rd ys i = NIL)) ↔
      ((0 ≤ i ∧ i < (n : Int)) ∧ rd xs i = NIL ∧ rd ys i ≠ NIL) := by
    intro i
    simp only [List.mem_filter, mem_upto, decide_eq_true_eq, Bool.not_eq_true',
      decide_eq_false_iff_not]
    tauto
  refine ⟨y, (hmem y).1 (by rw [hy1]; simp), ?_⟩
  intro i hi
  have := (hmem i).2 hi
  rw [hy1] at this
  simpa using this

/-- C17: a top-level call `dfs(u)` that `max_matching()` makes on an unmatched `u`
returns. If it returns `true`, `u` is matched, every vertex of `U` and of `V` matched
before is still matched, exactly one vertex of `V` unmatched before is now matched, and
the matching has one more pair; if it returns `false`, `matchU` and `matchV` are
unchanged and `dist[u]` is `INF`. -/
theorem dfs_top_level (n1 n2 : Nat) (hn : (n1 : Int) < INF) (es : List (Int × Int))
    (u : Int) (us : List Int) (s : HopcroftKarp) (h : Phase n1 n2 es (u :: us) s)
    (hfree : rd s.matchU u = NIL) :
    ∃ b t, dfs s.n1 s u = some (b, t) ∧
      (b = true →
        rd t.matchU u ≠ NIL ∧
        (∀ x, rd s.matchU x ≠ NIL → rd t.matchU x ≠ NIL) ∧
        (∀ y, rd s.matchV y ≠ NIL → rd t.matchV y ≠ NIL) ∧
        (∃! y, (0 ≤ y ∧ y < (n2 : Int)) ∧ rd s.matchV y = NIL ∧ rd t.matchV y ≠ NIL) ∧
        (collect t).length = (collect s).length + 1) ∧
      (b = false → t.matchU = s.matchU ∧ t.matchV = s.matchV ∧ rd t.dist u = INF) := by
  have I := phase_inv hn h
  obtain ⟨b, t, hc, hp⟩ := phase_call_total hn h hfree
  refine ⟨b, t, hc, ?_, hp.fail⟩
  intro hb
  have A := hp.succ hb
  have hst := dfs_post_shape I.shape hp
  refine ⟨A.new_ne, A.keepU, A.keepV, ?_, ?_⟩
  · exact exactly_one_new s.matchV t.matchV n2 (by rw [I.shape.mV_len, I.n2])
      (by rw [hst.mV_len, hp.n2, I.n2]) A.keepV A.cntV
  · have c1 := length_collect s I.shape
    have c2 := length_collect t hst
    have c3 := A.cntU
    simp only [hfree, if_true] at c3
    rw [hp.n1] at c2
    omega

theorem phase_roundExample : Phase 2 2 [(0, 0), (1, 0)] [0, 1] roundExample :=
  Phase.start (add_edge (add_edge (HopcroftKarp.mk0 2 2) 0 0) 1 0) roundExample
    (Run.start _ (Reach.add _ _ 1 0 (Reach.add _ _ 0 0 Reach.init))) (by decide)

theorem dfs_top_level_witness :
    ((2 : Nat) : Int) < INF ∧ Phase 2 2 [(0, 0), (1, 0)] [0, 1] roundExample ∧
    rd roundExample.matchU 0 = NIL ∧
    ∃ b t, dfs roundExample.n1 roundExample 0 = some (b, t) ∧
      (b = true →
        rd t.matchU 0 ≠ NIL ∧
        (∀ x, rd roundExample.matchU x ≠ NIL → rd t.matchU x ≠ NIL) ∧
        (∀ y, rd roundExample.matchV y ≠ NIL → rd t.matchV y ≠ NIL) ∧
        (∃! y, (0 ≤ y ∧ y < ((2 : Nat) : Int)) ∧ rd roundExample.matchV y = NIL ∧
          rd t.matchV y ≠ NIL) ∧
        (collect t).length = (collect roundExample).length + 1) ∧
      (b = false → t.matchU = roundExample.matchU ∧ t.matchV = roundExample.matchV ∧
        rd t.dist 0 = INF) :=
  ⟨by decide, phase_roundExample, by decide,
    dfs_top_level 2 2 (by decide) _ 0 [1] roundExample phase_roundExample (by decide)⟩

theorem dfsScan_congr
    (call1 call2 : HopcroftKarp → Int → Option (Bool × HopcroftKarp))
    (hpost : ∀ s' w b t, Shape s' → Matching s' → DistOK s' → 0 ≤ w → w < (s'.n1 : Int) →
      rd s'.dist w ≠ INF → call2 s' w = some (b, t) → DfsPost s' w b t)
    (s : HopcroftKarp) (u : Int) (hs : Shape s) (hm : Matching s) (hd : DistOK s)
    (hu0 : 0 ≤ u) (hu1 : u < (s.n1 : Int)) (hdu : rd s.dist u ≠ INF)
    (hagree : ∀ s' w, Shape s' → Matching s' → DistOK s' → 0 ≤ w → w < (s'.n1 : Int) →
      rd s'.dist w ≠ INF → rd s'.dist w = rd s'.dist u + 1 → call1 s' w = call2 s' w) :
    ∀ vs : List Int, (∀ v ∈ vs, v ∈ rd s.adj u) → ∀ si, ScanInv s u si →
      dfsScan call1 u vs si = dfsScan call2 u vs si := by
  have hdlt : rd s.dist u + 1 < INF := by
    rcases hd.2 u hu0 hu1 with e | e
    · exact absurd e hdu
    · have := hd.1; omega
  intro vs
  induction vs with
  | nil => intro _ si _; rfl
  | cons v vs ih =>
    intro hvs si hi
    have hv : v ∈ rd s.adj u := hvs v (List.mem_cons_self _ _)
    have hvr := hs.adj_rng u v hv
    have hvs' : ∀ v' ∈ vs, v' ∈ rd s.adj u := fun v' h' => hvs v' (List.mem_cons_of_mem _ h')
    have hdu' : rd si.dist u = rd s.dist u := hi.low u (le_refl _)
    simp only [dfsScan]
    by_cases hw : rd si.matchV v = NIL
    · simp only [hw, if_true]
    · simp only [hw, if_false]
      have hwS : rd s.matchV v ≠ NIL := by rw [← hi.mV]; exact hw
      obtain ⟨hwr, _⟩ := hm.vu v hvr.1 hvr.2 hwS
      rw [← hi.mV] at hwr
      by_cases hdw : rd si.dist (rd si.matchV v) = rd si.dist u + 1
      · simp only [hdw, if_true]
        have hwInf : rd si.dist (rd si.matchV v) ≠ INF := by rw [hdw, hdu']; omega
        have hwr1 : rd si.matchV v < (si.n1 : Int) := by rw [hi.n1]; exact hwr.2
        rw [hagree si (rd si.matchV v) (hi.keeps_shape hs) (hi.keeps_matching hm)
          (hi.keeps_distOK hd) hwr.1 hwr1 hwInf hdw]
        cases hc : call2 si (rd si.matchV v) with
        | none => rfl
        | some r =>
          obtain ⟨b', t'⟩ := r
          have hp := hpost si _ b' t' (hi.keeps_shape hs) (hi.keeps_matching hm)
            (hi.keeps_distOK hd) hwr.1 hwr1 hwInf hc
          cases b' with
          | false => exact ih hvs' t' (hi.step hp hdw)
          | true => rfl
      · simp only [hdw, if_false]
        exact ih hvs' si hi

theorem dfsChecked_eq : ∀ (fuel : Nat) (caller : Option Int) (s : HopcroftKarp) (u : Int),
    Shape s → Matching s → DistOK s → 0 ≤ u → u < (s.n1 : Int) → rd s.dist u ≠ INF →
    (∀ d, caller = some d → rd s.dist u = d + 1) →
    dfsChecked fuel caller s u = dfs fuel s u := by
  intro fuel
  induction fuel with
  | zero => intro caller s u _ _ _ _ _ _ _; rfl
  | succ f ih =>
    intro caller s u hs hm hd hu0 hu1 hdu hcall
    have hok : entryOK s caller u = true := by
      rcases hd.2 u hu0 hu1 with e | e
      · exact absurd e hdu
      · have := hd.1
        unfold entryOK
        cases caller with
        | none => simp [hdu, e.1, e.2]; omega
        | some d => simp [hdu, e.1, e.2, hcall d rfl]; have := hcall d rfl; omega
    simp only [dfsChecked, hok, if_true, dfs]
    exact dfsScan_congr _ (dfs f) (fun s' w b t => dfs_post f s' w b t) s u hs hm hd hu0 hu1 hdu
      (fun s' w a1 a2 a3 a4 a5 a6 a7 => ih (some (rd s'.dist u)) s' w a1 a2 a3 a4 a5 a6
        (fun d hd' => by
          simp only [Option.some.injEq] at hd'
          rw [← hd']; exact a7))
      (rd s.adj u) (fun _ h => h) s (ScanInv.init s u)

/-- C19: every call `dfs(u)` that `max_matching()` makes, top-level or nested, is
entered with `dist[u]` finite (not `INF`) and below `n1`, every nested call is on a vertex
whose label is exactly one more than its caller's, `dist[u] + 1` never overflows, and the
recursion is at most `n1` deep: the top-level call with all these assertions checked at
every entry and with `n1` levels of recursion returns what `dfs` returns. -/
theorem dfs_calls_layered (n1 n2 : Nat) (hn : (n1 : Int) < INF) (es : List (Int × Int))
    (u : Int) (us : List Int) (s : HopcroftKarp) (h : Phase n1 n2 es (u :: us) s)
    (hfree : rd s.matchU u = NIL) :
    ∃ b t, dfs n1 s u = some (b, t) ∧ dfsChecked n1 none s u = some (b, t) := by
  have I := phase_inv hn h
  have hur := I.rng u (List.mem_cons_self _ _)
  have hdu : rd s.dist u = 0 := I.fresh u (List.mem_cons_self _ _) hfree
  have hdInf : rd s.dist u ≠ INF := by rw [hdu]; exact ne_of_lt INF_pos
  obtain ⟨b, t, hc, _⟩ := phase_call_total hn h hfree
  rw [I.n1] at hc
  refine ⟨b, t, hc, ?_⟩
  rw [dfsChecked_eq n1 none s u I.shape I.matching I.distOK hur.1 hur.2 hdInf
    (fun d hd => by cases hd), hc]

theorem phase_roundTwoExample :
    Phase 2 2 [(0, 0), (1, 0), (0, 1)] [1] roundTwoExample := by
  have hr : Reach 2 2 [(0, 0), (1, 0), (0, 1)] (load 2 2 [(0, 0), (1, 0), (0, 1)]) :=
    Reach.add _ _ 0 1 (Reach.add _ _ 1 0 (Reach.add _ _ 0 0 Reach.init))
  have h1 : bfs (load 2 2 [(0, 0), (1, 0), (0, 1)]) = some (true,
      { n1 := 2, n2 := 2, adj := [[0, 1], [0]], matchU := [NIL, NIL], matchV := [NIL, NIL],
        dist := [0, 0] }) := by decide
  have h2 : augment (upto 2)
      { n1 := 2, n2 := 2, adj := [[0, 1], [0]], matchU := [NIL, NIL], matchV := [NIL, NIL],
        dist := [0, 0] } 0 = some
      ({ n1 := 2, n2 := 2, adj := [[0, 1], [0]], matchU := [0, NIL], matchV := [0, NIL],
         dist := [0, INF] }, 1) := by decide
  have h3 : bfs
      { n1 := 2, n2 := 2, adj := [[0, 1], [0]], matchU := [0, NIL], matchV := [0, NIL],
        dist := [0, INF] } = some (true, roundTwoExample) := by decide
  have hp := Phase.start _ _ (Run.round _ _ _ 0 1 (Run.start _ hr) h1 h2) h3
  exact Phase.skip 0 [1] roundTwoExample hp (by decide)

theorem dfs_calls_layered_witness :
    ((2 : Nat) : Int) < INF ∧ Phase 2 2 [(0, 0), (1, 0), (0, 1)] [1] roundTwoExample ∧
    rd roundTwoExample.matchU 1 = NIL ∧
    ∃ b t, dfs 2 roundTwoExample 1 = some (b, t) ∧
      dfsChecked 2 none roundTwoExample 1 = some (b, t) :=
  ⟨by decide, phase_roundTwoExample, by decide,
    dfs_calls_layered 2 2 (by decide) _ 1 [] roundTwoExample phase_roundTwoExample (by decide)⟩

/-! ## What `bfs()` decides -/

theorem mem_edgesOf (s : HopcroftKarp) (hs : Shape s) (x y : Int) :
    (x, y) ∈ edgesOf s ↔ y ∈ rd s.adj x := by
  unfold edgesOf
  simp only [List.mem_flatMap, List.mem_map, Prod.mk.injEq, mem_upto]
  constructor
  · rintro ⟨u, _, v, hv, rfl, rfl⟩
    exact hv
  · intro h
    exact ⟨x, mem_adj_rng hs h, y, h, rfl, rfl⟩

theorem mem_collect_of_matchV {s : HopcroftKarp} (hm : Matching s) {v w : Int}
    (hv : 0 ≤ v ∧ v < (s.n2 : Int)) (hw : rd s.matchV v = w) (hne : w ≠ NIL) :
    (w, v) ∈ collect s := by
  obtain ⟨a, b⟩ := hm.vu v hv.1 hv.2 (by rw [hw]; exact hne)
  rw [hw] at a b
  rw [mem_collect]
  exact ⟨a, by simp only; rw [b]; exact NIL_ne_of_nonneg hv.1, by simp only; exact b.symm⟩

theorem matchV_of_mem_collect {s : HopcroftKarp} (hm : Matching s) {v w : Int}
    (h : (w, v) ∈ collect s) : rd s.matchV v = w := by
  obtain ⟨hw, hne, hp2⟩ := (mem_collect s (w, v)).1 h
  simp only at hw hne hp2
  have := (hm.uv w hw.1 hw.2 hne).2
  rw [← hp2] at this
  exact this

/-- Every vertex with a distance label after `bfs()` ends an alternating path from an
unmatched vertex, and conversely. -/
theorem bfs_reached_iff {s : HopcroftKarp} {found : Bool} {dist : List Int} (hs : Shape s)
    (hm : Matching s) (hf : BfsInv s dist [] found) (u : Int) :
    ((0 ≤ u ∧ u < (s.n1 : Int)) ∧ rd dist u ≠ INF) ↔
      AltReach s.n1 s.n2 (edgesOf s) (collect s) u := by
  constructor
  · have key : ∀ (n : Nat) (x : Int), (0 ≤ x ∧ x < (s.n1 : Int)) → rd dist x ≠ INF →
        rd dist x = n → AltReach s.n1 s.n2 (edgesOf s) (collect s) x := by
      intro n
      induction n with
      | zero =>
        intro x hx hd h0
        rcases hf.parent x hx.1 hx.2 hd with h | ⟨u, v, hu, hud, _, _, e⟩
        · exact AltReach.start x hx.1 hx.2
            (fun hmem => ((mem_collect_fst s x).1 hmem).2 h.2)
        · exfalso
          have hu := hf.bound u hu.1 hu.2 hud
          simp at h0
          omega
      | succ n ih =>
        intro x hx hd h0
        rcases hf.parent x hx.1 hx.2 hd with h | ⟨u, v, hu, hud, hv, hw, e⟩
        · exact AltReach.start x hx.1 hx.2
            (fun hmem => ((mem_collect_fst s x).1 hmem).2 h.2)
        · have hvr := hs.adj_rng u v hv
          exact AltReach.step u v x (ih u hu hud (by push_cast at h0; omega))
            ((mem_edgesOf s hs u v).2 hv) hu hvr
            (mem_collect_of_matchV hm hvr hw (NIL_ne_of_nonneg hx.1))
    rintro ⟨hu, hd⟩
    have hb := hf.bound u hu.1 hu.2 hd
    exact key (rd dist u).toNat u hu hd (by omega)
  · intro h
    induction h with
    | start u h0 h1 hfree =>
      refine ⟨⟨h0, h1⟩, ?_⟩
      have : rd s.matchU u = NIL := by
        by_contra hne
        exact hfree ((mem_collect_fst s u).2 ⟨⟨h0, h1⟩, hne⟩)
      rw [hf.free0 u h0 h1 this]
      exact ne_of_lt INF_pos
    | step u v w _ he hu hv hr ih =>
      obtain ⟨hw, _, _⟩ := (mem_collect s (w, v)).1 hr
      have hback := matchV_of_mem_collect hm hr
      refine ⟨hw, ?_⟩
      rcases hf.closed u ih.1.1 ih.1.2 ih.2 with h | h
      · exact absurd h (List.not_mem_nil _)
      · have := (h v ((mem_edgesOf s hs u v).1 he)).2
        rw [hback] at this
        exact this (NIL_ne_of_nonneg hw.1)

/-- C16: in a state whose `matchU`/`matchV` encode a valid matching of the added edges,
`bfs()` returns, it returns `true` if and only if an augmenting path exists relative to
that matching, and it changes only `dist`. -/
theorem bfs_true_iff_augmenting (s : HopcroftKarp) (hs : Shape s) (hm : Matching s)
    (hn : (s.n1 : Int) < INF) :
    ∃ found t, bfs s = some (found, t) ∧ t = { s with dist := t.dist } ∧
      (found = true ↔ Augmenting s.n1 s.n2 (edgesOf s) (collect s)) := by
  obtain ⟨found, t, e, B⟩ := bfs_spec s hs hm hn
  refine ⟨found, t, e, B.same, ?_⟩
  constructor
  · intro hfound
    obtain ⟨u, v, hu, hud, hv, hw⟩ := B.inv.wit hfound
    have hvr := hs.adj_rng u v hv
    refine ⟨u, v, (bfs_reached_iff hs hm B.inv u).1 ⟨hu, hud⟩, (mem_edgesOf s hs u v).2 hv,
      hu, hvr, ?_⟩
    intro hmem
    obtain ⟨p, hp, hp2⟩ := List.mem_map.1 hmem
    have := matchV_of_mem_collect hm (show (p.1, v) ∈ collect s by rw [← hp2]; exact hp)
    obtain ⟨hpr, _, _⟩ := (mem_collect s p).1 hp
    rw [hw] at this
    exact NIL_ne_of_nonneg hpr.1 this.symm
  · rintro ⟨u, v, hu, he, hur, hvr, hv⟩
    obtain ⟨_, hd⟩ := (bfs_reached_iff hs hm B.inv u).2 hu
    rcases B.inv.closed u hur.1 hur.2 hd with h | h
    · exact absurd h (List.not_mem_nil _)
    · obtain ⟨a, _⟩ := h v ((mem_edgesOf s hs u v).1 he)
      apply a
      by_contra hw
      exact hv (List.mem_map.2 ⟨(rd s.matchV v, v), mem_collect_of_matchV hm hvr rfl hw, rfl⟩)

theorem bfs_true_iff_augmenting_witness :
    Shape (load 2 2 [(0, 0), (1, 0)]) ∧ Matching (load 2 2 [(0, 0), (1, 0)]) ∧
    (((load 2 2 [(0, 0), (1, 0)]).n1 : Nat) : Int) < INF ∧
    ∃ found t, bfs (load 2 2 [(0, 0), (1, 0)]) = some (found, t) ∧
      t = { load 2 2 [(0, 0), (1, 0)] with dist := t.dist } ∧
      (found = true ↔ Augmenting (load 2 2 [(0, 0), (1, 0)]).n1 (load 2 2 [(0, 0), (1, 0)]).n2
        (edgesOf (load 2 2 [(0, 0), (1, 0)])) (collect (load 2 2 [(0, 0), (1, 0)]))) :=
  ⟨(load_props 2 2 _).1, (load_props 2 2 _).2.1, by decide,
    bfs_true_iff_augmenting (load 2 2 [(0, 0), (1, 0)]) (load_props 2 2 _).1
      (load_props 2 2 _).2.1 (by decide)⟩

/-! ## The cycle guard of the path reconstruction -/

theorem links_inj {n : Nat} {r : List (Int × Int)} {nx : List Int} {st : List Bool}
    (L : Links n r nx st) (hsnd : (r.map Prod.snd).Nodup) (x y : Int)
    (hx : 0 ≤ x ∧ x < (n : Int)) (hy : 0 ≤ y ∧ y < (n : Int)) (hne : rd nx x ≠ NIL)
    (e : rd nx x = rd nx y) : x = y := by
  have h1 := L.nx_mem x hx.1 hx.2 hne
  have h2 := L.nx_mem y hy.1 hy.2 (by rw [← e]; exact hne)
  have := List.inj_on_of_nodup_map hsnd h1 h2 e
  simpa using congrArg Prod.fst this

theorem walk_unguarded {n : Nat} {r : List (Int × Int)} {nx : List Int} {st : List Bool}
    (L : Links n r nx st)
    (hr : ∀ p ∈ r, (0 ≤ p.1 ∧ p.1 < (n : Int)) ∧ (0 ≤ p.2 ∧ p.2 < (n : Int)))
    (hsnd : (r.map Prod.snd).Nodup) :
    ∀ (fuel : Nat) (cur : Int) (path : List Int) (visited : List Bool),
      (cur = NIL ∨ ((0 ≤ cur ∧ cur < (n : Int)) ∧ rd visited cur = false)) →
      visited.length = n → visited.count false ≤ fuel → Bwd n nx visited →
      (cur ≠ NIL → ∀ x, 0 ≤ x → x < (n : Int) → rd nx x = cur → rd visited x = true) →
      walkNoGuard nx fuel cur (path, visited) = walk nx fuel cur (path, visited) ∧
      ∀ path2 v2, walk nx fuel cur (path, visited) = some (path2, v2) →
        Bwd n nx v2 ∧
        ((cur = NIL ∧ path2 = path) ∨ ∃ l, path2.getLast? = some l ∧ rd nx l = NIL) := by
  intro fuel
  induction fuel with
  | zero =>
    intro cur path visited hc hl hf hb _
    by_cases h1 : cur = NIL
    · refine ⟨by simp [walk, walkNoGuard, h1], ?_⟩
      intro p2 v2 h
      simp only [walk, h1, if_true, Option.some.injEq, Prod.mk.injEq] at h
      obtain ⟨rfl, rfl⟩ := h
      exact ⟨hb, Or.inl ⟨h1, rfl⟩⟩
    · exfalso
      rcases hc with h | ⟨hcr, hv⟩
      · exact h1 h
      · have h0 : visited.count false = 0 := by omega
        have hm := rd_mem visited cur hcr.1 (by rw [hl]; exact hcr.2)
        rw [hv] at hm
        exact absurd hm (List.count_eq_zero.1 h0)
  | succ f ih =>
    intro cur path visited hc hl hf hb hpred
    by_cases h1 : cur = NIL
    · refine ⟨by simp [walk, walkNoGuard, h1], ?_⟩
      intro p2 v2 h
      simp only [walk, h1, if_true, Option.some.injEq, Prod.mk.injEq] at h
      obtain ⟨rfl, rfl⟩ := h
      exact ⟨hb, Or.inl ⟨h1, rfl⟩⟩
    · obtain ⟨hcr, hv⟩ : (0 ≤ cur ∧ cur < (n : Int)) ∧ rd visited cur = false := by
        rcases hc with h | h
        · exact absurd h h1
        · exact h
      have hclen : cur < (visited.length : Int) := by rw [hl]; exact hcr.2
      have hnext : rd nx cur ≠ NIL → (cur, rd nx cur) ∈ r := L.nx_mem cur hcr.1 hcr.2
      have hmono : ∀ x, rd visited x = true → rd (wr visited cur true) x = true := by
        intro x hx
        rw [rd_wr]
        split
        · rfl
        · exact hx
      have hnew : rd (wr visited cur true) cur = true := rd_wr_same _ _ _ hcr.1 hclen
      have hcnt := @count_wr Bool _ _ false true visited cur hcr.1 hclen
      rw [hv] at hcnt
      simp only [if_true, Bool.true_eq_false, if_false] at hcnt
      have hc' : rd nx cur = NIL ∨
          ((0 ≤ rd nx cur ∧ rd nx cur < (n : Int)) ∧ rd (wr visited cur true) (rd nx cur) = false) := by
        by_cases h : rd nx cur = NIL
        · exact Or.inl h
        · right
          refine ⟨(hr _ (hnext h)).2, ?_⟩
          have hne : cur ≠ rd nx cur := by
            intro e
            have := hpred h1 cur hcr.1 hcr.2 e.symm
            rw [hv] at this; cases this
          rw [rd_wr_ne _ _ _ _ hne]
          cases hvn : rd visited (rd nx cur)
          · rfl
          · have := hb cur hcr.1 hcr.2 h hvn
            rw [hv] at this; cases this
      have hb' : Bwd n nx (wr visited cur true) := by
        intro x h0 h1' hne hvis
        by_cases hy : rd nx x = cur
        · exact hmono x (hpred h1 x h0 h1' hy)
        · rw [rd_wr_ne _ _ _ _ (fun e => hy e.symm)] at hvis
          exact hmono x (hb x h0 h1' hne hvis)
      have hpred' : rd nx cur ≠ NIL → ∀ x, 0 ≤ x → x < (n : Int) → rd nx x = rd nx cur →
          rd (wr visited cur true) x = true := by
        intro hne x h0 h1' e
        have := links_inj L hsnd x cur ⟨h0, h1'⟩ hcr (by rw [e]; exact hne) e
        rw [this]; exact hnew
      obtain ⟨e, post⟩ := ih (rd nx cur) (path ++ [cur]) (wr visited cur true) hc'
        (by rw [length_wr]; exact hl) (by omega) hb' hpred'
      have hvt : ¬ rd visited cur = true := by rw [hv]; simp
      refine ⟨by simp only [walk, walkNoGuard, h1, hvt, if_false]; exact e, ?_⟩
      intro p2 v2 h
      simp only [walk, h1, hvt, if_false] at h
      obtain ⟨b2, hlast⟩ := post p2 v2 h
      refine ⟨b2, Or.inr ?_⟩
      rcases hlast with ⟨hnil, rfl⟩ | h
      · exact ⟨cur, by simp, hnil⟩
      · exact h


theorem recInv_after_walk {n : Nat} {nx : List Int} {st : List Bool} {i : Int}
    {rest : List Int} {paths : List (List Int)} {visited v2 : List Bool} {ext : List Int}
    (hi : RecInv n nx st (i :: rest) paths visited) (hine : ∀ x ∈ rest, x ≠ i)
    (W : WalkPost n nx st i visited ext v2) (hhead : ext.head? = some i) :
    RecInv n nx st rest (paths ++ [ext]) v2 := by
  have hne : ext ≠ [] := by
    intro h; rw [h] at hhead; simp at hhead
  refine ⟨W.len, ?_, ?_, ?_, ?_, ?_, ?_, ?_⟩
  · intro x
    rw [W.mem x, hi.mem x]
    simp
  · intro x hx
    simp only [List.flatten_append, List.flatten_singleton, List.mem_append] at hx
    rcases hx with hx | hx
    · exact hi.rng x hx
    · exact W.rng x hx
  · simp only [List.flatten_append, List.flatten_singleton]
    refine List.nodup_append.2 ⟨hi.nodup, W.nodup, ?_⟩
    intro x hx1 hx2
    have h1 := (hi.mem x).2 hx1
    rw [W.fresh x hx2] at h1
    cases h1
  · intro p hp
    rcases List.mem_append.1 hp with hp | hp
    · exact hi.chain p hp
    · rw [List.mem_singleton.1 hp]
      exact ⟨hne, W.chain⟩
  · intro x hx hnx
    rcases (W.mem x).1 hx with h | h
    · exact (W.mem _).2 (Or.inl (hi.closed x h hnx))
    · exact W.closed x h hnx
  · intro x h0 h1 hx hsx
    by_cases hxi : x = i
    · rw [hxi]
      exact (W.mem i).2 (Or.inr (List.mem_of_mem_head? hhead))
    · have : x ∉ i :: rest := by
        intro h
        rcases List.mem_cons.1 h with h | h
        · exact hxi h
        · exact hx h
      exact (W.mem x).2 (Or.inl (hi.done x h0 h1 this hsx))
  · intro x hx hsx
    have h1 := hi.todo x (List.mem_cons_of_mem _ hx) hsx
    cases h2 : rd v2 x
    · rfl
    · exfalso
      rcases (W.mem x).1 h2 with h | h
      · rw [h1] at h; cases h
      · rcases W.nonstart x h with h' | h'
        · exact hine x hx h'
        · rw [hsx] at h'; cases h'

theorem recInv_after_skip {n : Nat} {nx : List Int} {st : List Bool} {i : Int}
    {rest : List Int} {paths : List (List Int)} {visited : List Bool}
    (hi : RecInv n nx st (i :: rest) paths visited) (hsf : rd st i = false) :
    RecInv n nx st rest paths visited := by
  refine ⟨hi.len, hi.mem, hi.rng, hi.nodup, hi.chain, hi.closed, ?_,
    fun x hx => hi.todo x (List.mem_cons_of_mem _ hx)⟩
  intro x h0 h1 hx hsx
  have : x ∉ i :: rest := by
    intro h
    rcases List.mem_cons.1 h with h | h
    · rw [h, hsf] at hsx; cases hsx
    · exact hx h
  exact hi.done x h0 h1 this hsx

theorem reconstruct_unguarded {n : Nat} {r : List (Int × Int)} {nx : List Int}
    {st : List Bool} (L : Links n r nx st)
    (hr : ∀ p ∈ r, (0 ≤ p.1 ∧ p.1 < (n : Int)) ∧ (0 ≤ p.2 ∧ p.2 < (n : Int)))
    (hsnd : (r.map Prod.snd).Nodup) :
    ∀ (rest : List Int) (paths : List (List Int)) (visited : List Bool),
      rest.Nodup → (∀ x ∈ rest, 0 ≤ x ∧ x < (n : Int)) → RecInv n nx st rest paths visited →
      Bwd n nx visited →
      (∀ p ∈ paths, ∃ l, p.getLast? = some l ∧ rd nx l = NIL) →
      ∃ paths2 visited2, reconstruct n nx st rest (paths, visited) = some (paths2, visited2) ∧
        reconstructNoGuard n nx st rest (paths, visited) = some (paths2, visited2) ∧
        reconstructPlain n nx st rest (paths, visited) = some (paths2, visited2) ∧
        ∀ p ∈ paths2, ∃ l, p.getLast? = some l ∧ rd nx l = NIL := by
  intro rest
  induction rest with
  | nil =>
    intro paths visited _ _ _ _ hl
    exact ⟨paths, visited, rfl, rfl, rfl, hl⟩
  | cons i rest ih =>
    intro paths visited hnd hrng hi hb hl
    have hnd' : rest.Nodup := (List.nodup_cons.1 hnd).2
    have hine : ∀ x ∈ rest, x ≠ i := by
      intro x hx e; subst e; exact (List.nodup_cons.1 hnd).1 hx
    have hir := hrng i (List.mem_cons_self _ _)
    have hrng' : ∀ x ∈ rest, 0 ≤ x ∧ x < (n : Int) :=
      fun x hx => hrng x (List.mem_cons_of_mem _ hx)
    by_cases hs : rd st i = true
    · have hv : rd visited i = false := hi.todo i (List.mem_cons_self _ _) hs
      have hcnt : visited.count false ≤ n := by
        rw [← hi.len]; exact List.count_le_length _ _
      obtain ⟨ext, v2, e, W⟩ := walk_spec L hr n i [] visited (Or.inr hir) hi.len hcnt
      have hpred : i ≠ NIL → ∀ x, 0 ≤ x → x < (n : Int) → rd nx x = i →
          rd visited x = true := by
        intro _ x h0 h1 hx
        exfalso
        have hm := L.nx_mem x h0 h1 (by rw [hx]; exact NIL_ne_of_nonneg hir.1)
        have : rd st i = false :=
          (L.st_iff i hir.1 hir.2).2 (List.mem_map.2 ⟨(x, rd nx x), hm, hx⟩)
        rw [hs] at this; cases this
      obtain ⟨eg, post⟩ := walk_unguarded L hr hsnd n i [] visited (Or.inr ⟨hir, hv⟩) hi.len
        hcnt hb hpred
      simp only [List.nil_append] at e
      obtain ⟨hb2, hlast⟩ := post ext v2 e
      have hhead : ext.head? = some i := by
        rcases W.head with ⟨h | h, _⟩ | ⟨_, _, h⟩
        · exact absurd h (NIL_ne_of_nonneg hir.1)
        · rw [hv] at h; cases h
        · exact h
      have hne : ext ≠ [] := by
        intro h; rw [h] at hhead; simp at hhead
      have hI := recInv_after_walk hi hine W hhead
      have hl2 : ∀ p ∈ paths ++ [ext], ∃ l, p.getLast? = some l ∧ rd nx l = NIL := by
        intro p hp
        rcases List.mem_append.1 hp with hp | hp
        · exact hl p hp
        · rw [List.mem_singleton.1 hp]
          rcases hlast with ⟨h, _⟩ | h
          · exact absurd h (NIL_ne_of_nonneg hir.1)
          · exact h
      obtain ⟨p2, v3, e1, e2, e3, l3⟩ := ih (paths ++ [ext]) v2 hnd' hrng' hI hb2 hl2
      refine ⟨p2, v3, ?_, ?_, ?_, l3⟩
      · simp only [reconstruct, hs, hv, and_self, if_true, e, hne, ne_eq,
          not_false_eq_true]
        exact e1
      · simp only [reconstructNoGuard, hs, hv, and_self, if_true, eg, e, hne, ne_eq,
          not_false_eq_true]
        exact e2
      · simp only [reconstructPlain, hs, if_true, eg, e]
        exact e3
    · have hsf : rd st i = false := by
        cases h : rd st i
        · rfl
        · exact absurd h hs
      obtain ⟨p2, v3, e1, e2, e3, l3⟩ := ih paths visited hnd' hrng'
        (recInv_after_skip hi hsf) hb hl
      refine ⟨p2, v3, ?_, ?_, ?_, l3⟩
      · simp only [reconstruct, hsf, Bool.false_eq_true, false_and, if_false]
        exact e1
      · simp only [reconstructNoGuard, hsf, Bool.false_eq_true, false_and, if_false]
        exact e2
      · simp only [reconstructPlain, hsf, Bool.false_eq_true, if_false]
        exact e3

/-- C20: in `dag_minimum_path_cover(n, edges)` (for `n < INT_MAX`) the guard
`if (visited[current_vertex]) break;` never fires: the function returns a result, and
the same result is returned when the guard is deleted, and also when the tests
`!visited[i]` and `!current_path.empty()` are deleted with it. Every returned path is
nonempty and its last vertex has no successor in the matching, so each walk ended at
the sentinel `-1`. -/
theorem dag_guard_unreachable (n : Nat) (hn : (n : Int) < INF) (edges : List (Int × Int)) :
    ∃ r t paths, max_matching (load n n edges) = some (r, t) ∧
      dag_minimum_path_cover n edges = some paths ∧
      pathCoverWith reconstruct n edges = some paths ∧
      pathCoverWith reconstructNoGuard n edges = some paths ∧
      pathCoverWith reconstructPlain n edges = some paths ∧
      ∀ p ∈ paths, ∃ l, p.getLast? = some l ∧ l ∉ r.map Prod.fst ∧
        rd (link r (List.replicate n NIL, List.replicate n true)).1 l = NIL := by
  obtain ⟨hs, hm, e1, e2, _, _, hadj⟩ := load_props n n edges
  obtain ⟨t, k2, e, R⟩ := max_matching_spec (load n n edges) hs hm (by rw [e1]; exact hn)
  have hr_rng : ∀ p ∈ collect t, (0 ≤ p.1 ∧ p.1 < (n : Int)) ∧ (0 ≤ p.2 ∧ p.2 < (n : Int)) := by
    intro p hp
    obtain ⟨hr, hne, hp2⟩ := (mem_collect t p).1 hp
    rw [R.n1, e1] at hr
    obtain ⟨a, _⟩ := R.matching.uv p.1 (by exact hr.1) (by rw [R.n1, e1]; exact hr.2) hne
    have := R.shape.adj_rng _ _ a
    rw [← hp2, R.n2, e2] at this
    exact ⟨hr, this⟩
  have hsnd : ((collect t).map Prod.snd).Nodup := collect_snd_nodup t R.matching
  have L := link_spec n (collect t) [] _ _ (links_nil n)
    (by simpa using collect_fst_nodup t) (by simpa using hsnd) hr_rng
  simp only [List.nil_append] at L
  have hb0 : Bwd n (link (collect t) (List.replicate n NIL, List.replicate n true)).1
      (List.replicate n false) := by
    intro x _ _ _ h
    exfalso
    by_cases hx : 0 ≤ rd (link (collect t) (List.replicate n NIL, List.replicate n true)).1 x ∧
        rd (link (collect t) (List.replicate n NIL, List.replicate n true)).1 x < (n : Int)
    · rw [rd_replicate n false _ hx.1 hx.2] at h; cases h
    · rw [rd_outside _ _ (by simpa using hx)] at h; cases h
  obtain ⟨paths, visited, e3, e4, e5, hl⟩ := reconstruct_unguarded L hr_rng hsnd (upto n) []
    (List.replicate n false) (nodup_upto n) (fun x hx => (mem_upto n x).1 hx)
    (recInv_init n _ _) hb0 (fun p hp => absurd hp (List.not_mem_nil p))
  refine ⟨collect t, t, paths, e, ?_, ?_, ?_, ?_, ?_⟩
  · simp only [dag_minimum_path_cover, e, e3]
  · simp only [pathCoverWith, e, e3]
  · simp only [pathCoverWith, e, e4]
  · simp only [pathCoverWith, e, e5]
  · intro p hp
    obtain ⟨l, h1, h2⟩ := hl p hp
    refine ⟨l, h1, ?_, h2⟩
    intro hm
    obtain ⟨q, hq, hql⟩ := List.mem_map.1 hm
    have := L.mem_nx q hq
    rw [hql, h2] at this
    exact NIL_ne_of_nonneg (hr_rng q hq).2.1 this.symm

theorem dag_guard_unreachable_witness :
    ((4 : Nat) : Int) < INF ∧
    ∃ r t paths, max_matching (load 4 4 [(0, 1), (1, 2), (0, 2), (3, 2)]) = some (r, t) ∧
      dag_minimum_path_cover 4 [(0, 1), (1, 2), (0, 2), (3, 2)] = some paths ∧
      pathCoverWith reconstruct 4 [(0, 1), (1, 2), (0, 2), (3, 2)] = some paths ∧
      pathCoverWith reconstructNoGuard 4 [(0, 1), (1, 2), (0, 2), (3, 2)] = some paths ∧
      pathCoverWith reconstructPlain 4 [(0, 1), (1, 2), (0, 2), (3, 2)] = some paths ∧
      ∀ p ∈ paths, ∃ l, p.getLast? = some l ∧ l ∉ r.map Prod.fst ∧
        rd (link r (List.replicate 4 NIL, List.replicate 4 true)).1 l = NIL :=
  ⟨by decide, dag_guard_unreachable 4 (by decide) [(0, 1), (1, 2), (0, 2), (3, 2)]⟩

/-! ## A parallel edge -/

theorem dfsScan_dead
    (call : HopcroftKarp → Int → Option (Bool × HopcroftKarp))
    (hpost : ∀ s' w b t, Shape s' → Matching s' → DistOK s' → 0 ≤ w → w < (s'.n1 : Int) →
      rd s'.dist w ≠ INF → call s' w = some (b, t) → DfsPost s' w b t)
    (s : HopcroftKarp) (u : Int) (hs : Shape s) (hm : Matching s) (hd : DistOK s)
    (hu0 : 0 ≤ u) (hu1 : u < (s.n1 : Int)) (hdu : rd s.dist u ≠ INF) (v : Int)
    (l3 : List Int) :
    ∀ l2 : List Int, (∀ w ∈ l2, w ∈ rd s.adj u) → ∀ si, ScanInv s u si →
      rd si.matchV v ≠ NIL → rd si.dist (rd si.matchV v) ≠ rd si.dist u + 1 →
      dfsScan call u (l2 ++ v :: l3) si = dfsScan call u (l2 ++ l3) si := by
  have hdlt : rd s.dist u + 1 < INF := by
    rcases hd.2 u hu0 hu1 with e | e
    · exact absurd e hdu
    · have := hd.1; omega
  intro l2
  induction l2 with
  | nil =>
    intro _ si _ h1 h2
    simp only [List.nil_append, dfsScan, h1, h2, if_false]
  | cons w l2 ih =>
    intro hvs si hi h1 h2
    have hw : w ∈ rd s.adj u := hvs w (List.mem_cons_self _ _)
    have hwr := hs.adj_rng u w hw
    have hvs' : ∀ v' ∈ l2, v' ∈ rd s.adj u := fun v' h' => hvs v' (List.mem_cons_of_mem _ h')
    have hdu' : rd si.dist u = rd s.dist u := hi.low u (le_refl _)
    simp only [List.cons_append, dfsScan]
    by_cases hp : rd si.matchV w = NIL
    · simp only [hp, if_true]
    · simp only [hp, if_false]
      have hpS : rd s.matchV w ≠ NIL := by rw [← hi.mV]; exact hp
      obtain ⟨hpr, _⟩ := hm.vu w hwr.1 hwr.2 hpS
      rw [← hi.mV] at hpr
      by_cases hdw : rd si.dist (rd si.matchV w) = rd si.dist u + 1
      · simp only [hdw, if_true]
        have hwInf : rd si.dist (rd si.matchV w) ≠ INF := by rw [hdw, hdu']; omega
        have hpr1 : rd si.matchV w < (si.n1 : Int) := by rw [hi.n1]; exact hpr.2
        cases hc : call si (rd si.matchV w) with
        | none => rfl
        | some r =>
          obtain ⟨b', t'⟩ := r
          have hp' := hpost si _ b' t' (hi.keeps_shape hs) (hi.keeps_matching hm)
            (hi.keeps_distOK hd) hpr.1 hpr1 hwInf hc
          cases b' with
          | false =>
            have hi' := hi.step hp' hdw
            have hu' : rd t'.dist u = rd s.dist u := hi'.low u (le_refl _)
            have hmv : t'.matchV = si.matchV := (hp'.fail rfl).2.1
            refine ih hvs' t' hi' (by rw [hmv]; exact h1) ?_
            rw [hmv, hu']
            rcases hp'.dist_mono (rd si.matchV v) with e | e
            · rw [e, ← hdu']; exact h2
            · rw [e]; omega
          | true => rfl
      · simp only [hdw, if_false]
        exact ih hvs' si hi h1 h2

theorem dfsScan_dup
    (call : HopcroftKarp → Int → Option (Bool × HopcroftKarp))
    (hpost : ∀ s' w b t, Shape s' → Matching s' → DistOK s' → 0 ≤ w → w < (s'.n1 : Int) →
      rd s'.dist w ≠ INF → call s' w = some (b, t) → DfsPost s' w b t)
    (s : HopcroftKarp) (u : Int) (hs : Shape s) (hm : Matching s) (hd : DistOK s)
    (hu0 : 0 ≤ u) (hu1 : u < (s.n1 : Int)) (hdu : rd s.dist u ≠ INF) (v : Int)
    (l2 l3 : List Int) (hv : v ∈ rd s.adj u) (hl2 : ∀ w ∈ l2, w ∈ rd s.adj u) :
    ∀ l1 : List Int, (∀ w ∈ l1, w ∈ rd s.adj u) → ∀ si, ScanInv s u si →
      dfsScan call u (l1 ++ v :: (l2 ++ v :: l3)) si =
        dfsScan call u (l1 ++ v :: (l2 ++ l3)) si := by
  have hdlt : rd s.dist u + 1 < INF := by
    rcases hd.2 u hu0 hu1 with e | e
    · exact absurd e hdu
    · have := hd.1; omega
  have hstep : ∀ (w : Int) (r1 r2 : List Int), w ∈ rd s.adj u → ∀ si, ScanInv s u si →
      (∀ t, ScanInv s u t → t.matchV = si.matchV →
        (rd si.dist (rd si.matchV w) = rd si.dist u + 1 → rd t.dist (rd si.matchV w) = INF) →
        (rd si.dist (rd si.matchV w) ≠ rd si.dist u + 1 → t = si) →
        rd si.matchV w ≠ NIL →
        dfsScan call u r1 t = dfsScan call u r2 t) →
      dfsScan call u (w :: r1) si = dfsScan call u (w :: r2) si := by
    intro w r1 r2 hw si hi hrest
    have hwr := hs.adj_rng u w hw
    have hdu' : rd si.dist u = rd s.dist u := hi.low u (le_refl _)
    simp only [dfsScan]
    by_cases hp : rd si.matchV w = NIL
    · simp only [hp, if_true]
    · simp only [hp, if_false]
      have hpS : rd s.matchV w ≠ NIL := by rw [← hi.mV]; exact hp
      obtain ⟨hpr, _⟩ := hm.vu w hwr.1 hwr.2 hpS
      rw [← hi.mV] at hpr
      by_cases hdw : rd si.dist (rd si.matchV w) = rd si.dist u + 1
      · simp only [hdw, if_true]
        have hwInf : rd si.dist (rd si.matchV w) ≠ INF := by rw [hdw, hdu']; omega
        have hpr1 : rd si.matchV w < (si.n1 : Int) := by rw [hi.n1]; exact hpr.2
        cases hc : call si (rd si.matchV w) with
        | none => rfl
        | some r =>
          obtain ⟨b', t'⟩ := r
          have hp' := hpost si _ b' t' (hi.keeps_shape hs) (hi.keeps_matching hm)
            (hi.keeps_distOK hd) hpr.1 hpr1 hwInf hc
          cases b' with
          | false =>
            exact hrest t' (hi.step hp' hdw) (hp'.fail rfl).2.1 (fun _ => (hp'.fail rfl).2.2)
              (fun h => absurd hdw h) hp
          | true => rfl
      · simp only [hdw, if_false]
        exact hrest si hi rfl (fun h => absurd h hdw) (fun _ => rfl) hp
  intro l1
  induction l1 with
  | nil =>
    intro _ si hi
    simp only [List.nil_append]
    apply hstep v _ _ hv si hi
    intro t ht hmv h1 h2 hne
    have hdu' : rd si.dist u = rd s.dist u := hi.low u (le_refl _)
    have hu' : rd t.dist u = rd s.dist u := ht.low u (le_refl _)
    refine dfsScan_dead call hpost s u hs hm hd hu0 hu1 hdu v l3 l2 hl2 t ht
      (by rw [hmv]; exact hne) ?_
    rw [hmv, hu']
    by_cases hdw : rd si.dist (rd si.matchV v) = rd si.dist u + 1
    · rw [h1 hdw]; omega
    · rw [h2 hdw, ← hdu']; exact hdw
  | cons w l1 ih =>
    intro hvs si hi
    simp only [List.cons_append]
    apply hstep w _ _ (hvs w (List.mem_cons_self _ _)) si hi
    intro t ht _ _ _ _
    exact ih (fun v' h' => hvs v' (List.mem_cons_of_mem _ h')) t ht

theorem dfsScan_withAdj (A : List (List Int))
    (call : HopcroftKarp → Int → Option (Bool × HopcroftKarp))
    (hpost : ∀ s' w b t, Shape s' → Matching s' → DistOK s' → 0 ≤ w → w < (s'.n1 : Int) →
      rd s'.dist w ≠ INF → call s' w = some (b, t) → DfsPost s' w b t)
    (s : HopcroftKarp) (u : Int) (hs : Shape s) (hm : Matching s) (hd : DistOK s)
    (hu0 : 0 ≤ u) (hu1 : u < (s.n1 : Int)) (hdu : rd s.dist u ≠ INF)
    (hsim : ∀ s' w, s'.adj = s.adj → Shape s' → Matching s' → DistOK s' → 0 ≤ w →
      w < (s'.n1 : Int) → rd s'.dist w ≠ INF →
      call (withAdj A s') w = (call s' w).map (fun p => (p.1, withAdj A p.2))) :
    ∀ vs : List Int, (∀ v ∈ vs, v ∈ rd s.adj u) → ∀ si, ScanInv s u si →
      dfsScan call u vs (withAdj A si) =
        (dfsScan call u vs si).map (fun p => (p.1, withAdj A p.2)) := by
  have hdlt : rd s.dist u + 1 < INF := by
    rcases hd.2 u hu0 hu1 with e | e
    · exact absurd e hdu
    · have := hd.1; omega
  intro vs
  induction vs with
  | nil => intro _ si _; rfl
  | cons v vs ih =>
    intro hvs si hi
    have hv : v ∈ rd s.adj u := hvs v (List.mem_cons_self _ _)
    have hvr := hs.adj_rng u v hv
    have hvs' : ∀ v' ∈ vs, v' ∈ rd s.adj u := fun v' h' => hvs v' (List.mem_cons_of_mem _ h')
    have hdu' : rd si.dist u = rd s.dist u := hi.low u (le_refl _)
    simp only [dfsScan]
    have e1 : (withAdj A si).matchV = si.matchV := rfl
    have e2 : (withAdj A si).dist = si.dist := rfl
    rw [e1, e2]
    by_cases hw : rd si.matchV v = NIL
    · simp only [hw, if_true]; rfl
    · simp only [hw, if_false]
      have hwS : rd s.matchV v ≠ NIL := by rw [← hi.mV]; exact hw
      obtain ⟨hwr, _⟩ := hm.vu v hvr.1 hvr.2 hwS
      rw [← hi.mV] at hwr
      by_cases hdw : rd si.dist (rd si.matchV v) = rd si.dist u + 1
      · simp only [hdw, if_true]
        have hwInf : rd si.dist (rd si.matchV v) ≠ INF := by rw [hdw, hdu']; omega
        have hwr1 : rd si.matchV v < (si.n1 : Int) := by rw [hi.n1]; exact hwr.2
        rw [hsim si (rd si.matchV v) hi.adj (hi.keeps_shape hs) (hi.keeps_matching hm)
          (hi.keeps_distOK hd) hwr.1 hwr1 hwInf]
        cases hc : call si (rd si.matchV v) with
        | none => rfl
        | some r =>
          obtain ⟨b', t'⟩ := r
          have hp := hpost si _ b' t' (hi.keeps_shape hs) (hi.keeps_matching hm)
            (hi.keeps_distOK hd) hwr.1 hwr1 hwInf hc
          cases b' with
          | false => exact ih hvs' t' (hi.step hp hdw)
          | true => rfl
      · simp only [hdw, if_false]
        exact ih hvs' si hi

theorem dfs_withAdj {u v : Int} {A B : List (List Int)} (hdup : DupEdge u v A B) :
    ∀ (fuel : Nat) (s : HopcroftKarp) (x : Int), s.adj = B →
      Shape s → Matching s → DistOK s → 0 ≤ x → x < (s.n1 : Int) → rd s.dist x ≠ INF →
      dfs fuel (withAdj A s) x = (dfs fuel s x).map (fun p => (p.1, withAdj A p.2)) := by
  obtain ⟨_, hother, l1, l2, l3, hA, hB⟩ := hdup
  intro fuel
  induction fuel with
  | zero => intro s x _ _ _ _ _ _ _; rfl
  | succ f ih =>
    intro s x hadj hs hm hd hx0 hx1 hdx
    simp only [dfs]
    have eA : (withAdj A s).adj = A := rfl
    rw [eA]
    have hsim : ∀ s' w, s'.adj = s.adj → Shape s' → Matching s' → DistOK s' → 0 ≤ w →
        w < (s'.n1 : Int) → rd s'.dist w ≠ INF →
        dfs f (withAdj A s') w = (dfs f s' w).map (fun p => (p.1, withAdj A p.2)) :=
      fun s' w a0 a1 a2 a3 a4 a5 a6 => ih s' w (a0.trans hadj) a1 a2 a3 a4 a5 a6
    by_cases hxu : x = u
    · subst hxu
      have hBs : rd s.adj x = l1 ++ v :: (l2 ++ l3) := by rw [hadj]; exact hB
      have hmem : ∀ w ∈ l1 ++ v :: (l2 ++ v :: l3), w ∈ rd s.adj x := by
        intro w hw
        rw [hBs]
        simp only [List.mem_append, List.mem_cons] at hw ⊢
        tauto
      rw [hA, dfsScan_withAdj A (dfs f) (fun s' w b t => dfs_post f s' w b t) s x hs hm hd
        hx0 hx1 hdx hsim _ hmem s (ScanInv.init s x)]
      rw [dfsScan_dup (dfs f) (fun s' w b t => dfs_post f s' w b t) s x hs hm hd hx0 hx1 hdx v
        l2 l3 (by rw [hBs]; simp) (fun w hw => by rw [hBs]; simp [hw])
        l1 (fun w hw => by rw [hBs]; simp [hw]) s (ScanInv.init s x), hBs]
    · rw [hother x hxu, ← hadj]
      exact dfsScan_withAdj A (dfs f) (fun s' w b t => dfs_post f s' w b t) s x hs hm hd
        hx0 hx1 hdx hsim _ (fun _ h => h) s (ScanInv.init s x)

theorem bfsScan_done (matchV : List Int) (u v : Int) (l3 : List Int) :
    ∀ (l2 dist q : List Int) (found : Bool),
      rd dist u ≠ INF → rd dist u + 1 ≠ INF →
      (∀ w ∈ l2, rd matchV w ≠ NIL → 0 ≤ rd matchV w ∧ rd matchV w < (dist.length : Int)) →
      (rd matchV v = NIL → found = true) → (rd matchV v ≠ NIL → rd dist (rd matchV v) ≠ INF) →
      bfsScan matchV u (l2 ++ v :: l3) (dist, q, found) =
        bfsScan matchV u (l2 ++ l3) (dist, q, found) := by
  intro l2
  induction l2 with
  | nil =>
    intro dist q found _ _ _ h1 h2
    simp only [List.nil_append, bfsScan]
    by_cases hp : rd matchV v = NIL
    · simp only [hp, if_true]; rw [h1 hp]
    · simp only [hp, if_false, h2 hp]
  | cons w l2 ih =>
    intro dist q found hu hu1 hr h1 h2
    have hr' : ∀ w' ∈ l2, rd matchV w' ≠ NIL →
        0 ≤ rd matchV w' ∧ rd matchV w' < (dist.length : Int) :=
      fun w' h' => hr w' (List.mem_cons_of_mem _ h')
    simp only [List.cons_append, bfsScan]
    by_cases hp : rd matchV w = NIL
    · simp only [hp, if_true]
      exact ih dist q true hu hu1 hr' (fun _ => rfl) h2
    · simp only [hp, if_false]
      by_cases hd : rd dist (rd matchV w) = INF
      · simp only [hd, if_true]
        have hne : rd matchV w ≠ u := by
          intro e; rw [e] at hd; exact hu hd
        have hpr := hr w (List.mem_cons_self _ _) hp
        have hu' : rd (wr dist (rd matchV w) (rd dist u + 1)) u = rd dist u :=
          rd_wr_ne _ _ _ _ hne
        refine ih _ _ found (by rw [hu']; exact hu) (by rw [hu']; exact hu1)
          (by rw [length_wr]; exact hr') h1 ?_
        intro hv
        rw [rd_wr]
        split
        · exact hu1
        · exact h2 hv
      · simp only [hd, if_false]
        exact ih dist q found hu hu1 hr' h1 h2

theorem bfsScan_dup (matchV : List Int) (u v : Int) (l2 l3 : List Int) :
    ∀ (l1 dist q : List Int) (found : Bool),
      rd dist u ≠ INF → rd dist u + 1 ≠ INF →
      (∀ w ∈ l1 ++ v :: l2, rd matchV w ≠ NIL →
        0 ≤ rd matchV w ∧ rd matchV w < (dist.length : Int)) →
      bfsScan matchV u (l1 ++ v :: (l2 ++ v :: l3)) (dist, q, found) =
        bfsScan matchV u (l1 ++ v :: (l2 ++ l3)) (dist, q, found) := by
  intro l1
  induction l1 with
  | nil =>
    intro dist q found hu hu1 hr
    have hr' : ∀ w' ∈ l2, rd matchV w' ≠ NIL →
        0 ≤ rd matchV w' ∧ rd matchV w' < (dist.length : Int) :=
      fun w' h' => hr w' (by simp [h'])
    simp only [List.nil_append, bfsScan]
    by_cases hp : rd matchV v = NIL
    · simp only [hp, if_true]
      exact bfsScan_done matchV u v l3 l2 dist q true hu hu1 hr' (fun _ => rfl)
        (fun h => absurd hp h)
    · simp only [hp, if_false]
      by_cases hd : rd dist (rd matchV v) = INF
      · simp only [hd, if_true]
        have hne : rd matchV v ≠ u := by
          intro e; rw [e] at hd; exact hu hd
        have hpr := hr v (by simp) hp
        have hu' : rd (wr dist (rd matchV v) (rd dist u + 1)) u = rd dist u :=
          rd_wr_ne _ _ _ _ hne
        refine bfsScan_done matchV u v l3 l2 _ _ found (by rw [hu']; exact hu)
          (by rw [hu']; exact hu1) (by rw [length_wr]; exact hr') (fun h => absurd h hp) ?_
        intro _
        rw [rd_wr_same _ _ _ hpr.1 hpr.2]
        exact hu1
      · simp only [hd, if_false]
        exact bfsScan_done matchV u v l3 l2 dist q found hu hu1 hr' (fun h => absurd h hp)
          (fun _ => hd)
  | cons w l1 ih =>
    intro dist q found hu hu1 hr
    have hr' : ∀ w' ∈ l1 ++ v :: l2, rd matchV w' ≠ NIL →
        0 ≤ rd matchV w' ∧ rd matchV w' < (dist.length : Int) :=
      fun w' h' => hr w' (List.mem_cons_of_mem _ h')
    simp only [List.cons_append, bfsScan]
    by_cases hp : rd matchV w = NIL
    · simp only [hp, if_true]
      exact ih dist q true hu hu1 hr'
    · simp only [hp, if_false]
      by_cases hd : rd dist (rd matchV w) = INF
      · simp only [hd, if_true]
        have hne : rd matchV w ≠ u := by
          intro e; rw [e] at hd; exact hu hd
        have hu' : rd (wr dist (rd matchV w) (rd dist u + 1)) u = rd dist u :=
          rd_wr_ne _ _ _ _ hne
        exact ih _ _ found (by rw [hu']; exact hu) (by rw [hu']; exact hu1)
          (by rw [length_wr]; exact hr')
      · simp only [hd, if_false]
        exact ih dist q found hu hu1 hr'

theorem bfsLoop_dup {u v : Int} {A : List (List Int)} (s : HopcroftKarp)
    (hdup : DupEdge u v A s.adj) (hs : Shape s) (hm : Matching s) (hn : (s.n1 : Int) < INF) :
    ∀ (fuel : Nat) (dist q : List Int) (found : Bool), BfsInv s dist q found →
      bfsLoop A s.matchV fuel (dist, q, found) =
        bfsLoop s.adj s.matchV fuel (dist, q, found) := by
  obtain ⟨_, hother, l1, l2, l3, hA, hB⟩ := hdup
  intro fuel
  induction fuel with
  | zero =>
    intro dist q found _
    cases q with
    | nil => simp [bfsLoop]
    | cons x q => simp [bfsLoop]
  | succ f ih =>
    intro dist q found hi
    cases q with
    | nil => simp [bfsLoop]
    | cons x q =>
      obtain ⟨d2, q2, f2, e, I2, c2, m2, fm2, p2⟩ :=
        bfsScan_spec s hs hm hn x (rd s.adj x) dist q found (fun _ h => h) hi
      have I3 : BfsInv s d2 q2 f2 := by
        refine ⟨I2.len, fun y hy => I2.q_rng y (List.mem_cons_of_mem _ hy), I2.bound, I2.free0,
          ?_, I2.parent, I2.wit⟩
        intro y h0 h1 hy
        rcases I2.closed y h0 h1 hy with h | h
        · rcases List.mem_cons.1 h with rfl | h
          · exact Or.inr p2
          · exact Or.inl h
        · exact Or.inr h
      have hscan : bfsScan s.matchV x (rd A x) (dist, q, found) =
          bfsScan s.matchV x (rd s.adj x) (dist, q, found) := by
        by_cases hxu : x = u
        · subst hxu
          obtain ⟨hxr, hxd⟩ := hi.q_rng x (List.mem_cons_self _ _)
          have hb := (hi.bound x hxr.1 hxr.2 hxd).2
          have key : ∀ a c n : Int, 0 ≤ c → a + c < n → n < INF → a + 1 ≠ INF := by
            intro a c n h1 h2 h3; omega
          have hx1 : rd dist x + 1 ≠ INF := key _ _ _ (Int.ofNat_nonneg _) hb hn
          rw [hA, hB]
          refine bfsScan_dup s.matchV x v l2 l3 l1 dist q found hxd hx1 ?_
          intro w hw hne
          have hwm : w ∈ rd s.adj x := by
            rw [hB]
            simp only [List.mem_append, List.mem_cons] at hw ⊢
            rcases hw with h | h | h
            · exact Or.inl h
            · exact Or.inr (Or.inl h)
            · exact Or.inr (Or.inr (Or.inl h))
          have hwr := hs.adj_rng x w hwm
          rw [hi.len]
          exact (hm.vu w hwr.1 hwr.2 hne).1
        · rw [hother x hxu]
      simp only [bfsLoop, hscan, e]
      exact ih d2 q2 f2 I3

theorem bfs_withAdj {u v : Int} {A : List (List Int)} (s : HopcroftKarp)
    (hdup : DupEdge u v A s.adj) (hs : Shape s) (hm : Matching s) (hn : (s.n1 : Int) < INF) :
    bfs (withAdj A s) = (bfs s).map (fun p => (p.1, withAdj A p.2)) := by
  have h0 : InitInv s (upto s.n1) (List.replicate s.dist.length INF) [] := by
    exact initInv_start s hs
  obtain ⟨d1, q1, e1, I1⟩ := bfsInit_spec s (upto s.n1) _ [] (nodup_upto _)
    (fun x hx => (mem_upto _ _).1 hx) h0
  have hB : BfsInv s d1 q1 false := by
    refine ⟨I1.len, fun x hx => ?_, ?_, ?_, ?_, ?_, fun h => by cases h⟩
    · obtain ⟨a, _, c⟩ := I1.q_rng x hx
      exact ⟨a, by rw [c]; exact ne_of_lt INF_pos⟩
    · intro x a b hx
      obtain ⟨p1, p2⟩ := I1.done x a b (List.not_mem_nil x)
      by_cases hf : rd s.matchU x = NIL
      · obtain ⟨c, d⟩ := p1 hf
        have hq : 0 < q1.length := List.length_pos_of_mem d
        have := I1.cnt
        rw [c]
        constructor
        · exact le_refl _
        · omega
      · exact absurd (p2 hf) hx
    · intro x a b hf
      exact ((I1.done x a b (List.not_mem_nil x)).1 hf).1
    · intro x a b hx
      obtain ⟨p1, p2⟩ := I1.done x a b (List.not_mem_nil x)
      by_cases hf : rd s.matchU x = NIL
      · exact Or.inl (p1 hf).2
      · exact absurd (p2 hf) hx
    · intro x a b hx
      obtain ⟨p1, p2⟩ := I1.done x a b (List.not_mem_nil x)
      by_cases hf : rd s.matchU x = NIL
      · exact Or.inl ⟨(p1 hf).1, hf⟩
      · exact absurd (p2 hf) hx
  have hl := bfsLoop_dup s hdup hs hm hn s.n1 d1 q1 false hB
  have eA : bfs (withAdj A s) =
      match bfsLoop A s.matchV s.n1 (d1, q1, false) with
      | none => none
      | some (dist, found) => some (found, { withAdj A s with dist := dist }) := by
    simp only [bfs, withAdj, e1]
  rw [eA, hl]
  simp only [bfs, e1]
  cases bfsLoop s.adj s.matchV s.n1 (d1, q1, false) with
  | none => rfl
  | some r => rfl

theorem augment_withAdj {u v : Int} {A B : List (List Int)} (hdup : DupEdge u v A B) :
    ∀ (us : List Int) (s : HopcroftKarp) (k : Nat), s.adj = B →
      us.Nodup → (∀ x ∈ us, 0 ≤ x ∧ x < (s.n1 : Int)) → Shape s → Matching s → DistOK s →
      (∀ x ∈ us, rd s.matchU x = NIL → rd s.dist x = 0) →
      augment us (withAdj A s) k = (augment us s k).map (fun p => (withAdj A p.1, p.2)) := by
  intro us
  induction us with
  | nil => intro s k _ _ _ _ _ _ _; rfl
  | cons x us ih =>
    intro s k hadj hnd hrng hs hm hd hfresh
    have hnd' : us.Nodup := (List.nodup_cons.1 hnd).2
    have hune : ∀ y ∈ us, y ≠ x := by
      intro y hy e; subst e; exact (List.nodup_cons.1 hnd).1 hy
    have hur := hrng x (List.mem_cons_self _ _)
    have hrng' : ∀ y ∈ us, 0 ≤ y ∧ y < (s.n1 : Int) :=
      fun y hy => hrng y (List.mem_cons_of_mem _ hy)
    simp only [augment]
    have e1 : (withAdj A s).matchU = s.matchU := rfl
    have e2 : (withAdj A s).n1 = s.n1 := rfl
    rw [e1, e2]
    by_cases hfree : rd s.matchU x = NIL
    · simp only [hfree, if_true]
      have hdu : rd s.dist x = 0 := hfresh x (List.mem_cons_self _ _) hfree
      have hdInf : rd s.dist x ≠ INF := by rw [hdu]; unfold INF; omega
      rw [dfs_withAdj hdup s.n1 s x hadj hs hm hd hur.1 hur.2 hdInf]
      cases hc : dfs s.n1 s x with
      | none => rfl
      | some r =>
        obtain ⟨b, t⟩ := r
        have hp := dfs_post s.n1 s x b t hs hm hd hur.1 hur.2 hdInf hc
        have hst := dfs_post_shape hs hp
        have hmt := dfs_post_matching hm hur.1 hur.2 hfree hp
        have hdt := dfs_post_distOK hd hp
        have hkeepU : ∀ y, rd s.matchU y ≠ NIL → rd t.matchU y ≠ NIL := by
          intro y hy
          cases b with
          | false => rw [(hp.fail rfl).1]; exact hy
          | true => exact (hp.succ rfl).keepU y hy
        have hfresh' : ∀ y ∈ us, rd t.matchU y = NIL → rd t.dist y = 0 := by
          intro y hy hyf
          have hys : rd s.matchU y = NIL := by
            by_contra hne; exact hkeepU y hne hyf
          have hy0 := hfresh y (List.mem_cons_of_mem _ hy) hys
          rw [(hp.frameU y (hune y hy) (by rw [hy0, hdu])).1, hy0]
        have hrng'' : ∀ y ∈ us, 0 ≤ y ∧ y < (t.n1 : Int) := by rw [hp.n1]; exact hrng'
        cases b with
        | true => exact ih t (k + 1) (hp.adj.trans hadj) hnd' hrng'' hst hmt hdt hfresh'
        | false => exact ih t k (hp.adj.trans hadj) hnd' hrng'' hst hmt hdt hfresh'
    · simp only [hfree, if_false]
      exact ih s k hadj hnd' hrng' hs hm hd (fun y hy => hfresh y (List.mem_cons_of_mem _ hy))

theorem rounds_withAdj {u v : Int} {A B : List (List Int)} (hdup : DupEdge u v A B) :
    ∀ (fuel : Nat) (s : HopcroftKarp) (k : Nat), s.adj = B → Shape s → Matching s →
      (s.n1 : Int) < INF →
      rounds fuel (withAdj A s) k = (rounds fuel s k).map (fun p => (withAdj A p.1, p.2)) := by
  intro fuel
  induction fuel with
  | zero => intro s k _ _ _ _; rfl
  | succ f ih =>
    intro s k hadj hs hm hn
    obtain ⟨found, t1, e1, B1⟩ := bfs_spec s hs hm hn
    simp only [rounds]
    rw [bfs_withAdj s (by rw [hadj]; exact hdup) hs hm hn, e1]
    cases found with
    | false => rfl
    | true =>
      have hfresh : ∀ x ∈ upto t1.n1, rd t1.matchU x = NIL → rd t1.dist x = 0 := by
        intro x hx hfree
        rw [B1.n1] at hx
        obtain ⟨a, b⟩ := (mem_upto _ _).1 hx
        exact B1.inv.free0 x a b (by rw [← B1.mU]; exact hfree)
      obtain ⟨t2, k2, e2, P, _⟩ := augment_spec (upto t1.n1) t1 k (nodup_upto _)
        (fun x hx => (mem_upto _ _).1 hx) (B1.shape_after hs) (B1.matching_after hm)
        (B1.distOK_after hn) hfresh
      have e3 := augment_withAdj hdup (upto t1.n1) t1 k (B1.adj.trans hadj) (nodup_upto _)
        (fun x hx => (mem_upto _ _).1 hx) (B1.shape_after hs) (B1.matching_after hm)
        (B1.distOK_after hn) hfresh
      have e4 : (withAdj A t1).n1 = t1.n1 := rfl
      simp only [Option.map_some', e4, e3, e2]
      exact ih t2 k2 (P.adj.trans (B1.adj.trans hadj)) P.shape P.matching
        (by rw [P.n1, B1.n1]; exact hn)

theorem max_matching_withAdj {u v : Int} {A : List (List Int)} (s : HopcroftKarp)
    (hdup : DupEdge u v A s.adj) (hs : Shape s) (hm : Matching s) (hn : (s.n1 : Int) < INF) :
    max_matching (withAdj A s) = (max_matching s).map (fun p => (p.1, withAdj A p.2)) := by
  have e1 : (withAdj A s).n1 = s.n1 := rfl
  have e2 : (withAdj A s).n2 = s.n2 := rfl
  simp only [max_matching, e1, e2]
  rw [rounds_withAdj hdup (min s.n1 s.n2 + 1) s 0 rfl hs hm hn]
  cases rounds (min s.n1 s.n2 + 1) s 0 with
  | none => rfl
  | some r => rfl

theorem rd_adj_add_edge (s : HopcroftKarp) (hs : s.adj.length = s.n1) (a b x : Int) :
    rd (add_edge s a b).adj x = rd s.adj x ++ nbrs s.n1 s.n2 [(a, b)] x := by
  unfold add_edge nbrs
  split
  · rename_i h
    simp only [rd_wr, hs]
    by_cases hax : a = x
    · subst hax
      simp [h.1, h.2.1, h.2.2.1, h.2.2.2, List.filter_cons]
    · simp [hax, List.filter_cons]
  · rename_i h
    have : ¬ (0 ≤ a ∧ a < (s.n1 : Int) ∧ 0 ≤ b ∧ b < (s.n2 : Int) ∧ a = x) :=
      fun h' => h ⟨h'.1, h'.2.1, h'.2.2.1, h'.2.2.2.1⟩
    simp [List.filter_cons, this]

theorem nbrs_append (n1 n2 : Nat) (es fs : List (Int × Int)) (x : Int) :
    nbrs n1 n2 (es ++ fs) x = nbrs n1 n2 es x ++ nbrs n1 n2 fs x := by
  simp [nbrs, List.filter_append]

theorem rd_adj_add_edges (x : Int) : ∀ (es : List (Int × Int)) (s : HopcroftKarp),
    s.adj.length = s.n1 →
    rd (add_edges s es).adj x = rd s.adj x ++ nbrs s.n1 s.n2 es x := by
  intro es
  induction es with
  | nil => intro s _; simp [add_edges, nbrs]
  | cons e es ih =>
    intro s hs
    obtain ⟨f1, f2, _⟩ := add_edge_fields s e.1 e.2
    have hl : (add_edge s e.1 e.2).adj.length = (add_edge s e.1 e.2).n1 := by
      rw [f1, ← hs]
      unfold add_edge
      split
      · simp [length_wr]
      · rfl
    have := ih (add_edge s e.1 e.2) hl
    rw [f1, f2, rd_adj_add_edge s hs] at this
    show rd (add_edges (add_edge s e.1 e.2) es).adj x = _
    rw [this, List.append_assoc, ← nbrs_append]
    rfl

theorem rd_adj_load (n1 n2 : Nat) (es : List (Int × Int)) (x : Int) :
    rd (load n1 n2 es).adj x = nbrs n1 n2 es x := by
  have h := rd_adj_add_edges x es (HopcroftKarp.mk0 n1 n2) (by simp [HopcroftKarp.mk0])
  have h0 : rd (HopcroftKarp.mk0 n1 n2).adj x = [] := by
    by_cases hx : 0 ≤ x ∧ x < (n1 : Int)
    · exact rd_replicate n1 [] x hx.1 hx.2
    · exact rd_outside _ x (by simpa [HopcroftKarp.mk0] using hx)
  rw [h0] at h
  exact h

theorem load_dup (n1 n2 : Nat) (pre post : List (Int × Int)) (u v : Int)
    (hmem : (u, v) ∈ pre) :
    load n1 n2 (pre ++ (u, v) :: post) = load n1 n2 (pre ++ post) ∨
    (load n1 n2 (pre ++ (u, v) :: post) =
        withAdj (load n1 n2 (pre ++ (u, v) :: post)).adj (load n1 n2 (pre ++ post)) ∧
      DupEdge u v (load n1 n2 (pre ++ (u, v) :: post)).adj (load n1 n2 (pre ++ post)).adj) := by
  obtain ⟨s1, _, a1, a2, a3, a4, a5, _⟩ :=
    add_edges_props (pre ++ (u, v) :: post) (HopcroftKarp.mk0 n1 n2) (shape_mk0 n1 n2)
      (matching_mk0 n1 n2)
  obtain ⟨s2, _, b1, b2, b3, b4, b5, _⟩ :=
    add_edges_props (pre ++ post) (HopcroftKarp.mk0 n1 n2) (shape_mk0 n1 n2)
      (matching_mk0 n1 n2)
  by_cases hr : 0 ≤ u ∧ u < (n1 : Int) ∧ 0 ≤ v ∧ v < (n2 : Int)
  · right
    constructor
    · show add_edges _ _ = withAdj (add_edges _ _).adj (add_edges _ _)
      generalize add_edges (HopcroftKarp.mk0 n1 n2) (pre ++ (u, v) :: post) = x at *
      generalize add_edges (HopcroftKarp.mk0 n1 n2) (pre ++ post) = y at *
      cases x
      cases y
      simp only [withAdj] at *
      simp_all
    · obtain ⟨es1, es2, rfl⟩ := List.append_of_mem hmem
      refine ⟨?_, ?_, nbrs n1 n2 es1 u, nbrs n1 n2 es2 u, nbrs n1 n2 post u, ?_, ?_⟩
      · exact s1.adj_len.trans (a1.trans (b1.symm.trans s2.adj_len.symm))
      · intro x hx
        have hx' : ¬ u = x := fun h => hx h.symm
        rw [rd_adj_load, rd_adj_load]
        simp [nbrs, List.filter_append, List.filter_cons, hx']
      · rw [rd_adj_load]
        simp [nbrs, List.filter_append, List.filter_cons, hr.1, hr.2.1, hr.2.2.1, hr.2.2.2]
      · rw [rd_adj_load]
        simp [nbrs, List.filter_append, List.filter_cons, hr.1, hr.2.1, hr.2.2.1, hr.2.2.2]
  · left
    obtain ⟨_, _, c1, c2, _⟩ :=
      add_edges_props pre (HopcroftKarp.mk0 n1 n2) (shape_mk0 n1 n2) (matching_mk0 n1 n2)
    have hno : add_edge (add_edges (HopcroftKarp.mk0 n1 n2) pre) u v =
        add_edges (HopcroftKarp.mk0 n1 n2) pre := by
      unfold add_edge
      rw [c1, c2]
      simp only [HopcroftKarp.mk0]
      rw [if_neg hr]
    simp only [load, add_edges, List.foldl_append, List.foldl_cons] at hno ⊢
    rw [hno]

/-- C12: a parallel edge changes nothing in the result. If the pair `(u, v)` is among
the `add_edge` calls `pre` already made on a fresh matcher (with `n1 < INT_MAX`), then
one more call `add_edge(u, v)` inserted behind them, before the remaining calls `post`,
leaves the list that `max_matching()` returns the same, pair by pair in the same order;
the states left behind differ in `adj` only. -/
theorem parallel_edge_noop (n1 n2 : Nat) (hn : (n1 : Int) < INF)
    (pre post : List (Int × Int)) (u v : Int) (hmem : (u, v) ∈ pre) :
    ∃ r t1 t2, max_matching (load n1 n2 (pre ++ post)) = some (r, t1) ∧
      max_matching (load n1 n2 (pre ++ (u, v) :: post)) = some (r, t2) ∧
      t2 = { t1 with adj := t2.adj } := by
  obtain ⟨hs, hm, e1, _⟩ := load_props n1 n2 (pre ++ post)
  obtain ⟨t, k2, e, _⟩ := max_matching_spec (load n1 n2 (pre ++ post)) hs hm
    (by rw [e1]; exact hn)
  rcases load_dup n1 n2 pre post u v hmem with h | ⟨h1, h2⟩
  · exact ⟨collect t, t, t, e, by rw [h]; exact e, rfl⟩
  · refine ⟨collect t, t, withAdj (load n1 n2 (pre ++ (u, v) :: post)).adj t, e, ?_, rfl⟩
    rw [h1, max_matching_withAdj _ h2 hs hm (by rw [e1]; exact hn), e]
    rfl

theorem parallel_edge_noop_witness :
    ((2 : Nat) : Int) < INF ∧ ((0 : Int), (0 : Int)) ∈ [((0 : Int), (0 : Int)), (0, 1)] ∧
    ∃ r t1 t2, max_matching (load 2 2 ([(0, 0), (0, 1)] ++ [(1, 0)])) = some (r, t1) ∧
      max_matching (load 2 2 ([(0, 0), (0, 1)] ++ (0, 0) :: [(1, 0)])) = some (r, t2) ∧
      t2 = { t1 with adj := t2.adj } :=
  ⟨by decide, by decide,
    parallel_edge_noop 2 2 (by decide) [(0, 0), (0, 1)] [(1, 0)] 0 0 (by decide)⟩

/-! ## Layers never skip: the edge property of `bfs` -/

theorem bfsScan_ord (s : HopcroftKarp) (hs : Shape s) (hm : Matching s)
    (hn : (s.n1 : Int) < INF) (u : Int) :
    ∀ (vs : List Int) (dist q : List Int) (found : Bool), (∀ v ∈ vs, v ∈ rd s.adj u) →
      BfsInv s dist (u :: q) found → BfsOrd s dist (u :: q) →
      ∀ d2 q2 f2, bfsScan s.matchV u vs (dist, q, found) = (d2, q2, f2) →
        BfsOrd s d2 (u :: q2) ∧
        (∀ v ∈ vs, rd s.matchV v ≠ NIL → rd d2 (rd s.matchV v) ≤ rd d2 u + 1) := by
  intro vs
  induction vs with
  | nil =>
    intro dist q found _ _ ho d2 q2 f2 h
    simp only [bfsScan, Prod.mk.injEq] at h
    obtain ⟨rfl, rfl, rfl⟩ := h
    exact ⟨ho, fun v hv => absurd hv (List.not_mem_nil v)⟩
  | cons v vs ih =>
    intro dist q found hvs hi ho d2 q2 f2 h
    have hv : v ∈ rd s.adj u := hvs v (List.mem_cons_self _ _)
    have hvr := hs.adj_rng u v hv
    have hvs' : ∀ v' ∈ vs, v' ∈ rd s.adj u := fun v' h' => hvs v' (List.mem_cons_of_mem _ h')
    obtain ⟨hur, hud⟩ := hi.q_rng u (List.mem_cons_self _ _)
    obtain ⟨d1, q1, f1, e1, I1, _, m1, _, _⟩ :=
      bfsScan_spec s hs hm hn u [v] dist q found
        (fun v' h' => by rw [List.mem_singleton.1 h']; exact hv) hi
    have hb := hi.bound u hur.1 hur.2 hud
    have hne : rd dist u + 1 ≠ INF := by
      have key : ∀ a c n : Int, 0 ≤ c → a + c < n → n < INF → a + 1 ≠ INF := by
        intro a c n h1 h2 h3; omega
      exact key _ _ _ (Int.ofNat_nonneg _) hb.2 hn
    simp only [bfsScan] at h e1
    by_cases hw : rd s.matchV v = NIL
    · simp only [hw, if_true] at h e1
      simp only [Prod.mk.injEq] at e1
      obtain ⟨rfl, rfl, rfl⟩ := e1
      obtain ⟨O2, p2⟩ := ih dist q true hvs' I1 ho d2 q2 f2 h
      refine ⟨O2, ?_⟩
      intro v' hv' hne'
      rcases List.mem_cons.1 hv' with rfl | hv'
      · exact absurd hw hne'
      · exact p2 v' hv' hne'
    · simp only [hw, if_false] at h e1
      obtain ⟨hwr, _⟩ := hm.vu v hvr.1 hvr.2 hw
      by_cases hdw : rd dist (rd s.matchV v) = INF
      · simp only [hdw, if_true] at h e1
        simp only [Prod.mk.injEq] at e1
        obtain ⟨rfl, rfl, rfl⟩ := e1
        generalize hwdef : rd s.matchV v = w at hw hwr hdw h I1 m1
        have hwlen : w < (dist.length : Int) := by rw [hi.len]; exact hwr.2
        have hsame : ∀ x, rd dist x ≠ INF → rd (wr dist w (rd dist u + 1)) x = rd dist x := by
          intro x hx
          have : w ≠ x := by rintro rfl; exact hx hdw
          exact rd_wr_ne _ _ _ _ this
        have hnew : rd (wr dist w (rd dist u + 1)) w = rd dist u + 1 :=
          rd_wr_same _ _ _ hwr.1 hwlen
        have hhead : ∀ x ∈ u :: q, rd dist u ≤ rd dist x := by
          intro x hx
          rcases List.mem_cons.1 hx with rfl | hx
          · exact le_refl _
          · exact (List.pairwise_cons.1 ho.sorted).1 x hx
        have hqlab : ∀ x ∈ u :: q, rd dist x ≠ INF := fun x hx => (hi.q_rng x hx).2
        have ho' : BfsOrd s (wr dist w (rd dist u + 1)) (u :: (q ++ [w])) := by
          refine ⟨?_, ?_, ?_⟩
          · intro y h0 h1 hy x hx
            have hx' : x ∈ u :: q ∨ x = w := by
              rcases List.mem_cons.1 hx with h' | h'
              · exact Or.inl (h' ▸ List.mem_cons_self _ _)
              · rcases List.mem_append.1 h' with h' | h'
                · exact Or.inl (List.mem_cons_of_mem _ h')
                · exact Or.inr (List.mem_singleton.1 h')
            by_cases hyw : y = w
            · subst hyw
              rw [hnew]
              rcases hx' with hx' | hx'
              · rw [hsame x (hqlab x hx')]
                have := hhead x hx'
                omega
              · rw [hx', hnew]; omega
            · have hyw' : w ≠ y := fun h => hyw h.symm
              rw [rd_wr_ne _ _ _ _ hyw'] at hy ⊢
              rcases hx' with hx' | hx'
              · rw [hsame x (hqlab x hx')]
                exact ho.ord y h0 h1 hy x hx'
              · rw [hx', hnew]
                have := ho.ord y h0 h1 hy u (List.mem_cons_self _ _)
                omega
          · have hold : (u :: q).Pairwise
                (fun a b => rd (wr dist w (rd dist u + 1)) a ≤ rd (wr dist w (rd dist u + 1)) b) := by
              refine List.Pairwise.imp_of_mem ?_ ho.sorted
              intro a b ha hb' hab
              rw [hsame a (hqlab a ha), hsame b (hqlab b hb')]
              exact hab
            have : u :: (q ++ [w]) = (u :: q) ++ [w] := rfl
            rw [this, List.pairwise_append]
            refine ⟨hold, List.pairwise_singleton _ _, ?_⟩
            intro a ha b hb'
            rw [List.mem_singleton.1 hb', hnew, hsame a (hqlab a ha)]
            exact ho.ord a (hi.q_rng a ha).1.1 (hi.q_rng a ha).1.2 (hqlab a ha) u
              (List.mem_cons_self _ _)
          · intro x h0 h1 hx
            by_cases hxw : x = w
            · left; rw [hxw]; simp
            · have hxw' : w ≠ x := fun h => hxw h.symm
              rw [rd_wr_ne _ _ _ _ hxw'] at hx ⊢
              rcases ho.near x h0 h1 hx with h' | h'
              · left
                rcases List.mem_cons.1 h' with rfl | h'
                · simp
                · simp [h']
              · right
                intro v' hv' hne'
                have hle := h' v' hv' hne'
                have hbx := (hi.bound x h0 h1 hx).2
                have hp : rd dist (rd s.matchV v') ≠ INF := by
                  have key : ∀ a b c n : Int, 0 ≤ c → b + c < n → n < INF → a ≤ b + 1 →
                      a ≠ INF := by
                    intro a b c n h1 h2 h3 h4; omega
                  exact key _ _ _ _ (Int.ofNat_nonneg _) hbx hn hle
                rw [hsame _ hp]
                exact hle
        obtain ⟨O2, p2⟩ := ih _ _ found hvs' I1 ho' d2 q2 f2 h
        obtain ⟨d3, q3, f3, e3, _, _, m3, _, _⟩ :=
          bfsScan_spec s hs hm hn u vs (wr dist w (rd dist u + 1)) (q ++ [w]) found hvs' I1
        rw [h] at e3
        simp only [Prod.mk.injEq] at e3
        obtain ⟨rfl, rfl, rfl⟩ := e3
        refine ⟨O2, ?_⟩
        intro v' hv' hne'
        rcases List.mem_cons.1 hv' with rfl | hv'
        · rw [hwdef, m3 w (by rw [hnew]; exact hne), hnew,
            m3 u (by rw [hsame u hud]; exact hud), hsame u hud]
        · exact p2 v' hv' hne'
      · simp only [hdw, if_false] at h e1
        simp only [Prod.mk.injEq] at e1
        obtain ⟨rfl, rfl, rfl⟩ := e1
        obtain ⟨O2, p2⟩ := ih dist q found hvs' hi ho d2 q2 f2 h
        obtain ⟨d3, q3, f3, e3, _, _, m3, _, _⟩ :=
          bfsScan_spec s hs hm hn u vs dist q found hvs' hi
        rw [h] at e3
        simp only [Prod.mk.injEq] at e3
        obtain ⟨rfl, rfl, rfl⟩ := e3
        refine ⟨O2, ?_⟩
        intro v' hv' hne'
        rcases List.mem_cons.1 hv' with rfl | hv'
        · rw [m3 _ hdw, m3 u hud]
          exact ho.ord _ hwr.1 hwr.2 hdw u (List.mem_cons_self _ _)
        · exact p2 v' hv' hne'

theorem bfsLoop_ord (s : HopcroftKarp) (hs : Shape s) (hm : Matching s)
    (hn : (s.n1 : Int) < INF) :
    ∀ (fuel : Nat) (dist q : List Int) (found : Bool), BfsInv s dist q found →
      BfsOrd s dist q →
      ∀ d2 f2, bfsLoop s.adj s.matchV fuel (dist, q, found) = some (d2, f2) →
        BfsOrd s d2 [] := by
  intro fuel
  induction fuel with
  | zero =>
    intro dist q found _ ho d2 f2 h
    cases q with
    | nil =>
      simp only [bfsLoop, Option.some.injEq, Prod.mk.injEq] at h
      rw [← h.1]; exact ho
    | cons u q => simp [bfsLoop] at h
  | succ f ih =>
    intro dist q found hi ho d2 f2 h
    cases q with
    | nil =>
      simp only [bfsLoop, Option.some.injEq, Prod.mk.injEq] at h
      rw [← h.1]; exact ho
    | cons u q =>
      obtain ⟨d1, q1, f1, e, I2, c2, m2, fm2, p2⟩ :=
        bfsScan_spec s hs hm hn u (rd s.adj u) dist q found (fun _ h => h) hi
      obtain ⟨O2, n2⟩ := bfsScan_ord s hs hm hn u (rd s.adj u) dist q found (fun _ h => h) hi ho
        d1 q1 f1 e
      simp only [bfsLoop, e] at h
      have I3 : BfsInv s d1 q1 f1 := by
        refine ⟨I2.len, fun x hx => I2.q_rng x (List.mem_cons_of_mem _ hx), I2.bound, I2.free0,
          ?_, I2.parent, I2.wit⟩
        intro x h0 h1 hx
        rcases I2.closed x h0 h1 hx with h | h
        · rcases List.mem_cons.1 h with rfl | h
          · exact Or.inr p2
          · exact Or.inl h
        · exact Or.inr h
      have O3 : BfsOrd s d1 q1 := by
        refine ⟨fun y h0 h1 hy x hx => O2.ord y h0 h1 hy x (List.mem_cons_of_mem _ hx),
          (List.pairwise_cons.1 O2.sorted).2, ?_⟩
        intro x h0 h1 hx
        rcases O2.near x h0 h1 hx with h | h
        · rcases List.mem_cons.1 h with rfl | h
          · exact Or.inr n2
          · exact Or.inl h
        · exact Or.inr h
      exact ih d1 q1 f1 I3 O3 d2 f2 h

/-- After `bfs()` the partner of every neighbour of a labelled vertex is labelled, at
most one layer deeper. -/
theorem bfs_near (s : HopcroftKarp) (hs : Shape s) (hm : Matching s)
    (hn : (s.n1 : Int) < INF) (found : Bool) (t : HopcroftKarp)
    (h : bfs s = some (found, t)) :
    ∀ u, 0 ≤ u → u < (s.n1 : Int) → rd t.dist u ≠ INF → ∀ v ∈ rd s.adj u,
      rd s.matchV v ≠ NIL → rd t.dist (rd s.matchV v) ≤ rd t.dist u + 1 := by
  obtain ⟨d1, q1, e1, I1⟩ := bfsInit_spec s (upto s.n1) _ [] (nodup_upto _)
    (fun x hx => (mem_upto _ _).1 hx) (initInv_start s hs)
  have hB : BfsInv s d1 q1 false := by
    refine ⟨I1.len, fun x hx => ?_, ?_, ?_, ?_, ?_, fun h => by cases h⟩
    · obtain ⟨a, _, c⟩ := I1.q_rng x hx
      exact ⟨a, by rw [c]; exact ne_of_lt INF_pos⟩
    · intro x a b hx
      obtain ⟨p1, p2⟩ := I1.done x a b (List.not_mem_nil x)
      by_cases hf : rd s.matchU x = NIL
      · obtain ⟨c, d⟩ := p1 hf
        have hq : 0 < q1.length := List.length_pos_of_mem d
        have := I1.cnt
        rw [c]
        constructor
        · exact le_refl _
        · omega
      · exact absurd (p2 hf) hx
    · intro x a b hf
      exact ((I1.done x a b (List.not_mem_nil x)).1 hf).1
    · intro x a b hx
      obtain ⟨p1, p2⟩ := I1.done x a b (List.not_mem_nil x)
      by_cases hf : rd s.matchU x = NIL
      · exact Or.inl (p1 hf).2
      · exact absurd (p2 hf) hx
    · intro x a b hx
      obtain ⟨p1, p2⟩ := I1.done x a b (List.not_mem_nil x)
      by_cases hf : rd s.matchU x = NIL
      · exact Or.inl ⟨(p1 hf).1, hf⟩
      · exact absurd (p2 hf) hx
  have hO : BfsOrd s d1 q1 := by
    have hz : ∀ x ∈ q1, rd d1 x = 0 := fun x hx => (I1.q_rng x hx).2.2
    have hl : ∀ y, 0 ≤ y → y < (s.n1 : Int) → rd d1 y ≠ INF → rd d1 y = 0 ∧ y ∈ q1 := by
      intro y a b hy
      obtain ⟨p1, p2⟩ := I1.done y a b (List.not_mem_nil y)
      by_cases hf : rd s.matchU y = NIL
      · exact p1 hf
      · exact absurd (p2 hf) hy
    refine ⟨?_, ?_, ?_⟩
    · intro y a b hy x hx
      rw [(hl y a b hy).1, hz x hx]; omega
    · refine List.Pairwise.imp_of_mem ?_ (List.pairwise_of_forall (fun _ _ => trivial) :
        q1.Pairwise (fun _ _ => True))
      intro a b ha hb _
      rw [hz a ha, hz b hb]
    · intro y a b hy
      exact Or.inl (hl y a b hy).2
  simp only [bfs, e1] at h
  cases hl : bfsLoop s.adj s.matchV s.n1 (d1, q1, false) with
  | none => rw [hl] at h; cases h
  | some r =>
    obtain ⟨d2, f2⟩ := r
    rw [hl] at h
    simp only [Option.some.injEq, Prod.mk.injEq] at h
    have O := bfsLoop_ord s hs hm hn s.n1 d1 q1 false hB hO d2 f2 hl
    have ed : t.dist = d2 := by rw [← h.2]
    intro u h0 h1 hu v hv hne
    rw [ed] at hu ⊢
    rcases O.near u h0 h1 hu with h' | h'
    · exact absurd h' (List.not_mem_nil u)
    · exact h' v hv hne

/-! ## A round advances the shortest augmenting path -/

theorem dfsScan_marks
    (call : HopcroftKarp → Int → Option (Bool × HopcroftKarp))
    (hcallF : ∀ s' w t, call s' w = some (false, t) → SameGood s' t ∧ ¬ Good s' w)
    (hcallT : ∀ s' w t, call s' w = some (true, t) →
      ∀ x, rd t.dist x = rd s'.dist x ∨ ¬ Good s' x)
    (s : HopcroftKarp) (u : Int) :
    ∀ vs : List Int, ∀ si, SameGood s si →
      ∀ t, dfsScan call u vs si = some (true, t) →
        ∀ x, rd t.dist x = rd s.dist x ∨ ¬ Good s x := by
  intro vs
  induction vs with
  | nil =>
    intro si _ t h
    simp [dfsScan] at h
  | cons v vs ih =>
    intro si hi t h
    simp only [dfsScan] at h
    by_cases hw : rd si.matchV v = NIL
    · simp only [hw, if_true, Option.some.injEq, Prod.mk.injEq, true_and] at h
      subst h
      exact hi.dist
    · simp only [hw, if_false] at h
      by_cases hdw : rd si.dist (rd si.matchV v) = rd si.dist u + 1
      · simp only [hdw, if_true] at h
        cases hc : call si (rd si.matchV v) with
        | none => simp [hc] at h
        | some r =>
          obtain ⟨b', t'⟩ := r
          cases b' with
          | true =>
            simp only [hc, Option.some.injEq, Prod.mk.injEq, true_and] at h
            subst h
            intro x
            rcases hcallT si _ t' hc x with e | e
            · rcases hi.dist x with e' | e'
              · exact Or.inl (e.trans e')
              · exact Or.inr e'
            · exact Or.inr (fun hg => e (hi.pres hg))
          | false =>
            simp only [hc] at h
            exact ih t' (hi.trans (hcallF si _ t' hc).1) t h
      · simp only [hdw, if_false] at h
        exact ih si hi t h

/-- A call `dfs(u)` changes distance labels only at vertices that are not `Good`. -/
theorem dfs_marks : ∀ (fuel : Nat) (s : HopcroftKarp) (u : Int) (b : Bool) (t : HopcroftKarp),
    dfs fuel s u = some (b, t) → ∀ x, rd t.dist x = rd s.dist x ∨ ¬ Good s x := by
  intro fuel
  induction fuel with
  | zero => intro s u b t h; simp [dfs] at h
  | succ f ih =>
    intro s u b t h
    cases b with
    | false => exact (dfs_fail (f + 1) s u t h).1.dist
    | true =>
      simp only [dfs] at h
      exact dfsScan_marks (dfs f) (dfs_fail f) (fun s' w t' h' => ih s' w true t' h') s u
        (rd s.adj u) s (SameGood.same s) t h

theorem dfsScan_layer
    (call : HopcroftKarp → Int → Option (Bool × HopcroftKarp))
    (hpost : ∀ s' w b t, Shape s' → Matching s' → DistOK s' → 0 ≤ w → w < (s'.n1 : Int) →
      rd s'.dist w ≠ INF → call s' w = some (b, t) → DfsPost s' w b t)
    (hlayer : ∀ s' w b t, Shape s' → Matching s' → DistOK s' → 0 ≤ w → w < (s'.n1 : Int) →
      rd s'.dist w ≠ INF → call s' w = some (b, t) → LayerPost s' t)
    (s : HopcroftKarp) (u : Int) (hs : Shape s) (hm : Matching s) (hd : DistOK s)
    (hu0 : 0 ≤ u) (hu1 : u < (s.n1 : Int)) (hdu : rd s.dist u ≠ INF) :
    ∀ vs : List Int, (∀ v ∈ vs, v ∈ rd s.adj u) → ∀ si, ScanInv s u si →
      ∀ b t, dfsScan call u vs si = some (b, t) → LayerPost s t := by
  have hdlt : rd s.dist u + 1 < INF := by
    rcases hd.2 u hu0 hu1 with e | e
    · exact absurd e hdu
    · have := hd.1; omega
  intro vs
  induction vs with
  | nil =>
    intro _ si hi b t h
    simp only [dfsScan, Option.some.injEq, Prod.mk.injEq] at h
    obtain ⟨_, rfl⟩ := h
    intro y _
    exact Or.inl (by rw [← hi.mV])
  | cons v vs ih =>
    intro hvs si hi b t h
    have hv : v ∈ rd s.adj u := hvs v (List.mem_cons_self _ _)
    have hvr := hs.adj_rng u v hv
    have hvs' : ∀ v' ∈ vs, v' ∈ rd s.adj u := fun v' h' => hvs v' (List.mem_cons_of_mem _ h')
    have hdu' : rd si.dist u = rd s.dist u := hi.low u (le_refl _)
    simp only [dfsScan] at h
    by_cases hw : rd si.matchV v = NIL
    · simp only [hw, if_true, Option.some.injEq, Prod.mk.injEq] at h
      obtain ⟨_, rfl⟩ := h
      intro y hy
      left
      have hyv : v ≠ y := by
        rintro rfl
        rw [hi.mV] at hw
        exact hy hw
      show rd (wr si.matchV v u) y = rd s.matchV y
      rw [rd_wr_ne _ _ _ _ hyv, hi.mV]
    · simp only [hw, if_false] at h
      have hwS : rd s.matchV v ≠ NIL := by rw [← hi.mV]; exact hw
      obtain ⟨hwr, _⟩ := hm.vu v hvr.1 hvr.2 hwS
      rw [← hi.mV] at hwr
      by_cases hdw : rd si.dist (rd si.matchV v) = rd si.dist u + 1
      · simp only [hdw, if_true] at h
        have hwInf : rd si.dist (rd si.matchV v) ≠ INF := by rw [hdw, hdu']; omega
        have hwr1 : rd si.matchV v < (si.n1 : Int) := by rw [hi.n1]; exact hwr.2
        cases hc : call si (rd si.matchV v) with
        | none => simp [hc] at h
        | some r =>
          obtain ⟨b', t'⟩ := r
          have hp := hpost si _ b' t' (hi.keeps_shape hs) (hi.keeps_matching hm)
            (hi.keeps_distOK hd) hwr.1 hwr1 hwInf hc
          have hl := hlayer si _ b' t' (hi.keeps_shape hs) (hi.keeps_matching hm)
            (hi.keeps_distOK hd) hwr.1 hwr1 hwInf hc
          cases b' with
          | false =>
            simp only [hc] at h
            exact ih hvs' t' (hi.step hp hdw) b t h
          | true =>
            simp only [hc, Option.some.injEq, Prod.mk.injEq] at h
            obtain ⟨_, rfl⟩ := h
            intro y hy
            show rd (wr t'.matchV v u) y = rd s.matchV y ∨ _
            by_cases hyv : v = y
            · subst hyv
              right
              have hlen : v < (t'.matchV.length : Int) := by
                rw [hp.mV_len, hi.mV, hs.mV_len]; exact hvr.2
              show rd s.dist (rd (wr t'.matchV v u) v) ≠ INF ∧
                rd s.dist (rd (wr t'.matchV v u) v) + 1 < INF ∧
                rd s.dist (rd s.matchV v) = rd s.dist (rd (wr t'.matchV v u) v) + 1
              rw [rd_wr_same _ _ _ hvr.1 hlen]
              refine ⟨hdu, hdlt, ?_⟩
              have e1 : rd si.dist (rd s.matchV v) = rd s.dist u + 1 := by
                rw [← hi.mV, hdw, hdu']
              rcases hi.dist_mono (rd s.matchV v) with e | e
              · rw [← e, e1]
              · rw [e] at e1; omega
            · show rd (wr t'.matchV v u) y = rd s.matchV y ∨
                (rd s.dist (rd (wr t'.matchV v u) y) ≠ INF ∧
                rd s.dist (rd (wr t'.matchV v u) y) + 1 < INF ∧
                rd s.dist (rd s.matchV y) = rd s.dist (rd (wr t'.matchV v u) y) + 1)
              rw [rd_wr_ne _ _ _ _ hyv]
              rcases hl y (by rw [hi.mV]; exact hy) with e | ⟨a1, a2, a3⟩
              · left; rw [e, hi.mV]
              · right
                rw [hi.mV] at a3
                have c1 : rd si.dist (rd t'.matchV y) = rd s.dist (rd t'.matchV y) := by
                  rcases hi.dist_mono (rd t'.matchV y) with e | e
                  · exact e
                  · exact absurd e a1
                have c2 : rd si.dist (rd s.matchV y) = rd s.dist (rd s.matchV y) := by
                  rcases hi.dist_mono (rd s.matchV y) with e | e
                  · exact e
                  · rw [e] at a3; omega
                rw [c1] at a1 a2 a3
                rw [c2] at a3
                exact ⟨a1, a2, a3⟩
      · simp only [hdw, if_false] at h
        exact ih hvs' si hi b t h

theorem dfs_layer : ∀ (fuel : Nat) (s : HopcroftKarp) (u : Int) (b : Bool) (t : HopcroftKarp),
    Shape s → Matching s → DistOK s → 0 ≤ u → u < (s.n1 : Int) → rd s.dist u ≠ INF →
    dfs fuel s u = some (b, t) → LayerPost s t := by
  intro fuel
  induction fuel with
  | zero => intro s u b t _ _ _ _ _ _ h; simp [dfs] at h
  | succ f ih =>
    intro s u b t hs hm hd hu0 hu1 hdu h
    simp only [dfs] at h
    exact dfsScan_layer (dfs f) (fun s' w b t => dfs_post f s' w b t)
      (fun s' w b t a1 a2 a3 a4 a5 a6 a7 => ih s' w b t a1 a2 a3 a4 a5 a6 a7)
      s u hs hm hd hu0 hu1 hdu (rd s.adj u) (fun _ h => h) s (ScanInv.init s u) b t h

theorem Later.start (D : List Int) (c : HopcroftKarp) : Later D c c :=
  ⟨rfl, fun _ h => h, fun _ h => h, fun _ _ => Or.inl rfl⟩

theorem Later.then {D : List Int} {c t r : HopcroftKarp} (h1 : Later D c t)
    (h2 : Later D t r) : Later D c r := by
  refine ⟨h2.adj.trans h1.adj, fun x hx => h2.keepU x (h1.keepU x hx),
    fun y hy => h2.keepV y (h1.keepV y hy), ?_⟩
  intro y hy
  rcases h1.layer y hy with e1 | e1
  · rcases h2.layer y (h1.keepV y hy) with e2 | e2
    · exact Or.inl (e2.trans e1)
    · right; rw [← e1]; exact e2
  · rcases h2.layer y (h1.keepV y hy) with e2 | e2
    · right; rw [e2]; exact e1
    · right; exact lt_trans e2 e1

theorem dfs_later (D : List Int) (c c1 : HopcroftKarp) (u : Int) (b : Bool)
    (hs : Shape c) (hm : Matching c) (hd : DistOK c)
    (hD : ∀ x, rd c.dist x = rd D x ∨ rd c.dist x = INF)
    (hu0 : 0 ≤ u) (hu1 : u < (c.n1 : Int)) (hdu : rd c.dist u ≠ INF)
    (h : dfs c.n1 c u = some (b, c1)) : Later D c c1 := by
  have hp := dfs_post c.n1 c u b c1 hs hm hd hu0 hu1 hdu h
  have hl := dfs_layer c.n1 c u b c1 hs hm hd hu0 hu1 hdu h
  refine ⟨hp.adj, ?_, ?_, ?_⟩
  · intro x hx
    cases b with
    | false => rw [(hp.fail rfl).1]; exact hx
    | true => exact (hp.succ rfl).keepU x hx
  · intro x hx
    cases b with
    | false => rw [(hp.fail rfl).2.1]; exact hx
    | true => exact (hp.succ rfl).keepV x hx
  · intro y hy
    rcases hl y hy with e | ⟨a1, a2, a3⟩
    · exact Or.inl e
    · right
      have c1' : rd c.dist (rd c1.matchV y) = rd D (rd c1.matchV y) := by
        rcases hD (rd c1.matchV y) with e | e
        · exact e
        · exact absurd e a1
      have c2' : rd c.dist (rd c.matchV y) = rd D (rd c.matchV y) := by
        rcases hD (rd c.matchV y) with e | e
        · exact e
        · rw [e] at a3; omega
      rw [← c1', ← c2', a3]
      omega

theorem goodEnd_good {D : List Int} {s0 c t : HopcroftKarp} (L0 : Later D s0 c)
    (L1 : Later D c t) (J : ∀ x, GoodEnd D s0 t x → rd c.dist x = rd D x) :
    ∀ x, GoodEnd D s0 t x → Good c x := by
  intro x hx
  induction hx with
  | free u v hv hf =>
    refine Good.free u v (by rw [← L1.adj]; exact hv) ?_
    by_contra hne
    exact L1.keepV v hne hf
  | step u v hv hne heq hD hg ih =>
    have hne0 : rd s0.matchV v ≠ NIL := by rw [← heq]; exact hne
    have hc : rd c.matchV v = rd s0.matchV v := by
      rcases L0.layer v hne0 with e | e
      · exact e
      · exfalso
        rcases L1.layer v (L0.keepV v hne0) with e' | e'
        · rw [← e', heq] at e; exact lt_irrefl _ e
        · rw [heq] at e'; exact lt_irrefl _ (lt_trans e e')
    have hct : rd c.matchV v = rd t.matchV v := hc.trans heq.symm
    refine Good.step u v (by rw [← L1.adj]; exact hv) (by rw [hct]; exact hne) ?_
      (by rw [hct]; exact ih)
    rw [hct, J _ hg, J u (GoodEnd.step u v hv hne heq hD hg), hD]

theorem augment_later (D : List Int) (s0 : HopcroftKarp) :
    ∀ (us : List Int) (c : HopcroftKarp) (k : Nat) (t : HopcroftKarp) (k2 : Nat),
      us.Nodup → (∀ x ∈ us, 0 ≤ x ∧ x < (c.n1 : Int)) → Shape c → Matching c → DistOK c →
      (∀ x ∈ us, rd c.matchU x = NIL → rd c.dist x = 0) →
      (∀ x, rd c.dist x = rd D x ∨ rd c.dist x = INF) →
      augment us c k = some (t, k2) →
      Later D c t ∧
      (Later D s0 c → (∀ x, GoodEnd D s0 t x → rd c.dist x = rd D x) →
        ∀ u ∈ us, rd t.matchU u = NIL → ¬ GoodEnd D s0 t u) := by
  intro us
  induction us with
  | nil =>
    intro c k t k2 _ _ _ _ _ _ _ h
    simp only [augment, Option.some.injEq, Prod.mk.injEq] at h
    obtain ⟨rfl, _⟩ := h
    exact ⟨Later.start D c, fun _ _ u hu => absurd hu (List.not_mem_nil u)⟩
  | cons u us ih =>
    intro c k t k2 hnd hrng hs hm hd hfresh hD h
    have hnd' : us.Nodup := (List.nodup_cons.1 hnd).2
    have hune : ∀ x ∈ us, x ≠ u := by
      intro x hx e; subst e; exact (List.nodup_cons.1 hnd).1 hx
    have hur := hrng u (List.mem_cons_self _ _)
    have hrng' : ∀ x ∈ us, 0 ≤ x ∧ x < (c.n1 : Int) :=
      fun x hx => hrng x (List.mem_cons_of_mem _ hx)
    simp only [augment] at h
    by_cases hfree : rd c.matchU u = NIL
    · simp only [hfree, if_true] at h
      have hdu : rd c.dist u = 0 := hfresh u (List.mem_cons_self _ _) hfree
      have hdInf : rd c.dist u ≠ INF := by rw [hdu]; unfold INF; omega
      cases hc : dfs c.n1 c u with
      | none => simp [hc] at h
      | some r =>
        obtain ⟨b, c1⟩ := r
        have hp := dfs_post c.n1 c u b c1 hs hm hd hur.1 hur.2 hdInf hc
        have hst := dfs_post_shape hs hp
        have hmt := dfs_post_matching hm hur.1 hur.2 hfree hp
        have hdt := dfs_post_distOK hd hp
        have hL := dfs_later D c c1 u b hs hm hd hD hur.1 hur.2 hdInf hc
        have hfresh' : ∀ x ∈ us, rd c1.matchU x = NIL → rd c1.dist x = 0 := by
          intro x hx hxf
          have hxs : rd c.matchU x = NIL := by
            by_contra hne; exact hL.keepU x hne hxf
          have hx0 := hfresh x (List.mem_cons_of_mem _ hx) hxs
          rw [(hp.frameU x (hune x hx) (by rw [hx0, hdu])).1, hx0]
        have hrng'' : ∀ x ∈ us, 0 ≤ x ∧ x < (c1.n1 : Int) := by rw [hp.n1]; exact hrng'
        have hD' : ∀ x, rd c1.dist x = rd D x ∨ rd c1.dist x = INF := by
          intro x
          rcases hp.dist_mono x with e | e
          · rw [e]; exact hD x
          · exact Or.inr e
        have hrest : ∃ k', augment us c1 k' = some (t, k2) := by
          cases b with
          | true => exact ⟨k + 1, by simpa [hc] using h⟩
          | false => exact ⟨k, by simpa [hc] using h⟩
        obtain ⟨k', hk'⟩ := hrest
        obtain ⟨L1, rest⟩ := ih c1 k' t k2 hnd' hrng'' hst hmt hdt hfresh' hD' hk'
        refine ⟨hL.then L1, ?_⟩
        intro L0 J
        have hgood := goodEnd_good L0 (hL.then L1) J
        have J' : ∀ x, GoodEnd D s0 t x → rd c1.dist x = rd D x := by
          intro x hx
          rcases dfs_marks c.n1 c u b c1 hc x with e | e
          · rw [e]; exact J x hx
          · exact absurd (hgood x hx) e
        intro u' hu' hf' hg'
        rcases List.mem_cons.1 hu' with rfl | hu'
        · cases b with
          | true => exact L1.keepU u' (hp.succ rfl).new_ne hf'
          | false => exact (dfs_fail c.n1 c u' c1 hc).2 (hgood u' hg')
        · exact rest (L0.then hL) J' u' hu' hf' hg'
    · simp only [hfree, if_false] at h
      obtain ⟨L1, rest⟩ := ih c k t k2 hnd' hrng' hs hm hd
        (fun x hx => hfresh x (List.mem_cons_of_mem _ hx)) hD h
      refine ⟨L1, ?_⟩
      intro L0 J u' hu' hf' hg'
      rcases List.mem_cons.1 hu' with rfl | hu'
      · exact hfree (by by_contra hne; exact L1.keepU u' hne hf')
      · exact rest L0 J u' hu' hf' hg'

theorem AltTail.length_pos {s : HopcroftKarp} {x : Int} {us : List Int}
    (h : AltTail s x us) : 0 < us.length := by
  cases h <;> simp

theorem tree_path {s : HopcroftKarp} {D : List Int} {found : Bool}
    (I : BfsInv s D [] found) :
    ∀ (n : Nat) (x : Int) (us : List Int), 0 ≤ x → x < (s.n1 : Int) → rd D x = (n : Int) →
      rd D x ≠ INF → AltTail s x us → (∀ z ∈ us, rd D x ≤ rd D z) → us.Nodup →
      ∃ us', AugWalk s us' ∧ us'.Nodup ∧ us'.length = us.length + n := by
  intro n
  induction n with
  | zero =>
    intro x us h0 h1 hx hne ht _ hnd
    rcases I.parent x h0 h1 hne with ⟨_, hf⟩ | ⟨p, v, hp, hpd, _, _, e⟩
    · exact ⟨us, ⟨x, h0, h1, hf, ht⟩, hnd, rfl⟩
    · have := (I.bound p hp.1 hp.2 hpd).1
      rw [hx] at e
      simp at e
      omega
  | succ n ih =>
    intro x us h0 h1 hx hne ht hge hnd
    rcases I.parent x h0 h1 hne with ⟨e, _⟩ | ⟨p, v, hp, hpd, hv, hmv, e⟩
    · rw [hx] at e
      push_cast at e
      omega
    · have hpn : rd D p = (n : Int) := by
        rw [hx] at e
        push_cast at e
        omega
      have hxne : rd s.matchV v ≠ NIL := by rw [hmv]; exact NIL_ne_of_nonneg h0
      have ht' : AltTail s p (p :: us) := AltTail.cons p v us hv hxne (by rw [hmv]; exact ht)
      have hge' : ∀ z ∈ p :: us, rd D p ≤ rd D z := by
        intro z hz
        rcases List.mem_cons.1 hz with rfl | hz
        · exact le_refl _
        · have := hge z hz
          omega
      have hnd' : (p :: us).Nodup := by
        refine List.nodup_cons.2 ⟨?_, hnd⟩
        intro hin
        have := hge p hin
        omega
      obtain ⟨us', a, b, c⟩ := ih p (p :: us) hp.1 hp.2 hpn hpd ht' hge' hnd'
      refine ⟨us', a, b, ?_⟩
      rw [c, List.length_cons]
      omega

theorem tail_short {D : List Int} {s0 t : HopcroftKarp} (L : Later D s0 t)
    (hst : Shape t) (hmt : Matching t) (hn1 : t.n1 = s0.n1) (hn : (s0.n1 : Int) < INF)
    (hD : ∀ x, 0 ≤ x → x < (s0.n1 : Int) → rd D x ≠ INF → rd D x < (s0.n1 : Int))
    (hnear : ∀ u, 0 ≤ u → u < (s0.n1 : Int) → rd D u ≠ INF → ∀ v ∈ rd s0.adj u,
      rd s0.matchV v ≠ NIL → rd D (rd s0.matchV v) ≤ rd D u + 1) :
    ∀ (x : Int) (us : List Int), AltTail t x us → 0 ≤ x → x < (s0.n1 : Int) → rd D x ≠ INF →
      (∃ y, (0 ≤ y ∧ y < (s0.n1 : Int)) ∧ rd D y ≠ INF ∧
        (∃ v, v ∈ rd s0.adj y ∧ rd s0.matchV v = NIL) ∧ rd D y + 1 < rd D x + us.length) ∨
      (GoodEnd D s0 t x ∧ ∃ y, (0 ≤ y ∧ y < (s0.n1 : Int)) ∧ rd D y ≠ INF ∧
        (∃ v, v ∈ rd s0.adj y ∧ rd s0.matchV v = NIL) ∧ rd D y + 1 = rd D x + us.length) := by
  intro x us h
  induction h with
  | last x v hv hf =>
    intro h0 h1 hx
    right
    refine ⟨GoodEnd.free x v hv hf, x, ⟨h0, h1⟩, hx, ⟨v, by rw [← L.adj]; exact hv, ?_⟩, ?_⟩
    · by_contra hne
      exact L.keepV v hne hf
    · simp
  | cons x v us hv hne htail ih =>
    intro h0 h1 hx
    have hlen := htail.length_pos
    have hv0 : v ∈ rd s0.adj x := by rw [← L.adj]; exact hv
    by_cases hf0 : rd s0.matchV v = NIL
    · left
      refine ⟨x, ⟨h0, h1⟩, hx, ⟨v, hv0, hf0⟩, ?_⟩
      rw [List.length_cons]
      push_cast
      omega
    · have hvr := hst.adj_rng x v hv
      obtain ⟨hx2r, _⟩ := hmt.vu v hvr.1 hvr.2 hne
      rw [hn1] at hx2r
      have hle0 := hnear x h0 h1 hx v hv0 hf0
      have hxb := hD x h0 h1 hx
      have hcases := L.layer v hf0
      have hle : rd D (rd t.matchV v) ≤ rd D x + 1 := by
        rcases hcases with e | e
        · rw [e]; exact hle0
        · omega
      have hx2 : rd D (rd t.matchV v) ≠ INF := by omega
      rcases ih hx2r.1 hx2r.2 hx2 with ⟨y, hy, hyd, hyf, hlt⟩ | ⟨hg, y, hy, hyd, hyf, heq⟩
      · left
        refine ⟨y, hy, hyd, hyf, ?_⟩
        rw [List.length_cons]
        push_cast
        omega
      · by_cases htight : rd t.matchV v = rd s0.matchV v ∧ rd D (rd t.matchV v) = rd D x + 1
        · right
          refine ⟨GoodEnd.step x v hv hne htight.1 htight.2 hg, y, hy, hyd, hyf, ?_⟩
          rw [List.length_cons]
          push_cast
          omega
        · left
          refine ⟨y, hy, hyd, hyf, ?_⟩
          have hlt : rd D (rd t.matchV v) < rd D x + 1 := by
            rcases hcases with e | e
            · have : rd D (rd t.matchV v) ≠ rd D x + 1 := fun h' => htight ⟨e, h'⟩
              omega
            · omega
          rw [List.length_cons]
          push_cast
          omega

/-- C18: each round advances the shortest-augmenting-path length. Let `s` be a matcher
state with a valid matching (and `n1 < INT_MAX`) for which `bfs()` returns `true`,
leaving `s0`. Then the loop of `dfs` calls over all vertices of `U` returns, and
relative to the matching of the state `t` it leaves, every augmenting walk (so every
augmenting path) is strictly longer than some augmenting path of `s`. Hence if no
augmenting path of `s` has fewer than `k` edges, every augmenting path of `t` has more
than `k` edges. A walk with the vertices `us` of `U` has `2 * us.length - 1` edges. -/
theorem round_lengthens (s : HopcroftKarp) (hs : Shape s) (hm : Matching s)
    (hn : (s.n1 : Int) < INF) (s0 : HopcroftKarp) (hb : bfs s = some (true, s0)) (c : Nat) :
    ∃ t c2, augment (upto s0.n1) s0 c = some (t, c2) ∧
      (∀ us', AugWalk t us' → ∃ us, AugWalk s us ∧ us.Nodup ∧ us.length < us'.length) ∧
      (∀ k : Nat, (∀ us, AugWalk s us → us.Nodup → k ≤ 2 * us.length - 1) →
        ∀ us', AugWalk t us' → k < 2 * us'.length - 1) := by
  have B := bfs_post_of_eq hs hm hn hb
  have hs0 := B.shape_after hs
  have hm0 := B.matching_after hm
  have hd0 := B.distOK_after hn
  have hfresh : ∀ x ∈ upto s0.n1, rd s0.matchU x = NIL → rd s0.dist x = 0 := by
    intro x hx hfree
    rw [B.n1] at hx
    obtain ⟨a, b⟩ := (mem_upto _ _).1 hx
    exact B.inv.free0 x a b (by rw [← B.mU]; exact hfree)
  obtain ⟨t, c2, e, P, _⟩ := augment_spec (upto s0.n1) s0 c (nodup_upto _)
    (fun x hx => (mem_upto _ _).1 hx) hs0 hm0 hd0 hfresh
  obtain ⟨L, rest⟩ := augment_later s0.dist s0 (upto s0.n1) s0 c t c2 (nodup_upto _)
    (fun x hx => (mem_upto _ _).1 hx) hs0 hm0 hd0 hfresh (fun _ => Or.inl rfl) e
  have hno := rest (Later.start _ _) (fun _ _ => rfl)
  have hnear : ∀ u, 0 ≤ u → u < (s0.n1 : Int) → rd s0.dist u ≠ INF → ∀ v ∈ rd s0.adj u,
      rd s0.matchV v ≠ NIL → rd s0.dist (rd s0.matchV v) ≤ rd s0.dist u + 1 := by
    rw [B.n1, B.adj, B.mV]
    exact bfs_near s hs hm hn true s0 hb
  have hD : ∀ x, 0 ≤ x → x < (s0.n1 : Int) → rd s0.dist x ≠ INF →
      rd s0.dist x < (s0.n1 : Int) := by
    intro x h0 h1 hx
    rcases hd0.2 x h0 h1 with e' | e'
    · exact absurd e' hx
    · exact e'.2
  have key : ∀ us', AugWalk t us' → ∃ us, AugWalk s us ∧ us.Nodup ∧ us.length < us'.length := by
    rintro us' ⟨u0, h0, h1, hf, ht⟩
    rw [P.n1] at h1
    have hf0 : rd s0.matchU u0 = NIL := by
      by_contra hne
      exact L.keepU u0 hne hf
    have hd00 : rd s0.dist u0 = 0 := hfresh u0 ((mem_upto _ _).2 ⟨h0, h1⟩) hf0
    have hne0 : rd s0.dist u0 ≠ INF := by rw [hd00]; exact ne_of_lt INF_pos
    rcases tail_short L P.shape P.matching P.n1 (by rw [B.n1]; exact hn) hD hnear u0 us' ht
      h0 h1 hne0 with ⟨y, hy, hyd, ⟨v, hv, hvf⟩, hlt⟩ | ⟨hg, _⟩
    · rw [B.n1] at hy
      have hyb := (B.inv.bound y hy.1 hy.2 hyd).1
      obtain ⟨n, hn'⟩ := Int.eq_ofNat_of_zero_le hyb
      obtain ⟨us, a, b, c'⟩ := tree_path B.inv n y [y] hy.1 hy.2 hn' hyd
        (AltTail.last y v (by rw [← B.adj]; exact hv) (by rw [← B.mV]; exact hvf))
        (fun z hz => by rw [List.mem_singleton.1 hz]) (List.nodup_singleton y)
      refine ⟨us, a, b, ?_⟩
      rw [hd00, hn'] at hlt
      rw [c', List.length_singleton]
      omega
    · exact absurd hg (hno u0 ((mem_upto _ _).2 ⟨h0, h1⟩) hf)
  refine ⟨t, c2, e, key, ?_⟩
  intro k hk us' hw
  obtain ⟨us, a, b, c'⟩ := key us' hw
  have := hk us a b
  omega

theorem round_lengthens_witness :
    (layerExample.n1 : Int) < INF ∧
    bfs layerExample = some (true, { layerExample with dist := [0, 0] }) ∧
    ∃ t c2, augment (upto 2) { layerExample with dist := [0, 0] } 0 = some (t, c2) ∧
      (∀ us', AugWalk t us' → ∃ us, AugWalk layerExample us ∧
        us.Nodup ∧ us.length < us'.length) ∧
      (∀ k : Nat, (∀ us, AugWalk layerExample us → us.Nodup → k ≤ 2 * us.length - 1) →
        ∀ us', AugWalk t us' → k < 2 * us'.length - 1) :=
  ⟨by decide, by decide,
    round_lengthens layerExample (load_props 2 2 _).1 (load_props 2 2 _).2.1 (by decide)
      { layerExample with dist := [0, 0] } (by decide) 0⟩

end HK
